import Mathlib

/-!
# The `solve` and `msolve` macros of `basilisk/src/solve.h`

A shallow embedding of the two multigrid solving macros and of the per-cell
linear solve they contain.

Conventions of the embedding.

* In the model of the two macros a C `double` is an exact rational (`ℚ`):
  rounding is not modelled there, and the places where C divides by a value that
  may be zero are pointed out where they occur. The statements on the values the
  per-cell code computes (the probe, the cell solve, the relaxation update, the
  maximum of the residuals) are made on a second model of these pieces, in IEEE
  binary64 (`Dbl`, `round64`, `probeCell64`, `cellSolve64`, `relaxCell64`,
  `maxAbs64`).
* A C `int` is an `Int`.
* The grid engine (cell iterators, restriction, prolongation, boundary
  conditions) is not part of `solve.h`; it is a parameter (`Grid`, `Boundary`).
* An expression passed to a macro (`func`, `rhs`, the `equations`) is a function
  of the stored values of the unknown(s) and of the point at which it is
  evaluated.
-/

namespace Basilisk

/-! ## Fields and the grid engine -/

/-- The boundary condition attached to a scalar field: what `boundary_level`
does to the stored values on one level, and what the engine does before a
`foreach()` whose body reads the stencil of the field. -/
structure Boundary (P : Type) where
  onLevel : Int → (P → ℚ) → (P → ℚ)
  onLeaves : (P → ℚ) → (P → ℚ)

/-- A `scalar`: its stored values (one per cell of every level, ghost cells
included) and its attributes `boundary` and `boundary_homogeneous`. -/
structure Scalar (P : Type) where
  val : P → ℚ
  boundary : Boundary P
  boundary_homogeneous : Boundary P

/-- The assignment `s[] = v` at point `p`. -/
def Scalar.set {P : Type} [DecidableEq P] (s : Scalar P) (p : P) (v : ℚ) : Scalar P :=
  { s with val := Function.update s.val p v }

/-- The services of the grid engine used by `solve.h`. -/
structure Grid (P : Type) where
  /-- the value of `grid->maxdepth` -/
  maxdepth : Int
  /-- the cells visited by `foreach()` -/
  leaves : List P
  /-- the cells visited by `foreach_level (l)` -/
  level : Int → List P
  /-- the cells visited by `foreach_level_or_leaf (l)` -/
  levelOrLeaf : Int → List P
  /-- the effect of `restriction ({s})` on the stored values -/
  restriction : (P → ℚ) → (P → ℚ)
  /-- the value of `bilinear (point, s)` -/
  bilinear : P → (P → ℚ) → ℚ
  /-- the content of a newly allocated field -/
  fresh : P → ℚ

/-- The failures raised by the `assert`s of `msolve`: lines 332 and 337
(`SingularSystem`) and line 343 (`UnsupportedSystemSize`). -/
inductive SolveError
  | SingularSystem
  | UnsupportedSystemSize
  deriving DecidableEq, Repr

/-- The `mgstats` structure of `poisson.h`, fields used by `solve.h`. -/
structure mgstats where
  i : Int
  resb : ℚ
  resa : ℚ
  nrelax : Int
  minlevel : Int
  deriving DecidableEq, Repr

/-- An equation of `msolve`: its value at a point given the auxiliary fields
(`σ`) and the stored values of the unknowns. -/
abbrev Eqn (σ P : Type) := σ → List (P → ℚ) → P → ℚ

/-! ## The per-cell linear solve of `msolve` -/

/-- The assignment `double * R = equations`: entry `j` is the value of equation
`j` at `p`. Entries past the end of the list are read as `0`. -/
def evalEqs {σ P : Type} (equations : List (Eqn σ P)) (env : σ) (X : List (Scalar P)) (p : P) :
    Nat → ℚ :=
  fun j =>
    match equations.get? j with
    | some e => e env (X.map Scalar.val) p
    | none => 0

/-- The loop `for (scalar _s in _list) _s[] = v`. -/
def setAll {P : Type} [DecidableEq P] (X : List (Scalar P)) (p : P) (v : ℚ) : List (Scalar P) :=
  X.map (fun s => s.set p v)

/-- The assignment `_s[] = v` for the unknown of index `k`. -/
def setNth {P : Type} [DecidableEq P] : List (Scalar P) → Nat → P → ℚ → List (Scalar P)
  | [], _, _, _ => []
  | s :: X, 0, p, v => s.set p v :: X
  | s :: X, k + 1, p, v => s :: setNth X k p v

/-- The assignments `x0[] = ...`, `x1[] = ...`: the unknown of index `k` receives
the entry `k` of `x`. -/
def writeCell {P : Type} [DecidableEq P] : List (Scalar P) → P → List ℚ → List (Scalar P)
  | s :: X, p, v :: x => s.set p v :: writeCell X p x
  | X, _, _ => X

/-- The value at `p` of the field of index `k` of a list (`0` past the end). -/
def valAt {P : Type} (L : List (Scalar P)) (k : Nat) (p : P) : ℚ :=
  match L.get? k with
  | some s => s.val p
  | none => 0

/-- Lines 295-297: the vector `_R`, each equation evaluated with all the unknowns
set to zero at the cell. -/
def probeR {σ P : Type} [DecidableEq P] (equations : List (Eqn σ P)) (env : σ)
    (X : List (Scalar P)) (p : P) : Nat → ℚ :=
  evalEqs equations env (setAll X p 0) p

/-- Lines 306-313: the matrix `_D`; `_D[k][j]` is equation `j` evaluated with
unknown `k` set to one and the others to zero at the cell, minus `_R[j]`. The
difference is the exact one; `probeCell64` rounds it. -/
def probeD {σ P : Type} [DecidableEq P] (equations : List (Eqn σ P)) (env : σ)
    (X : List (Scalar P)) (p : P) : Nat → Nat → ℚ :=
  fun k j => evalEqs equations env (setNth (setAll X p 0) k p 1) p j - probeR equations env X p j

/-- Lines 330-343: the solve for the diagonal unknowns, by the number `_len` of
unknowns. The result is the list of the values assigned to `x0` (and `x1`). The
products and quotients are the exact ones; `cellSolve64` rounds them. -/
def cellSolve (len : Nat) (D : Nat → Nat → ℚ) (R : Nat → ℚ) : Except SolveError (List ℚ) :=
  if len = 1 then
    if D 0 0 ≠ 0 then .ok [- R 0 / D 0 0]
    else .error .SingularSystem
  else if len = 2 then
    let det := D 0 0 * D 1 1 - D 0 1 * D 1 0
    if det ≠ 0 then
      .ok [(D 1 0 * R 1 - D 1 1 * R 0) / det, (D 0 1 * R 0 - D 0 0 * R 1) / det]
    else .error .SingularSystem
  else .error .UnsupportedSystemSize

/-- Lines 295-343: the body of the relaxation loop of `msolve` at one cell. -/
def relaxCell {σ P : Type} [DecidableEq P] (equations : List (Eqn σ P)) (env : σ)
    (lrhs lres : List (Scalar P)) (X : List (Scalar P)) (p : P) :
    Except SolveError (List (Scalar P)) :=
  let X0 := setAll X p 0
  let R := probeR equations env X p
  let D := probeD equations env X p
  let R1 : Nat → ℚ := fun k => R k + (valAt lres k p - valAt lrhs k p)
  match cellSolve X.length D R1 with
  | .ok x => .ok (writeCell X0 p x)
  | .error e => .error e

/-! ## The per-cell update of `solve` -/

/-- Modelled from the spec: the operator `diagonalize (a)` is not defined in
`solve.h`. The single-unknown solve is the N=1 instance of the probe (spec 4.6),
and lines 131-143 of `solve.h` give the same reading: `_d` is `func` with `a[]`
set to one minus `func` with `a[]` set to zero. -/
def diagonalize {P : Type} [DecidableEq P] (func : (P → ℚ) → P → ℚ) (a : P → ℚ) (p : P) : ℚ :=
  func (Function.update a p 1) p - func (Function.update a p 0) p

/-- Lines 125-129: the body of the relaxation loop of `solve` at one cell, for the
field `a` (which is `_da` there). No test is made on `_d`: when it is zero the C
code stores the IEEE quotient (an infinity or a NaN) and goes on; the model then
stores the quotient of `ℚ`. -/
def solveRelaxCell {P : Type} [DecidableEq P] (func : (P → ℚ) → P → ℚ) (res : P → ℚ)
    (a : Scalar P) (p : P) : Scalar P :=
  let a0 := a.set p 0
  let n := res p - func a0.val p
  let d := diagonalize func a0.val p
  a0.set p (n / d)

/-! ## Pieces shared by the two macros -/

/-- The comparison `_resb/_s.resa < c` of doubles. With a zero divisor the C
quotient is an infinity or a NaN, and the comparison is decided accordingly. -/
def ratioLt (resb resa c : ℚ) : Bool :=
  if resa = 0 then decide (resb < 0) else decide (resb / resa < c)

/-- The comparison `_resb/_s.resa > c` of doubles, zero divisor as in `ratioLt`. -/
def ratioGt (resb resa c : ℚ) : Bool :=
  if resa = 0 then decide (0 < resb) else decide (resb / resa > c)

/-- Lines 160-165 and 386-391: the tuning of the number of relaxations. -/
def tune (tolerance resb resa : ℚ) (nrelax : Int) : Int :=
  if resa > tolerance then
    if ratioLt resb resa (6 / 5) = true ∧ nrelax < 100 then nrelax + 1
    else if ratioGt resb resa 10 = true ∧ nrelax > 2 then nrelax - 1
    else nrelax
  else nrelax

/-- The condition of the main loop, lines 107 and 256. -/
def continues (NITERMAX NITERMIN : Int) (tolerance : ℚ) (s : mgstats) : Prop :=
  s.i < NITERMAX ∧ (s.i < NITERMIN ∨ s.resa > tolerance)

instance (NITERMAX NITERMIN : Int) (tolerance : ℚ) (s : mgstats) :
    Decidable (continues NITERMAX NITERMIN tolerance s) := by
  unfold continues
  infer_instance

/-- The levels visited by `for (int l = _minlevel; l <= _maxlevel; l++)`. -/
def levelsFrom (minl maxl : Int) : List Int :=
  (List.range (maxl + 1 - minl).toNat).map (fun (k : Nat) => minl + (k : Int))

/-- The call `boundary_level ({s}, l)`. -/
def boundaryLevel {P : Type} (s : Scalar P) (l : Int) : Scalar P :=
  { s with val := s.boundary.onLevel l s.val }

/-- The boundary conditions the engine applies to `s` before a `foreach()` whose
body reads the stencil of `s`. -/
def boundaryLeaves {P : Type} (s : Scalar P) : Scalar P :=
  { s with val := s.boundary.onLeaves s.val }

/-- The update of the running maximum: `if (fabs (r) > maxres) maxres = fabs (r)`,
for a residual that is a number; `maxAbs64` is the update in binary64, where the
residual may be a NaN. -/
def maxAbs (maxres r : ℚ) : ℚ :=
  if |r| > maxres then |r| else maxres

/-! ## The macro `solve` -/

/-- Lines 99-105 and 152-158: the residual `_res[] = rhs - func` on the leaves and
its maximum; `a` holds the values the stencil of `func` reads. -/
def solveResidual {P : Type} [DecidableEq P] (func : (P → ℚ) → P → ℚ) (rhs : P → ℚ)
    (a : P → ℚ) : List P → (P → ℚ) × ℚ → (P → ℚ) × ℚ
  | [], acc => acc
  | p :: ps, acc =>
    let r := rhs p - func a p
    solveResidual func rhs a ps (Function.update acc.1 p r, maxAbs acc.2 r)

/-- Lines 114-116: `_da[] = 0.` on the cells of the coarsest level. -/
def seedZero {P : Type} [DecidableEq P] : List P → Scalar P → Scalar P
  | [], s => s
  | p :: ps, s => seedZero ps (s.set p 0)

/-- Lines 118-120: `_da[] = bilinear (point, _da)` on the cells of a level. -/
def seedBilinear {P : Type} [DecidableEq P] (G : Grid P) : List P → Scalar P → Scalar P
  | [], s => s
  | p :: ps, s => seedBilinear G ps (s.set p (G.bilinear p s.val))

/-- Lines 124-130: one relaxation sweep of `solve` over the cells of a level, in
place. -/
def solveSweep {P : Type} [DecidableEq P] (func : (P → ℚ) → P → ℚ) (res : P → ℚ) :
    List P → Scalar P → Scalar P
  | [], a => a
  | p :: ps, a => solveSweep func res ps (solveRelaxCell func res a p)

/-- Lines 122-145: `nrelax` sweeps on level `l`, each followed by
`boundary_level`. -/
def solveRelax {P : Type} [DecidableEq P] (G : Grid P) (func : (P → ℚ) → P → ℚ)
    (res : P → ℚ) (l : Int) : Nat → Scalar P → Scalar P
  | 0, a => a
  | n + 1, a => solveRelax G func res l n (boundaryLevel (solveSweep func res (G.levelOrLeaf l) a) l)

/-- Lines 113-145: the body of the loop on levels. -/
def solveLevel {P : Type} [DecidableEq P] (G : Grid P) (func : (P → ℚ) → P → ℚ)
    (res : P → ℚ) (nrelax minl : Int) (da : Scalar P) (l : Int) : Scalar P :=
  let da1 := if l = minl then seedZero (G.levelOrLeaf l) da else seedBilinear G (G.level l) da
  solveRelax G func res l nrelax.toNat (boundaryLevel da1 l)

/-- Lines 112-146: the loop on levels. -/
def solveLevels {P : Type} [DecidableEq P] (G : Grid P) (func : (P → ℚ) → P → ℚ)
    (res : P → ℚ) (nrelax minl : Int) : List Int → Scalar P → Scalar P
  | [], da => da
  | l :: ls, da => solveLevels G func res nrelax minl ls (solveLevel G func res nrelax minl da l)

/-- Lines 147-149: `a[] += _da[]` on the leaves. -/
def addCorrection {P : Type} [DecidableEq P] (da : Scalar P) : List P → Scalar P → Scalar P
  | [], a => a
  | p :: ps, a => addCorrection da ps (a.set p (a.val p + da.val p))

/-- The variables of `solve` that live across the iterations of the main loop:
the statistics `_s`, the local `_resb`, the unknown `a`, and the temporaries
`_res` and `_da`. -/
structure SolveState (P : Type) where
  s : mgstats
  resb : ℚ
  a : Scalar P
  res : P → ℚ
  da : Scalar P

/-- Lines 108-166 and the `_s.i++` of line 107: one iteration of the main loop of
`solve`. The `foreach()` of line 153 reads the stencil of `a`, which the engine
first brings up to date with the boundary condition of `a` (`boundaryLeaves`). -/
def solveIter {P : Type} [DecidableEq P] (G : Grid P) (func : (P → ℚ) → P → ℚ)
    (rhs : P → ℚ) (minlevel : Int) (tolerance : ℚ) (st : SolveState P) : SolveState P :=
  let res1 := G.restriction st.res
  let maxl := G.maxdepth
  let minl := min minlevel maxl
  let da1 := solveLevels G func res1 st.s.nrelax minl (levelsFrom minl maxl) st.da
  let a1 := boundaryLeaves (addCorrection da1 G.leaves st.a)
  let r := solveResidual func rhs a1.val G.leaves (res1, 0)
  let resa := r.2
  { s := { st.s with i := st.s.i + 1, resa := resa,
                     nrelax := tune tolerance st.resb resa st.s.nrelax }
    resb := resa
    a := a1
    res := r.1
    da := da1 }

/-- Line 107: the main loop of `solve`. -/
def solveLoop {P : Type} [DecidableEq P] (G : Grid P) (NITERMAX NITERMIN : Int)
    (func : (P → ℚ) → P → ℚ) (rhs : P → ℚ) (minlevel : Int) (tolerance : ℚ)
    (st : SolveState P) : SolveState P :=
  if continues NITERMAX NITERMIN tolerance st.s then
    solveLoop G NITERMAX NITERMIN func rhs minlevel tolerance
      (solveIter G func rhs minlevel tolerance st)
  else st
termination_by (NITERMAX - st.s.i).toNat
decreasing_by
  simp_wf
  rename_i h
  have h1 := h.1
  simp only [solveIter]
  omega

/-- Lines 91-106: the state of `solve` on entry to the main loop. The field `_da`
is a clone of `a` whose boundary condition is the homogeneous one; the
`foreach()` of line 100 reads the stencil of `a` (`boundaryLeaves`). -/
def solveInit {P : Type} [DecidableEq P] (G : Grid P) (func : (P → ℚ) → P → ℚ)
    (rhs : P → ℚ) (a : Scalar P) (nrelax : Int) : SolveState P :=
  let da : Scalar P :=
    { val := G.fresh, boundary := a.boundary_homogeneous,
      boundary_homogeneous := a.boundary_homogeneous }
  let a1 := boundaryLeaves a
  let r := solveResidual func rhs a1.val G.leaves (G.fresh, 0)
  { s := { i := 0, resb := r.2, resa := r.2, nrelax := nrelax, minlevel := 0 }
    resb := r.2
    a := a1
    res := r.1
    da := da }

/-- What `solve` leaves behind: the statistics it returns, the unknown, and
whether the warning of lines 169-174 was printed. -/
structure SolveResult (P : Type) where
  stats : mgstats
  a : Scalar P
  warning : Bool

/-- The macro `solve` (lines 85-176). `NITERMAX` and `NITERMIN` are the global
variables of `poisson.h`. -/
def solve {P : Type} [DecidableEq P] (G : Grid P) (NITERMAX NITERMIN : Int)
    (a : Scalar P) (func : (P → ℚ) → P → ℚ) (rhs : P → ℚ)
    (nrelax minlevel : Int) (tolerance : ℚ) : SolveResult P :=
  let st := solveLoop G NITERMAX NITERMIN func rhs minlevel tolerance
    (solveInit G func rhs a nrelax)
  { stats := { st.s with minlevel := minlevel }
    a := st.a
    warning := decide (st.s.resa > tolerance) }

/-! ## The macro `msolve` -/

/-- The call `list_clone (_list)`: new fields with the attributes of the fields of
the list. -/
def listClone {P : Type} (G : Grid P) (X : List (Scalar P)) : List (Scalar P) :=
  X.map (fun s => { s with val := G.fresh })

/-- The loop `for (scalar res in _lres) res[] = R[i++]`, from index `i`. -/
def assignIdx {P : Type} [DecidableEq P] : List (Scalar P) → Nat → P → (Nat → ℚ) → List (Scalar P)
  | [], _, _, _ => []
  | r :: L, i, p, R => r.set p (R i) :: assignIdx L (i + 1) p R

/-- The running maximum of lines 225-229 and 375-379 over the fields of `_lres`,
from index `i`. -/
def maxIdx {P : Type} : List (Scalar P) → Nat → (Nat → ℚ) → ℚ → ℚ
  | [], _, _, m => m
  | _ :: L, i, R, m => maxIdx L (i + 1) R (maxAbs m (R i))

/-- The loop `for (s, ds in _list, _lds) ds[] = s[]` at one cell. -/
def copyCell {P : Type} [DecidableEq P] : List (Scalar P) → List (Scalar P) → P → List (Scalar P)
  | s :: X, d :: L, p => d.set p (s.val p) :: copyCell X L p
  | _, L, _ => L

/-- Lines 222-233: the initial residuals and their maximum, and the copy of the
initial solution into `_lds`; `X` holds the values the stencils read. The state is
`(_lres, maxres, _lds)`. -/
def msolveResidual0 {σ P : Type} [DecidableEq P] (equations : List (Eqn σ P)) (env : σ)
    (X : List (Scalar P)) :
    List P → List (Scalar P) × ℚ × List (Scalar P) → List (Scalar P) × ℚ × List (Scalar P)
  | [], acc => acc
  | p :: ps, acc =>
    let R := evalEqs equations env X p
    msolveResidual0 equations env X ps
      (assignIdx acc.1 0 p R, maxIdx acc.1 0 R acc.2.1, copyCell X acc.2.2 p)

/-- Lines 372-380: the residuals and their maximum. The state is `(_lres, maxres)`. -/
def msolveResidual {σ P : Type} [DecidableEq P] (equations : List (Eqn σ P)) (env : σ)
    (X : List (Scalar P)) : List P → List (Scalar P) × ℚ → List (Scalar P) × ℚ
  | [], acc => acc
  | p :: ps, acc =>
    let R := evalEqs equations env X p
    msolveResidual equations env X ps (assignIdx acc.1 0 p R, maxIdx acc.1 0 R acc.2)

/-- The call `reset (_list, 0.)`. -/
def resetZero {P : Type} (X : List (Scalar P)) : List (Scalar P) :=
  X.map (fun s => { s with val := fun _ => 0 })

/-- Lines 246-251: `rhs[] = R[i++]` on the cells of one level. -/
def rhsLevel {σ P : Type} [DecidableEq P] (equations : List (Eqn σ P)) (env : σ)
    (X : List (Scalar P)) : List P → List (Scalar P) → List (Scalar P)
  | [], L => L
  | p :: ps, L => rhsLevel equations env X ps (assignIdx L 0 p (evalEqs equations env X p))

/-- Lines 245-251: the non-homogeneous part of each equation on every level. -/
def rhsLevels {σ P : Type} [DecidableEq P] (G : Grid P) (equations : List (Eqn σ P)) (env : σ)
    (X : List (Scalar P)) : List Int → List (Scalar P) → List (Scalar P)
  | [], L => L
  | l :: ls, L => rhsLevels G equations env X ls (rhsLevel equations env X (G.level l) L)

/-- Lines 275-277: `s[] = 0.` for every unknown on the cells of the coarsest
level. -/
def mseedZero {P : Type} [DecidableEq P] : List P → List (Scalar P) → List (Scalar P)
  | [], X => X
  | p :: ps, X => mseedZero ps (setAll X p 0)

/-- Lines 279-281: `s[] = bilinear (point, s)` for every unknown on the cells of a
level. -/
def mseedBilinear {P : Type} [DecidableEq P] (G : Grid P) :
    List P → List (Scalar P) → List (Scalar P)
  | [], X => X
  | p :: ps, X => mseedBilinear G ps (X.map (fun s => s.set p (G.bilinear p s.val)))

/-- Lines 288-344: one relaxation sweep of `msolve` over the cells of a level, in
place; it stops at the first failed assertion. -/
def msolveSweep {σ P : Type} [DecidableEq P] (equations : List (Eqn σ P)) (env : σ)
    (lrhs lres : List (Scalar P)) : List P → List (Scalar P) → Except SolveError (List (Scalar P))
  | [], X => .ok X
  | p :: ps, X =>
    match relaxCell equations env lrhs lres X p with
    | .ok X1 => msolveSweep equations env lrhs lres ps X1
    | .error e => .error e

/-- Lines 287-346: `nrelax` sweeps on level `l`, each followed by
`boundary_level`. -/
def msolveRelax {σ P : Type} [DecidableEq P] (G : Grid P) (equations : List (Eqn σ P)) (env : σ)
    (lrhs lres : List (Scalar P)) (l : Int) :
    Nat → List (Scalar P) → Except SolveError (List (Scalar P))
  | 0, X => .ok X
  | n + 1, X =>
    match msolveSweep equations env lrhs lres (G.levelOrLeaf l) X with
    | .ok X1 => msolveRelax G equations env lrhs lres l n (X1.map (fun s => boundaryLevel s l))
    | .error e => .error e

/-- Lines 274-346: the body of the loop on levels. -/
def msolveLevel {σ P : Type} [DecidableEq P] (G : Grid P) (equations : List (Eqn σ P)) (env : σ)
    (lrhs lres : List (Scalar P)) (nrelax minl : Int) (X : List (Scalar P)) (l : Int) :
    Except SolveError (List (Scalar P)) :=
  let X1 := if l = minl then mseedZero (G.levelOrLeaf l) X else mseedBilinear G (G.level l) X
  msolveRelax G equations env lrhs lres l nrelax.toNat (X1.map (fun s => boundaryLevel s l))

/-- Lines 273-347: the loop on levels. -/
def msolveLevels {σ P : Type} [DecidableEq P] (G : Grid P) (equations : List (Eqn σ P)) (env : σ)
    (lrhs lres : List (Scalar P)) (nrelax minl : Int) :
    List Int → List (Scalar P) → Except SolveError (List (Scalar P))
  | [], X => .ok X
  | l :: ls, X =>
    match msolveLevel G equations env lrhs lres nrelax minl X l with
    | .ok X1 => msolveLevels G equations env lrhs lres nrelax minl ls X1
    | .error e => .error e

/-- Lines 355-357 at one cell: `s[] += ds[], ds[] = s[]` for every unknown. The
result is `(_list, _lds)`. -/
def accumCell {P : Type} [DecidableEq P] :
    List (Scalar P) → List (Scalar P) → P → List (Scalar P) × List (Scalar P)
  | s :: X, d :: L, p =>
    let v := s.val p + d.val p
    let r := accumCell X L p
    (s.set p v :: r.1, d.set p v :: r.2)
  | X, L, _ => (X, L)

/-- Lines 354-358: the update of the solution on the leaves. -/
def accumulate {P : Type} [DecidableEq P] :
    List P → List (Scalar P) × List (Scalar P) → List (Scalar P) × List (Scalar P)
  | [], acc => acc
  | p :: ps, acc => accumulate ps (accumCell acc.1 acc.2 p)

/-- Lines 359-364: `s.boundary[b] = ds.boundary[b]`. -/
def restoreBoundary {P : Type} : List (Scalar P) → List (Scalar P) → List (Scalar P)
  | s :: X, d :: L => { s with boundary := d.boundary } :: restoreBoundary X L
  | X, _ => X

/-- The variables of `msolve` that live across the iterations of the main loop:
the statistics `_s`, the local `_resb`, the unknowns `_list`, the auxiliary
fields, and the temporaries `_lres`, `_lds` and `_lrhs`. -/
structure MsolveState (σ P : Type) where
  s : mgstats
  resb : ℚ
  X : List (Scalar P)
  env : σ
  lres : List (Scalar P)
  lds : List (Scalar P)
  lrhs : List (Scalar P)

/-- Lines 262-364: the V-cycle of one iteration of `msolve` and the update of the
solution. The result is `(_list, _lds, _lres)`. -/
def msolveCycle {σ P : Type} [DecidableEq P] (G : Grid P) (equations : List (Eqn σ P))
    (minlevel : Int) (st : MsolveState σ P) :
    Except SolveError (List (Scalar P) × List (Scalar P) × List (Scalar P)) :=
  let X1 := st.X.map (fun s => { s with boundary := s.boundary_homogeneous })
  let lres1 := st.lres.map (fun r => { r with val := G.restriction r.val })
  let maxl := G.maxdepth
  let minl := min minlevel maxl
  match msolveLevels G equations st.env st.lrhs lres1 st.s.nrelax minl (levelsFrom minl maxl) X1 with
  | .ok X2 =>
    let r := accumulate G.leaves (X2, st.lds)
    .ok (restoreBoundary r.1 r.2, r.2, lres1)
  | .error e => .error e

/-- Lines 370-392 and the `_s.i++` of line 256: the ellipsis block, the new
residual, and the tuning of `nrelax`, after a V-cycle that left `(_list, _lds,
_lres)`. The `foreach()` of line 372 reads the stencils of the unknowns, which
the engine first brings up to date with their boundary conditions, restored at
lines 359-364 (`boundaryLeaves`). -/
def msolveFinish {σ P : Type} [DecidableEq P] (G : Grid P) (equations : List (Eqn σ P))
    (ellipsis : σ → List (Scalar P) → σ × List (Scalar P)) (tolerance : ℚ)
    (st : MsolveState σ P) (c : List (Scalar P) × List (Scalar P) × List (Scalar P)) :
    MsolveState σ P :=
  let e := ellipsis st.env c.1
  let X1 := e.2.map boundaryLeaves
  let r := msolveResidual equations e.1 X1 G.leaves (c.2.2, 0)
  let resa := r.2
  { s := { st.s with i := st.s.i + 1, resa := resa,
                     nrelax := tune tolerance st.resb resa st.s.nrelax }
    resb := resa
    X := X1
    env := e.1
    lres := r.1
    lds := c.2.1
    lrhs := st.lrhs }

/-- Line 256: the main loop of `msolve`. -/
def msolveLoop {σ P : Type} [DecidableEq P] (G : Grid P) (NITERMAX NITERMIN : Int)
    (equations : List (Eqn σ P)) (ellipsis : σ → List (Scalar P) → σ × List (Scalar P))
    (minlevel : Int) (tolerance : ℚ) (st : MsolveState σ P) :
    Except SolveError (MsolveState σ P) :=
  if continues NITERMAX NITERMIN tolerance st.s then
    match msolveCycle G equations minlevel st with
    | .ok c =>
      msolveLoop G NITERMAX NITERMIN equations ellipsis minlevel tolerance
        (msolveFinish G equations ellipsis tolerance st c)
    | .error e => .error e
  else .ok st
termination_by (NITERMAX - st.s.i).toNat
decreasing_by
  simp_wf
  rename_i h
  have h1 := h.1
  simp only [msolveFinish]
  omega

/-- Lines 207-251: the state of `msolve` on entry to the main loop: the ellipsis
block, the initial residuals (the `foreach()` of line 222 reads the stencils of
the unknowns, `boundaryLeaves`), the copy of the solution into `_lds`, the reset
of the unknowns and the evaluation of `_lrhs`. -/
def msolveInit {σ P : Type} [DecidableEq P] (G : Grid P) (equations : List (Eqn σ P))
    (ellipsis : σ → List (Scalar P) → σ × List (Scalar P)) (X : List (Scalar P)) (env : σ)
    (nrelax minlevel : Int) : MsolveState σ P :=
  let e := ellipsis env X
  let X1 := e.2.map boundaryLeaves
  let r := msolveResidual0 equations e.1 X1 G.leaves (listClone G X, 0, listClone G X)
  let maxl := G.maxdepth
  let minl := min minlevel maxl
  let X2 := resetZero X1
  { s := { i := 0, resb := r.2.1, resa := r.2.1, nrelax := nrelax, minlevel := 0 }
    resb := r.2.1
    X := X2
    env := e.1
    lres := r.1
    lds := r.2.2
    lrhs := rhsLevels G equations e.1 X2 (levelsFrom minl maxl) (listClone G X) }

/-- What `msolve` leaves behind: the statistics (written to `mg` when it is
given), the unknowns, the auxiliary fields, and whether the warning of lines
399-407 was printed. -/
structure MsolveResult (σ P : Type) where
  stats : mgstats
  X : List (Scalar P)
  env : σ
  warning : Bool

/-- The macro `msolve` (lines 201-413). `NITERMAX` and `NITERMIN` are the global
variables of `poisson.h`; `ellipsis` is the optional block, which may change the
auxiliary fields and the unknowns. -/
def msolve {σ P : Type} [DecidableEq P] (G : Grid P) (NITERMAX NITERMIN : Int)
    (X : List (Scalar P)) (equations : List (Eqn σ P))
    (ellipsis : σ → List (Scalar P) → σ × List (Scalar P)) (env : σ)
    (nrelax minlevel : Int) (tolerance : ℚ) : Except SolveError (MsolveResult σ P) :=
  match msolveLoop G NITERMAX NITERMIN equations ellipsis minlevel tolerance
      (msolveInit G equations ellipsis X env nrelax minlevel) with
  | .ok st =>
    .ok { stats := { st.s with minlevel := minlevel }
          X := st.X
          env := st.env
          warning := decide (st.s.resa > tolerance) }
  | .error e => .error e

/-! ## Small instances

A grid with a single cell, and a few systems of equations on it. They are the
concrete inputs at which the statements below are evaluated. -/

/-- The value at `p` of the unknown of index `k`, as read by an equation (`0`
past the end of the list). -/
def unknown {P : Type} (X : List (P → ℚ)) (k : Nat) (p : P) : ℚ :=
  match X.get? k with
  | some f => f p
  | none => 0

/-- A boundary condition that changes nothing. -/
def idBoundary (P : Type) : Boundary P :=
  { onLevel := fun _ f => f, onLeaves := fun f => f }

/-- The field with value `v` in every cell. -/
def constScalar (P : Type) (v : ℚ) : Scalar P :=
  { val := fun _ => v, boundary := idBoundary P, boundary_homogeneous := idBoundary P }

/-- A grid with one cell and one level. -/
def unitGrid : Grid Unit :=
  { maxdepth := 0
    leaves := [()]
    level := fun _ => [()]
    levelOrLeaf := fun _ => [()]
    restriction := fun f => f
    bilinear := fun p f => f p
    fresh := fun _ => 0 }

/-- The system `2 x0 + x1 - 3 = 0`, `x0 + 3 x1 - 5 = 0`. -/
def coupledEqs : List (Eqn Unit Unit) :=
  [fun _ X p => 2 * unknown X 0 p + unknown X 1 p - 3,
   fun _ X p => unknown X 0 p + 3 * unknown X 1 p - 5]

/-- The single equation `2 x0 - 4 = 0`. -/
def singleEq : List (Eqn Unit Unit) :=
  [fun _ X p => 2 * unknown X 0 p - 4]

/-- The single equation `0 - 1 = 0`, which does not contain the unknown. -/
def degenerateEq : List (Eqn Unit Unit) :=
  [fun _ _ _ => 0 - 1]

/-- The operator `func` that is zero whatever the unknown. -/
def zeroFunc : (Unit → ℚ) → Unit → ℚ :=
  fun _ _ => 0

/-- The operator `func = 2 a[]`. -/
def twiceFunc : (Unit → ℚ) → Unit → ℚ :=
  fun a p => 2 * a p

/-- A matrix `_D` with `_D[0][0] = _D[0][1] = _D[1][1] = 1` and `_D[1][0] = 0`. -/
def triangularD : Nat → Nat → ℚ :=
  fun k j => if k = 1 ∧ j = 0 then 0 else 1

/-- A vector `_R` with `_R[0] = 1` and `_R[1] = 0`. -/
def firstR : Nat → ℚ :=
  fun j => if j = 0 then 1 else 0

/-- The macro `msolve` called without an ellipsis block. -/
def noEllipsis {σ P : Type} : σ → List (Scalar P) → σ × List (Scalar P) :=
  fun env X => (env, X)

/-- A periodic grid with two cells (`false` and `true`) and one level. -/
def pairGrid : Grid Bool :=
  { maxdepth := 0
    leaves := [false, true]
    level := fun _ => [false, true]
    levelOrLeaf := fun _ => [false, true]
    restriction := fun f => f
    bilinear := fun p f => f p
    fresh := fun _ => 0 }

/-- The right-hand side with value 1 in the cell `false` and 0 in the cell `true`. -/
def pairRhs : Bool → ℚ :=
  fun p => if p then 0 else 1

/-- The list of equations `{func - b[]}` with which `msolve` is called on the
single unknown of `solve (a, func, b[])` (lines 68-74). -/
def singleEquation {σ P : Type} (func : (P → ℚ) → P → ℚ) (b : P → ℚ) : List (Eqn σ P) :=
  [fun _ X p => func (X.headD (fun _ => 0)) p - b p]

/-- The operator `func = a[1] - 3 a[]` on the periodic grid with two cells. -/
def pairDominant : (Bool → ℚ) → Bool → ℚ :=
  fun a p => a (!p) - 3 * a p

/-! ## The reference definition of the per-cell solver -/

/-- The state of `solve` after `k` executions of the body of the main loop. -/
def solveSteps {P : Type} [DecidableEq P] (G : Grid P) (func : (P → ℚ) → P → ℚ)
    (rhs : P → ℚ) (minlevel : Int) (tolerance : ℚ) : Nat → SolveState P → SolveState P
  | 0, st => st
  | k + 1, st => solveSteps G func rhs minlevel tolerance k (solveIter G func rhs minlevel tolerance st)

/-- The state of `msolve` after `k` executions of the body of the main loop, or
the failure of the first V-cycle that fails. -/
def msolveSteps {σ P : Type} [DecidableEq P] (G : Grid P) (equations : List (Eqn σ P))
    (ellipsis : σ → List (Scalar P) → σ × List (Scalar P)) (minlevel : Int) (tolerance : ℚ) :
    Nat → MsolveState σ P → Except SolveError (MsolveState σ P)
  | 0, st => .ok st
  | k + 1, st =>
    match msolveCycle G equations minlevel st with
    | .ok c => msolveSteps G equations ellipsis minlevel tolerance k (msolveFinish G equations ellipsis tolerance st c)
    | .error e => .error e

/-- What the comparison of the two macros on a single unknown `a` asks of the
grid engine, for the operator `func` and the levels of the V-cycle. The set
`vis l` holds the cells (ghost cells included) whose values are read on level
`l`.

* `leaves_nodup`, `leaves_cells`: `foreach()` visits each leaf once, and
  `foreach_level_or_leaf` on the finest level visits all the leaves;
* `cells_vis`, `next_cells`: the cells of a level are read on that level, and a
  cell of level `l + 1` or leaf below it is read on level `l` or is a cell of
  level `l + 1` proper;
* `boundary_local`: the homogeneous boundary condition on a level sets what is
  read on that level from the values in its cells;
* `func_local`, `bilinear_local`: `func` at a cell of a level, and the
  prolongation to a cell of the next level, read nothing else;
* `leaves_fixed`, `residual_local`: the boundary condition of `a` leaves the
  values in the leaves alone, and after it `func` at a leaf depends on the values
  in the leaves only;
* `restriction_odd`: the restriction to the cells of the levels of the cycle
  depends on the values in the leaves only and commutes with the change of sign;
* `rhs_cover`: every cell relaxed by the cycle is a cell of one of its levels. -/
structure Consistent {P : Type} (G : Grid P) (a : Scalar P) (func : (P → ℚ) → P → ℚ)
    (minlevel : Int) (vis : Int → P → Prop) : Prop where
  leaves_nodup : G.leaves.Nodup
  leaves_cells : ∀ p, p ∈ G.leaves → p ∈ G.levelOrLeaf G.maxdepth
  cells_vis : ∀ l p, p ∈ G.levelOrLeaf l → vis l p
  next_cells : ∀ l p, p ∈ G.levelOrLeaf (l + 1) → vis l p ∨ p ∈ G.level (l + 1)
  boundary_local : ∀ l f g, (∀ p, p ∈ G.levelOrLeaf l → f p = g p) →
    ∀ p, vis l p → a.boundary_homogeneous.onLevel l f p = a.boundary_homogeneous.onLevel l g p
  func_local : ∀ l p, p ∈ G.levelOrLeaf l → ∀ f g, (∀ q, vis l q → f q = g q) →
    func f p = func g p
  bilinear_local : ∀ l p, p ∈ G.level (l + 1) → ∀ f g, (∀ q, vis l q → f q = g q) →
    G.bilinear p f = G.bilinear p g
  leaves_fixed : ∀ f p, p ∈ G.leaves → a.boundary.onLeaves f p = f p
  residual_local : ∀ f g, (∀ p, p ∈ G.leaves → f p = g p) →
    ∀ p, p ∈ G.leaves → func (a.boundary.onLeaves f) p = func (a.boundary.onLeaves g) p
  restriction_odd : ∀ f g, (∀ p, p ∈ G.leaves → f p = - g p) →
    ∀ l, l ∈ levelsFrom (min minlevel G.maxdepth) G.maxdepth →
      ∀ p, p ∈ G.levelOrLeaf l → G.restriction f p = - G.restriction g p
  rhs_cover : ∀ l, l ∈ levelsFrom (min minlevel G.maxdepth) G.maxdepth →
    ∀ p, p ∈ G.levelOrLeaf l →
      ∃ l1, l1 ∈ levelsFrom (min minlevel G.maxdepth) G.maxdepth ∧ p ∈ G.level l1

/-- The relation between the state of `solve (a, func, b[])` and the state of
`msolve ({a}, {func - b[]})` at the head of their main loops: the same statistics
and `_resb`; the copy `_lds` of the solution holds the unknown of `solve` in the
leaves; the residuals are opposite in the leaves; `_lrhs` is `-b[]` in the cells
relaxed by the cycle; and, once an iteration has been executed, the unknowns
agree in the leaves. -/
structure Related {σ P : Type} (G : Grid P) (a : Scalar P) (b : P → ℚ) (minlevel : Int)
    (ss : SolveState P) (ms : MsolveState σ P) : Prop where
  stats : ms.s = ss.s
  resb : ms.resb = ss.resb
  a_boundary : ss.a.boundary = a.boundary
  da_boundary : ss.da.boundary = a.boundary_homogeneous
  fields : ∃ x d rm rh, ms.X = [x] ∧ ms.lds = [d] ∧ ms.lres = [rm] ∧ ms.lrhs = [rh] ∧
    x.boundary = a.boundary ∧ x.boundary_homogeneous = a.boundary_homogeneous ∧
    d.boundary = a.boundary ∧
    (∀ p, p ∈ G.leaves → d.val p = ss.a.val p) ∧
    (∀ p, p ∈ G.leaves → rm.val p = - ss.res p) ∧
    (∀ l, l ∈ levelsFrom (min minlevel G.maxdepth) G.maxdepth →
      ∀ p, p ∈ G.levelOrLeaf l → rh.val p = - b p) ∧
    (1 ≤ ss.s.i → ∀ p, p ∈ G.leaves → x.val p = ss.a.val p)

/-! ## Further instances and reference definitions -/

/-- Lines 307-312: the body of the loop on the unknowns, for the unknown of index
`k`: `_s[] = 1.`, the row `k` of `_D`, `_s[] = 0.`. The state is `(_list, _D)`. -/
def probeStep {σ P : Type} [DecidableEq P] (equations : List (Eqn σ P)) (env : σ) (p : P)
    (R : Nat → ℚ) (len : Nat) (acc : List (Scalar P) × (Nat → Nat → ℚ)) (k : Nat) :
    List (Scalar P) × (Nat → Nat → ℚ) :=
  let X1 := setNth acc.1 k p 1
  let r := evalEqs equations env X1 p
  (setNth X1 k p 0, fun k1 j => if k1 = k ∧ j < len then r j - R j else acc.2 k1 j)

/-- Lines 295-313: the probe at one cell, statement by statement. `D0` is the
content of the array `_D` before it is filled; the result is `(_R, _D, _list)`. -/
def probeCell {σ P : Type} [DecidableEq P] (equations : List (Eqn σ P)) (env : σ)
    (X : List (Scalar P)) (p : P) (D0 : Nat → Nat → ℚ) :
    (Nat → ℚ) × (Nat → Nat → ℚ) × List (Scalar P) :=
  let X0 := setAll X p 0
  let R := evalEqs equations env X0 p
  let r := (List.range X.length).foldl (probeStep equations env p R X.length) (X0, D0)
  (R, r.2, r.1)

/-- An ellipsis block that counts its executions in the auxiliary state and leaves
the unknowns as they are. -/
def countingEllipsis {P : Type} : Nat → List (Scalar P) → Nat × List (Scalar P) :=
  fun n X => (n + 1, X)

/-- The single equation `2 x0 - 4 = 0`, with a counter as auxiliary state. -/
def countedEq : List (Eqn Nat Unit) :=
  [fun _ X p => 2 * unknown X 0 p - 4]

/-- The RelaxationSweep of the specification (section 4.3), in its words: a
Jacobi-type sweep, in which every cell reads the values of the previous sweep.
The value written at each cell is the one the per-cell update computes from the
field `a0` as it was before the sweep began. -/
def snapshotSweep {P : Type} [DecidableEq P] (func : (P → ℚ) → P → ℚ) (res : P → ℚ)
    (a0 : Scalar P) : List P → Scalar P → Scalar P
  | [], a => a
  | p :: ps, a => snapshotSweep func res a0 ps (a.set p ((solveRelaxCell func res a0 p).val p))

/-- Lines 262-347: the V-cycle of one iteration of `msolve`, before the update of
the solution. The result is the correction it leaves in the unknowns. -/
def msolveCorrection {σ P : Type} [DecidableEq P] (G : Grid P) (equations : List (Eqn σ P))
    (minlevel : Int) (st : MsolveState σ P) : Except SolveError (List (Scalar P)) :=
  let X1 := st.X.map (fun s => { s with boundary := s.boundary_homogeneous })
  let lres1 := st.lres.map (fun r => { r with val := G.restriction r.val })
  let maxl := G.maxdepth
  let minl := min minlevel maxl
  msolveLevels G equations st.env st.lrhs lres1 st.s.nrelax minl (levelsFrom minl maxl) X1

/-- A value of the C type `double`: a finite number, an infinity or a NaN. -/
inductive Dbl
  | fin (q : ℚ)
  | inf (negative : Bool)
  | nan
deriving DecidableEq

/-- The integer nearest to `x`, the even one of the two when `x` lies halfway. -/
def roundHalfEven (x : ℚ) : Int :=
  if x - ⌊x⌋ < 1 / 2 then ⌊x⌋
  else if 1 / 2 < x - ⌊x⌋ then ⌊x⌋ + 1
  else if ⌊x⌋ % 2 = 0 then ⌊x⌋ else ⌊x⌋ + 1

/-- The binary exponent of `q` in binary64: that of its leading bit, and -1022
for the subnormal numbers. -/
def expo64 (q : ℚ) : Int := max (Int.log 2 |q|) (-1022)

/-- The spacing of the binary64 numbers around `q` (53 bits of significand). -/
def ulp64 (q : ℚ) : ℚ := 2 ^ (expo64 q - 52)

/-- The binary64 number that an operation of exact result `q` returns: `q`
rounded to the nearest multiple of `ulp64 q`, an infinity from `2^1024` on. -/
def round64 (q : ℚ) : Dbl :=
  if q = 0 then .fin 0
  else if (2 : ℚ) ^ (1024 : Int) ≤ roundHalfEven (|q| / ulp64 q) * ulp64 q then
    .inf (decide (q < 0))
  else .fin (if q < 0 then - (roundHalfEven (|q| / ulp64 q) * ulp64 q)
             else roundHalfEven (|q| / ulp64 q) * ulp64 q)

/-- The number `q` is a binary64 number: an operation of exact result `q` does not
round. -/
def Representable (q : ℚ) : Prop := round64 q = .fin q

instance (q : ℚ) : Decidable (Representable q) := by
  unfold Representable
  infer_instance

/-- The unary minus of C. -/
def Dbl.neg : Dbl → Dbl
  | .fin q => .fin (-q)
  | .inf s => .inf (!s)
  | .nan => .nan

/-- The addition of C on doubles. -/
def Dbl.add : Dbl → Dbl → Dbl
  | .fin a, .fin b => round64 (a + b)
  | .fin _, .inf s => .inf s
  | .inf s, .fin _ => .inf s
  | .inf s, .inf t => if s = t then .inf s else .nan
  | _, _ => .nan

/-- The subtraction of C on doubles. -/
def Dbl.sub (a b : Dbl) : Dbl := a.add b.neg

/-- The multiplication of C on doubles. -/
def Dbl.mul : Dbl → Dbl → Dbl
  | .fin a, .fin b => round64 (a * b)
  | .fin a, .inf s => if a = 0 then .nan else .inf (xor s (decide (a < 0)))
  | .inf s, .fin b => if b = 0 then .nan else .inf (xor s (decide (b < 0)))
  | .inf s, .inf t => .inf (xor s t)
  | _, _ => .nan

/-- The division of C on doubles. -/
def Dbl.div : Dbl → Dbl → Dbl
  | .fin a, .fin b =>
    if b = 0 then (if a = 0 then .nan else .inf (decide (a < 0))) else round64 (a / b)
  | .fin _, .inf _ => .fin 0
  | .inf s, .fin b => .inf (xor s (decide (b < 0)))
  | _, _ => .nan

/-- The function `fabs`. -/
def Dbl.abs : Dbl → Dbl
  | .fin q => .fin |q|
  | .inf _ => .inf false
  | .nan => .nan

/-- The comparison `a < b` of C: false when an operand is a NaN. -/
def Dbl.lt : Dbl → Dbl → Bool
  | .fin a, .fin b => decide (a < b)
  | .fin _, .inf s => !s
  | .inf s, .fin _ => s
  | .inf s, .inf t => s && !t
  | _, _ => false

/-- The comparison `a > b` of C. -/
def Dbl.gt (a b : Dbl) : Bool := b.lt a

/-- The comparison `a <= b` of C: false when an operand is a NaN. -/
def Dbl.le : Dbl → Dbl → Bool
  | .fin a, .fin b => decide (a ≤ b)
  | .fin _, .inf s => !s
  | .inf s, .fin _ => s
  | .inf s, .inf t => s || !t
  | _, _ => false

/-- The comparison `a != b` of C: true when an operand is a NaN. -/
def Dbl.ne : Dbl → Dbl → Bool
  | .fin a, .fin b => decide (a ≠ b)
  | .inf s, .inf t => decide (s ≠ t)
  | _, _ => true

/-! ## The per-cell code of `msolve` and the residual loops, in binary64 -/

/-- An equation of `msolve` as the C expression is evaluated: its binary64 value
at a point given the auxiliary fields and the stored values of the unknowns. -/
abbrev Eqn64 (σ P : Type) := σ → List (P → Dbl) → P → Dbl

/-- The assignment `double * R = equations`, in binary64: entry `j` is the value
of equation `j` at `p` (`0` past the end of the list). -/
def evalEqs64 {σ P : Type} (equations : List (Eqn64 σ P)) (env : σ) (X : List (P → Dbl))
    (p : P) : Nat → Dbl :=
  fun j =>
    match equations.get? j with
    | some e => e env X p
    | none => .fin 0

/-- The loop `for (scalar _s in _list) _s[] = v`. -/
def setAll64 {P : Type} [DecidableEq P] (X : List (P → Dbl)) (p : P) (v : Dbl) :
    List (P → Dbl) :=
  X.map (fun f => Function.update f p v)

/-- The assignment `_s[] = v` for the unknown of index `k`. -/
def setNth64 {P : Type} [DecidableEq P] : List (P → Dbl) → Nat → P → Dbl → List (P → Dbl)
  | [], _, _, _ => []
  | f :: X, 0, p, v => Function.update f p v :: X
  | f :: X, k + 1, p, v => f :: setNth64 X k p v

/-- The value at `p` of the field of index `k` of a list (`0` past the end). -/
def valAt64 {P : Type} (L : List (P → Dbl)) (k : Nat) (p : P) : Dbl :=
  match L.get? k with
  | some f => f p
  | none => .fin 0

/-- The assignments `x0[] = ...`, `x1[] = ...`: the unknown of index `k` receives
the entry `k` of `x`. -/
def writeCell64 {P : Type} [DecidableEq P] : List (P → Dbl) → P → List Dbl → List (P → Dbl)
  | f :: X, p, v :: x => Function.update f p v :: writeCell64 X p x
  | X, _, _ => X

/-- Lines 307-312 in binary64: the body of the loop on the unknowns, for the
unknown of index `k`: `_s[] = 1.`, the row `k` of `_D`, `_s[] = 0.`. The state is
`(_list, _D)`. -/
def probeStep64 {σ P : Type} [DecidableEq P] (equations : List (Eqn64 σ P)) (env : σ) (p : P)
    (R : Nat → Dbl) (len : Nat) (acc : List (P → Dbl) × (Nat → Nat → Dbl)) (k : Nat) :
    List (P → Dbl) × (Nat → Nat → Dbl) :=
  let X1 := setNth64 acc.1 k p (.fin 1)
  let r := evalEqs64 equations env X1 p
  (setNth64 X1 k p (.fin 0),
    fun k1 j => if k1 = k ∧ j < len then (r j).sub (R j) else acc.2 k1 j)

/-- Lines 295-313 in binary64: the probe at one cell, statement by statement. `D0`
is the content of the array `_D` before it is filled; the result is
`(_R, _D, _list)`. -/
def probeCell64 {σ P : Type} [DecidableEq P] (equations : List (Eqn64 σ P)) (env : σ)
    (X : List (P → Dbl)) (p : P) (D0 : Nat → Nat → Dbl) :
    (Nat → Dbl) × (Nat → Nat → Dbl) × List (P → Dbl) :=
  let X0 := setAll64 X p (.fin 0)
  let R := evalEqs64 equations env X0 p
  let r := (List.range X.length).foldl (probeStep64 equations env p R X.length) (X0, D0)
  (R, r.2, r.1)

/-- Lines 330-343 in binary64: the solve for the diagonal unknowns. The tests of
the assertions are the comparisons `!=` of C, which a NaN passes. -/
def cellSolve64 (len : Nat) (D : Nat → Nat → Dbl) (R : Nat → Dbl) :
    Except SolveError (List Dbl) :=
  if len = 1 then
    if (D 0 0).ne (.fin 0) then .ok [(R 0).neg.div (D 0 0)]
    else .error .SingularSystem
  else if len = 2 then
    let det := ((D 0 0).mul (D 1 1)).sub ((D 0 1).mul (D 1 0))
    if det.ne (.fin 0) then
      .ok [(((D 1 0).mul (R 1)).sub ((D 1 1).mul (R 0))).div det,
           (((D 0 1).mul (R 0)).sub ((D 0 0).mul (R 1))).div det]
    else .error .SingularSystem
  else .error .UnsupportedSystemSize

/-- Lines 295-343 in binary64: the body of the relaxation loop of `msolve` at one
cell. The loop of line 319 adds `res[] - rhs[]` to `_R[k]` for the fields of
`_lrhs` and `_lres`. -/
def relaxCell64 {σ P : Type} [DecidableEq P] (equations : List (Eqn64 σ P)) (env : σ)
    (lrhs lres X : List (P → Dbl)) (p : P) (D0 : Nat → Nat → Dbl) :
    Except SolveError (List (P → Dbl)) :=
  let pr := probeCell64 equations env X p D0
  let R1 : Nat → Dbl := fun k =>
    if k < lrhs.length ∧ k < lres.length then
      (pr.1 k).add ((valAt64 lres k p).sub (valAt64 lrhs k p))
    else pr.1 k
  match cellSolve64 X.length pr.2.1 R1 with
  | .ok x => .ok (writeCell64 pr.2.2 p x)
  | .error e => .error e

/-- The update of the running maximum in binary64:
`if (fabs (r) > maxres) maxres = fabs (r)`. The comparison is false for a NaN. -/
def maxAbs64 (maxres r : Dbl) : Dbl :=
  if r.abs.gt maxres then r.abs else maxres

/-- Lines 99-104 and 153-158 in binary64: the residual of `solve` in the cells of
`foreach()`, and its maximum. The state is `(_res, maxres)`. -/
def solveResidual64 {P : Type} [DecidableEq P] (func : (P → Dbl) → P → Dbl) (rhs : P → Dbl)
    (a : P → Dbl) : List P → (P → Dbl) × Dbl → (P → Dbl) × Dbl
  | [], acc => acc
  | p :: ps, acc =>
    solveResidual64 func rhs a ps
      (Function.update acc.1 p ((rhs p).sub (func a p)),
        maxAbs64 acc.2 ((rhs p).sub (func a p)))

/-- The loop `for (scalar res in _lres) { res[] = _R[i++]; if (fabs (res[]) >
maxres) maxres = fabs (res[]); }` at one cell, from index `i`. The state is
`(_lres, maxres)`. -/
def residualCell64 {P : Type} [DecidableEq P] :
    List (P → Dbl) → Nat → P → (Nat → Dbl) → Dbl → List (P → Dbl) × Dbl
  | [], _, _, _, m => ([], m)
  | f :: L, i, p, R, m =>
    ((Function.update f p (R i)) :: (residualCell64 L (i + 1) p R (maxAbs64 m (R i))).1,
      (residualCell64 L (i + 1) p R (maxAbs64 m (R i))).2)

/-- Lines 372-380 in binary64: the residuals of `msolve` in the cells of
`foreach()`, and their maximum. The state is `(_lres, maxres)`. -/
def msolveResidual64 {σ P : Type} [DecidableEq P] (equations : List (Eqn64 σ P)) (env : σ)
    (X : List (P → Dbl)) : List P → List (P → Dbl) × Dbl → List (P → Dbl) × Dbl
  | [], acc => acc
  | p :: ps, acc =>
    msolveResidual64 equations env X ps
      (residualCell64 acc.1 0 p (evalEqs64 equations env X p) acc.2)

/-- No operation of lines 331-340 rounds, for the coefficients `d` and the vector
`r`: the quotient for one unknown; the six products, the three differences and the
two quotients for two unknowns. -/
def ExactSolve (len : Nat) (d : Nat → Nat → ℚ) (r : Nat → ℚ) : Prop :=
  if len = 1 then Representable (- r 0 / d 0 0)
  else
    Representable (d 0 0 * d 1 1) ∧ Representable (d 0 1 * d 1 0) ∧
    Representable (d 0 0 * d 1 1 - d 0 1 * d 1 0) ∧
    Representable (d 1 0 * r 1) ∧ Representable (d 1 1 * r 0) ∧
    Representable (d 1 0 * r 1 - d 1 1 * r 0) ∧
    Representable ((d 1 0 * r 1 - d 1 1 * r 0) / (d 0 0 * d 1 1 - d 0 1 * d 1 0)) ∧
    Representable (d 0 1 * r 0) ∧ Representable (d 0 0 * r 1) ∧
    Representable (d 0 1 * r 0 - d 0 0 * r 1) ∧
    Representable ((d 0 1 * r 0 - d 0 0 * r 1) / (d 0 0 * d 1 1 - d 0 1 * d 1 0))

/-- The determinant line 336 computes for two unknowns, the coefficient of line
332 for one, in exact arithmetic. -/
def exactDet (len : Nat) (d : Nat → Nat → ℚ) : ℚ :=
  if len = 1 then d 0 0 else d 0 0 * d 1 1 - d 0 1 * d 1 0

/-- The value at `p` of the unknown of index `k`, as read by an equation in
binary64 (`0` past the end of the list). -/
def unknown64 {P : Type} (X : List (P → Dbl)) (k : Nat) (p : P) : Dbl :=
  match X.get? k with
  | some f => f p
  | none => .fin 0

/-- No operation of the relaxation update at a cell rounds, for equations of
constant terms `c` and coefficients `a` and for the stored values `s` of `res[]`
and `t` of `rhs[]`: the difference of line 311 (of exact result `a k j`), the
difference and the sum of line 320, and the operations of the solver. -/
structure ExactUpdate (n : Nat) (c : Nat → ℚ) (a : Nat → Nat → ℚ) (s t : Nat → ℚ) : Prop where
  coeff : ∀ k j, k < n → j < n → Representable (a k j)
  diff : ∀ j, j < n → Representable (s j - t j)
  sum : ∀ j, j < n → Representable (c j + (s j - t j))
  solver : ExactSolve n a (fun j => c j + (s j - t j))

/-! ## Instances in binary64 -/

/-- The coefficients `d 0 0 = 2`, `d 1 1 = 3`, `d 0 1 = d 1 0 = 1`: those of the
system `2 x0 + x1 + r0 = 0`, `x0 + 3 x1 + r1 = 0`. -/
def integerD : Nat → Nat → ℚ :=
  fun k j => if k = j then (if k = 0 then 2 else 3) else 1

/-- The vector `(-4, -7)`. -/
def integerR : Nat → ℚ :=
  fun j => if j = 0 then -4 else -7

/-- The coefficients `d 0 0 = 2`, `d 0 1 = 1`, `d 1 0 = 0`, `d 1 1 = 3`, which are
not symmetric. -/
def skewD : Nat → Nat → ℚ :=
  fun k j => if k = 0 then (if j = 0 then 2 else 1) else (if j = 0 then 0 else 3)

/-- The vector `(-4, -5)`. -/
def skewR : Nat → ℚ :=
  fun j => if j = 0 then -4 else -5

/-- The matrix `_D` with `2^-600` on the diagonal and `0` elsewhere. -/
def tinyD : Nat → Nat → ℚ :=
  fun k j => if k = j then 2 ^ (-600 : Int) else 0

/-- The single equation `1e16 + x0 = 0` as C evaluates it. -/
def bigOffsetEq : List (Eqn64 Unit Unit) :=
  [fun _ X p => (Dbl.fin 10000000000000000).add (unknown64 X 0 p)]

/-- The system `2 x0 + x1 - 3 = 0`, `x0 + 3 x1 - 5 = 0` as C evaluates it. -/
def coupledEqs64 : List (Eqn64 Unit Unit) :=
  [fun _ X p => (((Dbl.fin 2).mul (unknown64 X 0 p)).add (unknown64 X 1 p)).sub (.fin 3),
   fun _ X p => ((unknown64 X 0 p).add ((Dbl.fin 3).mul (unknown64 X 1 p))).sub (.fin 5)]

/-- The constant terms `(-3, -5)` of this system. -/
def coupledC : Nat → ℚ :=
  fun j => if j = 0 then -3 else -5

/-- The single equation `49 x0 - 1 = 0` as C evaluates it. -/
def fortyNineEq : List (Eqn64 Unit Unit) :=
  [fun _ X p => ((Dbl.fin 49).mul (unknown64 X 0 p)).sub (.fin 1)]

/-- The system `2^-600 x0 = 0`, `2^-600 x1 = 0` as C evaluates it. -/
def tinyEqs : List (Eqn64 Unit Unit) :=
  [fun _ X p => (Dbl.fin (2 ^ (-600 : Int))).mul (unknown64 X 0 p),
   fun _ X p => (Dbl.fin (2 ^ (-600 : Int))).mul (unknown64 X 1 p)]

/-! ## A tree grid with a leaf coarser than its finest level -/

/-- The cells of a binary tree of depth 2: the root, its two children, and the two
children of the left child. The right child is a leaf of level 1. -/
inductive TreeCell
  | root
  | left
  | right
  | leftLeft
  | leftRight
deriving DecidableEq

/-- The parent of a cell (the root for the root). -/
def TreeCell.parent : TreeCell → TreeCell
  | .root => .root
  | .left => .root
  | .right => .root
  | .leftLeft => .left
  | .leftRight => .left

/-- The tree grid of depth 2 on these cells. `foreach_level (l)` visits the cells
of level `l`, `foreach_level_or_leaf (l)` these and the leaves of the coarser
levels, `restriction` averages the children of each parent, from the finest level
down, and the prolongation is taken to be the value of the parent. The content of
a newly allocated field is `v` in every cell. -/
def treeGrid (v : ℚ) : Grid TreeCell :=
  { maxdepth := 2
    leaves := [.leftLeft, .leftRight, .right]
    level := fun l =>
      if l = 0 then [.root] else if l = 1 then [.left, .right]
      else if l = 2 then [.leftLeft, .leftRight] else []
    levelOrLeaf := fun l =>
      if l = 0 then [.root] else if l = 1 then [.left, .right]
      else if l = 2 then [.leftLeft, .leftRight, .right] else []
    restriction := fun f p =>
      match p with
      | .left => (f .leftLeft + f .leftRight) / 2
      | .root => ((f .leftLeft + f .leftRight) / 2 + f .right) / 2
      | q => f q
    bilinear := fun p f => f p.parent
    fresh := fun _ => v }

/-- The operator `func = 2 a[]` on the tree grid. -/
def doubleFunc : (TreeCell → ℚ) → TreeCell → ℚ :=
  fun a p => 2 * a p

/-! ## Facts on the assignment at a cell -/

theorem Scalar.set_set {P : Type} [DecidableEq P] (s : Scalar P) (p : P) (v w : ℚ) :
    (s.set p v).set p w = s.set p w := by
  simp [Scalar.set]

/-! ## The per-cell solver -/

/-- C2, as stated, fails: with `_D[0][0] = _D[0][1] = _D[1][1] = 1`,
`_D[1][0] = 0` (determinant 1) and `_R = (1, 0)` the solver returns
`(x0, x1) = (-1, 1)`, and `D[0][0]*x0 + D[0][1]*x1 = 0` is not `-R[0] = -1`. -/
theorem cellSolve_not_rowwise :
    triangularD 0 0 * triangularD 1 1 - triangularD 0 1 * triangularD 1 0 ≠ 0 ∧
    cellSolve 2 triangularD firstR = .ok [-1, 1] ∧
    triangularD 0 0 * (-1) + triangularD 0 1 * 1 ≠ - firstR 0 := by
  refine ⟨?_, ?_, ?_⟩
  · norm_num [triangularD]
  · norm_num [cellSolve, triangularD, firstR]
  · norm_num [triangularD, firstR]

theorem tune_lower (tolerance resb resa : ℚ) (n : Int) :
    min n 2 ≤ tune tolerance resb resa n := by
  unfold tune
  split_ifs <;> omega

theorem tune_upper (tolerance resb resa : ℚ) (n : Int) :
    tune tolerance resb resa n ≤ max n 100 := by
  unfold tune
  split_ifs <;> omega

theorem tune_near (tolerance resb resa : ℚ) (n : Int) :
    n - 1 ≤ tune tolerance resb resa n ∧ tune tolerance resb resa n ≤ n + 1 := by
  unfold tune
  split_ifs <;> omega

theorem tune_converged (tolerance resb resa : ℚ) (n : Int) (h : resa ≤ tolerance) :
    tune tolerance resb resa n = n := by
  unfold tune
  rw [if_neg (not_lt.mpr h)]

section SolveLoop

variable {P : Type} [DecidableEq P] (G : Grid P) (NITERMAX NITERMIN : Int)
  (func : (P → ℚ) → P → ℚ) (rhs : P → ℚ) (minlevel : Int) (tolerance : ℚ)

theorem solveIter_i (st : SolveState P) :
    (solveIter G func rhs minlevel tolerance st).s.i = st.s.i + 1 := rfl

theorem solveIter_nrelax (st : SolveState P) :
    (solveIter G func rhs minlevel tolerance st).s.nrelax
      = tune tolerance st.resb (solveIter G func rhs minlevel tolerance st).s.resa st.s.nrelax :=
  rfl

theorem solveIter_resb (st : SolveState P) :
    (solveIter G func rhs minlevel tolerance st).resb
      = (solveIter G func rhs minlevel tolerance st).s.resa := rfl

theorem solveSteps_succ (k : Nat) (st : SolveState P) :
    solveSteps G func rhs minlevel tolerance (k + 1) st
      = solveIter G func rhs minlevel tolerance (solveSteps G func rhs minlevel tolerance k st) := by
  induction k generalizing st with
  | zero => rfl
  | succ k ih =>
    show solveSteps G func rhs minlevel tolerance (k + 1) (solveIter G func rhs minlevel tolerance st) = _
    rw [ih]
    rfl

theorem solveSteps_i (k : Nat) (st : SolveState P) :
    (solveSteps G func rhs minlevel tolerance k st).s.i = st.s.i + k := by
  induction k with
  | zero => simp [solveSteps]
  | succ k ih =>
    rw [solveSteps_succ, solveIter_i, ih]
    push_cast
    ring

theorem solveSteps_nrelax_range (k : Nat) (st : SolveState P) :
    min st.s.nrelax 2 ≤ (solveSteps G func rhs minlevel tolerance k st).s.nrelax ∧
    (solveSteps G func rhs minlevel tolerance k st).s.nrelax ≤ max st.s.nrelax 100 := by
  induction k with
  | zero => simp [solveSteps]
  | succ k ih =>
    rw [solveSteps_succ, solveIter_nrelax]
    have h1 := tune_lower tolerance (solveSteps G func rhs minlevel tolerance k st).resb
      (solveIter G func rhs minlevel tolerance (solveSteps G func rhs minlevel tolerance k st)).s.resa
      (solveSteps G func rhs minlevel tolerance k st).s.nrelax
    have h2 := tune_upper tolerance (solveSteps G func rhs minlevel tolerance k st).resb
      (solveIter G func rhs minlevel tolerance (solveSteps G func rhs minlevel tolerance k st)).s.resa
      (solveSteps G func rhs minlevel tolerance k st).s.nrelax
    omega

/-- The main loop of `solve` executes its body a number `n` of times: the loop
condition holds before each of them and fails after the last. -/
theorem solveLoop_eq_steps (st : SolveState P) :
    ∃ n : Nat,
      solveLoop G NITERMAX NITERMIN func rhs minlevel tolerance st
        = solveSteps G func rhs minlevel tolerance n st ∧
      (∀ k, k < n →
        continues NITERMAX NITERMIN tolerance (solveSteps G func rhs minlevel tolerance k st).s) ∧
      ¬ continues NITERMAX NITERMIN tolerance (solveSteps G func rhs minlevel tolerance n st).s := by
  generalize hm : (NITERMAX - st.s.i).toNat = m
  induction m using Nat.strong_induction_on generalizing st with
  | _ m ih =>
    rw [solveLoop]
    by_cases hc : continues NITERMAX NITERMIN tolerance st.s
    · rw [if_pos hc]
      have hlt : (NITERMAX - (solveIter G func rhs minlevel tolerance st).s.i).toNat < m := by
        rw [solveIter_i]
        have := hc.1
        omega
      obtain ⟨n, h1, h2, h3⟩ := ih _ hlt (solveIter G func rhs minlevel tolerance st) rfl
      refine ⟨n + 1, h1, ?_, h3⟩
      intro k hk
      cases k with
      | zero => exact hc
      | succ j => exact h2 j (by omega)
    · rw [if_neg hc]
      exact ⟨0, rfl, fun k hk => absurd hk (Nat.not_lt_zero k), hc⟩

end SolveLoop

section MsolveLoop

variable {σ P : Type} [DecidableEq P] (G : Grid P) (NITERMAX NITERMIN : Int)
  (equations : List (Eqn σ P)) (ellipsis : σ → List (Scalar P) → σ × List (Scalar P))
  (minlevel : Int) (tolerance : ℚ)

theorem msolveFinish_i (st : MsolveState σ P)
    (c : List (Scalar P) × List (Scalar P) × List (Scalar P)) :
    (msolveFinish G equations ellipsis tolerance st c).s.i = st.s.i + 1 := rfl

theorem msolveFinish_nrelax (st : MsolveState σ P)
    (c : List (Scalar P) × List (Scalar P) × List (Scalar P)) :
    (msolveFinish G equations ellipsis tolerance st c).s.nrelax
      = tune tolerance st.resb (msolveFinish G equations ellipsis tolerance st c).s.resa st.s.nrelax :=
  rfl

theorem msolveFinish_resb (st : MsolveState σ P)
    (c : List (Scalar P) × List (Scalar P) × List (Scalar P)) :
    (msolveFinish G equations ellipsis tolerance st c).resb
      = (msolveFinish G equations ellipsis tolerance st c).s.resa := rfl

/-- A successful run of `k + 1` iterations starts with a successful V-cycle. -/
theorem msolveSteps_succ_ok (k : Nat) (st st1 : MsolveState σ P)
    (h : msolveSteps G equations ellipsis minlevel tolerance (k + 1) st = .ok st1) :
    ∃ c, msolveCycle G equations minlevel st = .ok c ∧
      msolveSteps G equations ellipsis minlevel tolerance k (msolveFinish G equations ellipsis tolerance st c)
        = .ok st1 := by
  rw [msolveSteps] at h
  cases hc : msolveCycle G equations minlevel st with
  | error e =>
    rw [hc] at h
    cases h
  | ok c =>
    rw [hc] at h
    exact ⟨c, rfl, h⟩

theorem msolveSteps_i (k : Nat) (st st1 : MsolveState σ P)
    (h : msolveSteps G equations ellipsis minlevel tolerance k st = .ok st1) :
    st1.s.i = st.s.i + k := by
  induction k generalizing st with
  | zero =>
    rw [msolveSteps] at h
    cases h
    simp
  | succ k ih =>
    obtain ⟨c, _, h2⟩ := msolveSteps_succ_ok G equations ellipsis minlevel tolerance k st st1 h
    rw [ih _ h2, msolveFinish_i]
    push_cast
    ring

theorem msolveSteps_nrelax_range (k : Nat) (st st1 : MsolveState σ P)
    (h : msolveSteps G equations ellipsis minlevel tolerance k st = .ok st1) :
    min st.s.nrelax 2 ≤ st1.s.nrelax ∧ st1.s.nrelax ≤ max st.s.nrelax 100 := by
  induction k generalizing st with
  | zero =>
    rw [msolveSteps] at h
    cases h
    simp
  | succ k ih =>
    obtain ⟨c, _, h2⟩ := msolveSteps_succ_ok G equations ellipsis minlevel tolerance k st st1 h
    have h3 := ih _ h2
    rw [msolveFinish_nrelax] at h3
    have h4 := tune_lower tolerance st.resb (msolveFinish G equations ellipsis tolerance st c).s.resa
      st.s.nrelax
    have h5 := tune_upper tolerance st.resb (msolveFinish G equations ellipsis tolerance st c).s.resa
      st.s.nrelax
    omega

/-- When the main loop of `msolve` comes to its end, it has executed its body a
number `n` of times: the loop condition held before each of them and fails after
the last. -/
theorem msolveLoop_ok (st st1 : MsolveState σ P)
    (h : msolveLoop G NITERMAX NITERMIN equations ellipsis minlevel tolerance st = .ok st1) :
    ∃ n : Nat,
      msolveSteps G equations ellipsis minlevel tolerance n st = .ok st1 ∧
      (∀ k, k < n → ∃ stk, msolveSteps G equations ellipsis minlevel tolerance k st = .ok stk ∧
        continues NITERMAX NITERMIN tolerance stk.s) ∧
      ¬ continues NITERMAX NITERMIN tolerance st1.s := by
  generalize hm : (NITERMAX - st.s.i).toNat = m
  induction m using Nat.strong_induction_on generalizing st with
  | _ m ih =>
    rw [msolveLoop] at h
    by_cases hc : continues NITERMAX NITERMIN tolerance st.s
    · rw [if_pos hc] at h
      cases hcy : msolveCycle G equations minlevel st with
      | error e =>
        rw [hcy] at h
        cases h
      | ok c =>
        rw [hcy] at h
        have hlt : (NITERMAX - (msolveFinish G equations ellipsis tolerance st c).s.i).toNat < m := by
          rw [msolveFinish_i]
          have := hc.1
          omega
        obtain ⟨n, h1, h2, h3⟩ := ih _ hlt (msolveFinish G equations ellipsis tolerance st c) h rfl
        refine ⟨n + 1, ?_, ?_, h3⟩
        · rw [msolveSteps, hcy]
          exact h1
        · intro k hk
          cases k with
          | zero => exact ⟨st, rfl, hc⟩
          | succ j =>
            obtain ⟨stk, h4, h5⟩ := h2 j (by omega)
            refine ⟨stk, ?_, h5⟩
            rw [msolveSteps, hcy]
            exact h4
    · rw [if_neg hc] at h
      cases h
      exact ⟨0, rfl, fun k hk => absurd hk (Nat.not_lt_zero k), hc⟩

end MsolveLoop

/-! ## Unfolding the main loops, and three concrete runs -/

theorem solveLoop_step {P : Type} [DecidableEq P] (G : Grid P) (NITERMAX NITERMIN : Int)
    (func : (P → ℚ) → P → ℚ) (rhs : P → ℚ) (minlevel : Int) (tolerance : ℚ) (st : SolveState P)
    (h : continues NITERMAX NITERMIN tolerance st.s) :
    solveLoop G NITERMAX NITERMIN func rhs minlevel tolerance st
      = solveLoop G NITERMAX NITERMIN func rhs minlevel tolerance
          (solveIter G func rhs minlevel tolerance st) := by
  rw [solveLoop, if_pos h]

theorem solveLoop_stop {P : Type} [DecidableEq P] (G : Grid P) (NITERMAX NITERMIN : Int)
    (func : (P → ℚ) → P → ℚ) (rhs : P → ℚ) (minlevel : Int) (tolerance : ℚ) (st : SolveState P)
    (h : ¬ continues NITERMAX NITERMIN tolerance st.s) :
    solveLoop G NITERMAX NITERMIN func rhs minlevel tolerance st = st := by
  rw [solveLoop, if_neg h]

theorem msolveLoop_step {σ P : Type} [DecidableEq P] (G : Grid P) (NITERMAX NITERMIN : Int)
    (equations : List (Eqn σ P)) (ellipsis : σ → List (Scalar P) → σ × List (Scalar P))
    (minlevel : Int) (tolerance : ℚ) (st : MsolveState σ P)
    (c : List (Scalar P) × List (Scalar P) × List (Scalar P))
    (h : continues NITERMAX NITERMIN tolerance st.s)
    (hc : msolveCycle G equations minlevel st = .ok c) :
    msolveLoop G NITERMAX NITERMIN equations ellipsis minlevel tolerance st
      = msolveLoop G NITERMAX NITERMIN equations ellipsis minlevel tolerance
          (msolveFinish G equations ellipsis tolerance st c) := by
  rw [msolveLoop, if_pos h, hc]

theorem msolveLoop_stop {σ P : Type} [DecidableEq P] (G : Grid P) (NITERMAX NITERMIN : Int)
    (equations : List (Eqn σ P)) (ellipsis : σ → List (Scalar P) → σ × List (Scalar P))
    (minlevel : Int) (tolerance : ℚ) (st : MsolveState σ P)
    (h : ¬ continues NITERMAX NITERMIN tolerance st.s) :
    msolveLoop G NITERMAX NITERMIN equations ellipsis minlevel tolerance st = .ok st := by
  rw [msolveLoop, if_neg h]

/-- With `NITERMAX = 1` and `NITERMIN >= 1` the main loop of `solve` executes its
body once. -/
theorem solveLoop_once {P : Type} [DecidableEq P] (G : Grid P) (NITERMIN : Int)
    (func : (P → ℚ) → P → ℚ) (rhs : P → ℚ) (minlevel : Int) (tolerance : ℚ) (st : SolveState P)
    (hi : st.s.i = 0) (hmin : 1 ≤ NITERMIN) :
    solveLoop G 1 NITERMIN func rhs minlevel tolerance st
      = solveIter G func rhs minlevel tolerance st := by
  rw [solveLoop_step, solveLoop_stop]
  · intro h
    have := h.1
    rw [solveIter_i, hi] at this
    omega
  · exact ⟨by rw [hi]; decide, Or.inl (by rw [hi]; omega)⟩

/-- With `NITERMAX = 1` and `NITERMIN >= 1` the main loop of `msolve` executes its
body once, when the V-cycle succeeds. -/
theorem msolveLoop_once {σ P : Type} [DecidableEq P] (G : Grid P) (NITERMIN : Int)
    (equations : List (Eqn σ P)) (ellipsis : σ → List (Scalar P) → σ × List (Scalar P))
    (minlevel : Int) (tolerance : ℚ) (st : MsolveState σ P)
    (c : List (Scalar P) × List (Scalar P) × List (Scalar P))
    (hi : st.s.i = 0) (hmin : 1 ≤ NITERMIN) (hc : msolveCycle G equations minlevel st = .ok c) :
    msolveLoop G 1 NITERMIN equations ellipsis minlevel tolerance st
      = .ok (msolveFinish G equations ellipsis tolerance st c) := by
  rw [msolveLoop_step G 1 NITERMIN equations ellipsis minlevel tolerance st c _ hc, msolveLoop_stop]
  · intro h
    have := h.1
    rw [msolveFinish_i, hi] at this
    omega
  · exact ⟨by rw [hi]; decide, Or.inl (by rw [hi]; omega)⟩

/-- The first V-cycle of `msolve` for the equation `2 x0 - 4 = 0` on the one-cell
grid, with two relaxations, succeeds. -/
theorem msolveCycle_singleEq_ok :
    ∃ c, msolveCycle unitGrid singleEq 0
      (msolveInit unitGrid singleEq noEllipsis [constScalar Unit 0] () 2 0) = .ok c := by
  simp [msolveInit, msolveCycle, msolveLevels, msolveLevel, msolveRelax, msolveSweep, relaxCell,
    cellSolve, probeD, probeR, evalEqs, singleEq, setAll, setNth, unknown, writeCell, valAt,
    mseedZero, levelsFrom, unitGrid, noEllipsis, boundaryLeaves, boundaryLevel, constScalar,
    idBoundary, resetZero, rhsLevels, rhsLevel, assignIdx, maxIdx, maxAbs, msolveResidual0,
    copyCell, listClone, accumulate, accumCell, restoreBoundary, Scalar.set]

/-- The call of `msolve` for the equation `2 x0 - 4 = 0` on the one-cell grid, with
`NITERMAX = NITERMIN = 1`, two relaxations and the tolerance `1/1000`, returns. -/
theorem msolve_singleEq_ok :
    ∃ r, msolve unitGrid 1 1 [constScalar Unit 0] singleEq noEllipsis () 2 0 (1 / 1000)
      = .ok r := by
  obtain ⟨c, hc⟩ := msolveCycle_singleEq_ok
  unfold msolve
  rw [msolveLoop_once unitGrid 1 singleEq noEllipsis 0 (1 / 1000) _ c rfl (by decide) hc]
  exact ⟨_, rfl⟩

/-- The run of `solve` for `2 a[] = 4` on the one-cell grid with one relaxation
requested: the first iteration leaves a zero residual. -/
theorem solveIter_twice_resa :
    (solveIter unitGrid twiceFunc (fun _ => 4) 0 (1 / 1000)
      (solveInit unitGrid twiceFunc (fun _ => 4) (constScalar Unit 0) 1)).s.resa = 0 := by
  simp [solveIter, solveInit, solveResidual, unitGrid, maxAbs, boundaryLeaves, addCorrection,
    solveLevels, levelsFrom, solveLevel, solveRelax, solveSweep, solveRelaxCell, seedZero,
    boundaryLevel, constScalar, idBoundary, twiceFunc, diagonalize, Scalar.set]
  norm_num

/-- C5: the operator `func = 0` does not contain the unknown, its diagonal
coefficient `_d` is zero; the relaxation update of `solve` stores the quotient
`_n/_d` in the correction field and returns, and `solve` completes its iteration
and returns its statistics with the warning of non-convergence, where the update
of `msolve` for the same equation `func - 1 = 0` fails with SingularSystem. -/
theorem solveRelaxCell_zero_diagonal_no_failure :
    diagonalize zeroFunc ((constScalar Unit 0).set () 0).val () = 0 ∧
    (solveRelaxCell zeroFunc (fun _ => 1) (constScalar Unit 0) ()).val () = (1 - 0) / 0 ∧
    (solve unitGrid 1 1 (constScalar Unit 0) zeroFunc (fun _ => 1) 4 0 (1 / 1000)).stats.i = 1 ∧
    (solve unitGrid 1 1 (constScalar Unit 0) zeroFunc (fun _ => 1) 4 0 (1 / 1000)).warning
      = true ∧
    relaxCell degenerateEq () [constScalar Unit 1] [constScalar Unit 0] [constScalar Unit 0] ()
      = .error .SingularSystem := by
  have hl := solveLoop_once unitGrid 1 zeroFunc (fun _ => 1) 0 (1 / 1000)
    (solveInit unitGrid zeroFunc (fun _ => 1) (constScalar Unit 0) 4) rfl (by decide)
  refine ⟨?_, ?_, ?_, ?_, ?_⟩
  · simp [diagonalize, zeroFunc]
  · simp [solveRelaxCell, diagonalize, zeroFunc, Scalar.set]
  · unfold solve
    rw [hl]
    rfl
  · unfold solve
    rw [hl]
    simp [solveIter, solveResidual, unitGrid, zeroFunc, maxAbs]
    norm_num
  · simp [relaxCell, cellSolve, probeD, probeR, evalEqs, degenerateEq]

/-! ## The number of relaxations and the iteration count -/

/-- C6, as stated, fails: `solve` called with `nrelax = 1` (equation `2 a[] = 4` on
the one-cell grid, `NITERMAX = NITERMIN = 1`) enters its only iteration with one
relaxation sweep and returns `nrelax = 1`, below 2. -/
theorem solve_nrelax_below_two :
    (solveInit unitGrid twiceFunc (fun _ => 4) (constScalar Unit 0) 1).s.nrelax = 1 ∧
    (solve unitGrid 1 1 (constScalar Unit 0) twiceFunc (fun _ => 4) 1 0 (1 / 1000)).stats.i = 1 ∧
    (solve unitGrid 1 1 (constScalar Unit 0) twiceFunc (fun _ => 4) 1 0 (1 / 1000)).stats.nrelax
      = 1 := by
  refine ⟨rfl, ?_, ?_⟩
  · unfold solve
    rw [solveLoop_once unitGrid 1 twiceFunc (fun _ => 4) 0 (1 / 1000) _ rfl (by decide)]
    rfl
  · unfold solve
    rw [solveLoop_once unitGrid 1 twiceFunc (fun _ => 4) 0 (1 / 1000) _ rfl (by decide)]
    show (solveIter unitGrid twiceFunc (fun _ => 4) 0 (1 / 1000) _).s.nrelax = 1
    rw [solveIter_nrelax, tune_converged]
    · rfl
    · rw [solveIter_twice_resa]
      norm_num

/-- C6, amended: the number of relaxations is never clamped to [2,100]; for every
call of `solve` or `msolve`, with `nrelax` the requested number, the number of
relaxations after any number of iterations of the main loop and the one reported
in the statistics lie between `min (nrelax, 2)` and `max (nrelax, 100)` (hence
in [2,100] when the requested number is). -/
theorem nrelax_between_request_and_bounds {σ P : Type} [DecidableEq P] (G : Grid P)
    (NITERMAX NITERMIN : Int) (a : Scalar P) (func : (P → ℚ) → P → ℚ) (rhs : P → ℚ)
    (X : List (Scalar P)) (equations : List (Eqn σ P))
    (ellipsis : σ → List (Scalar P) → σ × List (Scalar P)) (env : σ)
    (nrelax minlevel : Int) (tolerance : ℚ) :
    (∀ k : Nat,
      min nrelax 2 ≤ (solveSteps G func rhs minlevel tolerance k
          (solveInit G func rhs a nrelax)).s.nrelax ∧
      (solveSteps G func rhs minlevel tolerance k
          (solveInit G func rhs a nrelax)).s.nrelax ≤ max nrelax 100) ∧
    (min nrelax 2 ≤ (solve G NITERMAX NITERMIN a func rhs nrelax minlevel tolerance).stats.nrelax ∧
      (solve G NITERMAX NITERMIN a func rhs nrelax minlevel tolerance).stats.nrelax
        ≤ max nrelax 100) ∧
    (∀ (k : Nat) (st : MsolveState σ P),
      msolveSteps G equations ellipsis minlevel tolerance k
          (msolveInit G equations ellipsis X env nrelax minlevel) = .ok st →
      min nrelax 2 ≤ st.s.nrelax ∧ st.s.nrelax ≤ max nrelax 100) ∧
    (∀ r : MsolveResult σ P,
      msolve G NITERMAX NITERMIN X equations ellipsis env nrelax minlevel tolerance = .ok r →
      min nrelax 2 ≤ r.stats.nrelax ∧ r.stats.nrelax ≤ max nrelax 100) := by
  refine ⟨?_, ?_, ?_, ?_⟩
  · intro k
    exact solveSteps_nrelax_range G func rhs minlevel tolerance k (solveInit G func rhs a nrelax)
  · obtain ⟨n, hn, _, _⟩ := solveLoop_eq_steps G NITERMAX NITERMIN func rhs minlevel tolerance
      (solveInit G func rhs a nrelax)
    unfold solve
    rw [hn]
    exact solveSteps_nrelax_range G func rhs minlevel tolerance n (solveInit G func rhs a nrelax)
  · intro k st h
    exact msolveSteps_nrelax_range G equations ellipsis minlevel tolerance k _ st h
  · intro r h
    unfold msolve at h
    cases hl : msolveLoop G NITERMAX NITERMIN equations ellipsis minlevel tolerance
        (msolveInit G equations ellipsis X env nrelax minlevel) with
    | error e =>
      rw [hl] at h
      cases h
    | ok st =>
      rw [hl] at h
      cases h
      obtain ⟨n, hn, _, _⟩ := msolveLoop_ok G NITERMAX NITERMIN equations ellipsis minlevel tolerance
        _ st hl
      exact msolveSteps_nrelax_range G equations ellipsis minlevel tolerance n _ st hn

/-- C6, amended, at a concrete input: `msolve` for `2 x0 - 4 = 0` on the one-cell
grid with two relaxations requested. -/
theorem nrelax_between_request_and_bounds_witness :
    ∃ r, msolve unitGrid 1 1 [constScalar Unit 0] singleEq noEllipsis () 2 0 (1 / 1000) = .ok r ∧
      min 2 2 ≤ r.stats.nrelax ∧ r.stats.nrelax ≤ max 2 100 := by
  obtain ⟨r, hr⟩ := msolve_singleEq_ok
  exact ⟨r, hr,
    (nrelax_between_request_and_bounds unitGrid 1 1 (constScalar Unit 0) twiceFunc (fun _ => 4)
      [constScalar Unit 0] singleEq noEllipsis () 2 0 (1 / 1000)).2.2.2 r hr⟩

/-- C7, as stated, fails: with `NITERMAX = 1` and `NITERMIN = 2` the main loop of
`solve` executes one iteration and stops with the iteration count 1, below
`NITERMIN`. -/
theorem solve_stops_below_nitermin :
    solveLoop unitGrid 1 2 twiceFunc (fun _ => 4) 0 (1 / 1000)
        (solveInit unitGrid twiceFunc (fun _ => 4) (constScalar Unit 0) 4)
      = solveSteps unitGrid twiceFunc (fun _ => 4) 0 (1 / 1000) 1
        (solveInit unitGrid twiceFunc (fun _ => 4) (constScalar Unit 0) 4) ∧
    (solve unitGrid 1 2 (constScalar Unit 0) twiceFunc (fun _ => 4) 4 0 (1 / 1000)).stats.i = 1 ∧
    (solve unitGrid 1 2 (constScalar Unit 0) twiceFunc (fun _ => 4) 4 0 (1 / 1000)).stats.i
      < 2 := by
  have h := solveLoop_once unitGrid 2 twiceFunc (fun _ => 4) 0 (1 / 1000)
    (solveInit unitGrid twiceFunc (fun _ => 4) (constScalar Unit 0) 4) rfl (by decide)
  refine ⟨h, ?_, ?_⟩
  · unfold solve
    rw [h]
    rfl
  · unfold solve
    rw [h]
    decide

/-- C7, amended: for every configuration and every sequence of residuals the main
loop of `solve` comes to its end, and that of `msolve` when no assertion fails;
the final iteration count is the number of iterations executed, it is at most
`max (NITERMAX, 0)` and at least `min (NITERMIN, NITERMAX)`, hence at least
`NITERMIN` when `NITERMIN <= NITERMAX`. -/
theorem iteration_count_bounds {σ P : Type} [DecidableEq P] (G : Grid P)
    (NITERMAX NITERMIN : Int) (a : Scalar P) (func : (P → ℚ) → P → ℚ) (rhs : P → ℚ)
    (X : List (Scalar P)) (equations : List (Eqn σ P))
    (ellipsis : σ → List (Scalar P) → σ × List (Scalar P)) (env : σ)
    (nrelax minlevel : Int) (tolerance : ℚ) :
    (∃ n : Nat,
      solveLoop G NITERMAX NITERMIN func rhs minlevel tolerance (solveInit G func rhs a nrelax)
        = solveSteps G func rhs minlevel tolerance n (solveInit G func rhs a nrelax) ∧
      (solve G NITERMAX NITERMIN a func rhs nrelax minlevel tolerance).stats.i = n ∧
      (n : Int) ≤ max NITERMAX 0 ∧ min NITERMIN NITERMAX ≤ n ∧
      (NITERMIN ≤ NITERMAX → NITERMIN ≤ n)) ∧
    (∀ r : MsolveResult σ P,
      msolve G NITERMAX NITERMIN X equations ellipsis env nrelax minlevel tolerance = .ok r →
      ∃ (n : Nat) (st : MsolveState σ P),
        msolveSteps G equations ellipsis minlevel tolerance n
          (msolveInit G equations ellipsis X env nrelax minlevel) = .ok st ∧
        r.X = st.X ∧ r.stats.i = n ∧
        (n : Int) ≤ max NITERMAX 0 ∧ min NITERMIN NITERMAX ≤ n ∧
        (NITERMIN ≤ NITERMAX → NITERMIN ≤ n)) := by
  constructor
  · obtain ⟨n, hn, h2, h3⟩ := solveLoop_eq_steps G NITERMAX NITERMIN func rhs minlevel tolerance
      (solveInit G func rhs a nrelax)
    have hi : (solveSteps G func rhs minlevel tolerance n (solveInit G func rhs a nrelax)).s.i
        = n := by
      rw [solveSteps_i]
      show (0 : Int) + n = n
      simp
    have hup : (n : Int) ≤ max NITERMAX 0 := by
      cases n with
      | zero => simp
      | succ m =>
        have := (h2 m (Nat.lt_succ_self m)).1
        rw [solveSteps_i] at this
        have h0 : (solveInit G func rhs a nrelax).s.i = 0 := rfl
        rw [h0] at this
        push_cast
        omega
    have hlow : min NITERMIN NITERMAX ≤ n := by
      unfold continues at h3
      rw [hi] at h3
      by_contra hcon
      apply h3
      constructor
      · omega
      · left
        omega
    refine ⟨n, hn, ?_, hup, hlow, ?_⟩
    · unfold solve
      rw [hn]
      exact hi
    · intro hle
      omega
  · intro r h
    unfold msolve at h
    cases hl : msolveLoop G NITERMAX NITERMIN equations ellipsis minlevel tolerance
        (msolveInit G equations ellipsis X env nrelax minlevel) with
    | error e =>
      rw [hl] at h
      cases h
    | ok st =>
      rw [hl] at h
      cases h
      obtain ⟨n, hn, h2, h3⟩ := msolveLoop_ok G NITERMAX NITERMIN equations ellipsis minlevel
        tolerance _ st hl
      have hi : st.s.i = n := by
        rw [msolveSteps_i G equations ellipsis minlevel tolerance n _ st hn]
        show (0 : Int) + n = n
        simp
      have hup : (n : Int) ≤ max NITERMAX 0 := by
        cases n with
        | zero => simp
        | succ m =>
          obtain ⟨stk, hk, hck⟩ := h2 m (Nat.lt_succ_self m)
          have := hck.1
          rw [msolveSteps_i G equations ellipsis minlevel tolerance m _ stk hk] at this
          have h0 : (msolveInit G equations ellipsis X env nrelax minlevel).s.i = 0 := rfl
          rw [h0] at this
          push_cast
          omega
      have hlow : min NITERMIN NITERMAX ≤ n := by
        unfold continues at h3
        rw [hi] at h3
        by_contra hcon
        apply h3
        constructor
        · omega
        · left
          omega
      refine ⟨n, st, hn, rfl, hi, hup, hlow, ?_⟩
      intro hle
      omega

/-- C7, amended, at a concrete input: `msolve` for `2 x0 - 4 = 0` on the one-cell
grid with `NITERMAX = NITERMIN = 1`. -/
theorem iteration_count_bounds_witness :
    ∃ r, msolve unitGrid 1 1 [constScalar Unit 0] singleEq noEllipsis () 2 0 (1 / 1000) = .ok r ∧
      ∃ (n : Nat) (st : MsolveState Unit Unit),
        msolveSteps unitGrid singleEq noEllipsis 0 (1 / 1000) n
          (msolveInit unitGrid singleEq noEllipsis [constScalar Unit 0] () 2 0) = .ok st ∧
        r.X = st.X ∧ r.stats.i = n ∧
        (n : Int) ≤ max 1 0 ∧ min 1 1 ≤ (n : Int) ∧ ((1 : Int) ≤ 1 → (1 : Int) ≤ n) := by
  obtain ⟨r, hr⟩ := msolve_singleEq_ok
  exact ⟨r, hr,
    (iteration_count_bounds unitGrid 1 1 (constScalar Unit 0) twiceFunc (fun _ => 4)
      [constScalar Unit 0] singleEq noEllipsis () 2 0 (1 / 1000)).2 r hr⟩

/-! ## The end of the main loops -/

/-- A successful run of `k + 1` iterations of `msolve` ends with a successful
V-cycle. -/
theorem msolveSteps_back {σ P : Type} [DecidableEq P] (G : Grid P) (equations : List (Eqn σ P))
    (ellipsis : σ → List (Scalar P) → σ × List (Scalar P)) (minlevel : Int) (tolerance : ℚ)
    (k : Nat) (st st1 : MsolveState σ P)
    (h : msolveSteps G equations ellipsis minlevel tolerance (k + 1) st = .ok st1) :
    ∃ stk c, msolveSteps G equations ellipsis minlevel tolerance k st = .ok stk ∧
      msolveCycle G equations minlevel stk = .ok c ∧
      st1 = msolveFinish G equations ellipsis tolerance stk c := by
  induction k generalizing st with
  | zero =>
    obtain ⟨c, hc, h2⟩ := msolveSteps_succ_ok G equations ellipsis minlevel tolerance 0 st st1 h
    rw [msolveSteps] at h2
    cases h2
    exact ⟨st, c, rfl, hc, rfl⟩
  | succ k ih =>
    obtain ⟨c, hc, h2⟩ := msolveSteps_succ_ok G equations ellipsis minlevel tolerance (k + 1) st st1 h
    obtain ⟨stk, c1, h3, h4, h5⟩ := ih _ h2
    refine ⟨stk, c1, ?_, h4, h5⟩
    rw [msolveSteps, hc]
    exact h3

/-- Where the diagonal coefficient is not zero, the relaxation update of `msolve`
for the single equation `func - b[]` writes the value that the update of `solve`
writes, when the residual stored by `msolve` is the opposite of the one stored by
`solve` and its `rhs` is `-b[]`. -/
theorem relaxCell_singleEquation {σ P : Type} [DecidableEq P] (func : (P → ℚ) → P → ℚ)
    (b : P → ℚ) (env : σ) (rh rm s : Scalar P) (res : P → ℚ) (p : P)
    (hres : rm.val p = - res p) (hrhs : rh.val p = - b p)
    (hd : diagonalize func (s.set p 0).val p ≠ 0) :
    relaxCell (singleEquation func b) env [rh] [rm] [s] p
      = .ok [solveRelaxCell func res s p] := by
  have hD : probeD (singleEquation func b) env [s] p 0 0
      = diagonalize func (s.set p 0).val p := by
    simp [probeD, probeR, evalEqs, singleEquation, setAll, setNth, diagonalize, Scalar.set]
  have hR : probeR (singleEquation func b) env [s] p 0 = func (s.set p 0).val p - b p := by
    simp [probeR, evalEqs, singleEquation, setAll, Scalar.set]
  simp only [relaxCell, cellSolve, List.length_singleton, if_true, hD, hR, valAt, List.get?,
    hres, hrhs, ne_eq, hd, not_false_eq_true, writeCell, setAll, List.map, solveRelaxCell,
    Scalar.set_set]
  congr 3
  ring

/-- In exact arithmetic, at a zero diagonal coefficient: the operator `func = 0`
is linear and zero when `a` is zero, and its diagonal coefficient is zero; with
`b[] = 1` on the one-cell grid
(`NITERMAX = NITERMIN = 1`, four relaxations, tolerance `1/1000`),
`solve (a, func, b[])` stores the quotient `_n/_d`, completes one iteration and
returns, where `msolve ({a}, {func - b[]})` fails with SingularSystem in its first
relaxation. -/
theorem solve_msolve_differ_at_zero_diagonal :
    zeroFunc (fun _ => 0) () = 0 ∧
    diagonalize zeroFunc (fun _ => 0) () = 0 ∧
    (solve unitGrid 1 1 (constScalar Unit 0) zeroFunc (fun _ => 1) 4 0 (1 / 1000)).stats.i = 1 ∧
    msolve unitGrid 1 1 [constScalar Unit 0] (singleEquation zeroFunc (fun _ => 1))
      noEllipsis () 4 0 (1 / 1000) = .error .SingularSystem := by
  refine ⟨rfl, ?_, ?_, ?_⟩
  · simp [diagonalize, zeroFunc]
  · unfold solve
    rw [solveLoop_once unitGrid 1 zeroFunc (fun _ => 1) 0 (1 / 1000) _ rfl (by decide)]
    rfl
  · have hc : msolveCycle unitGrid (singleEquation zeroFunc (fun _ => 1)) 0
        (msolveInit unitGrid (singleEquation zeroFunc (fun _ => 1)) noEllipsis
          [constScalar Unit 0] () 4 0) = .error .SingularSystem := by
      simp [msolveInit, msolveCycle, msolveLevels, msolveLevel, msolveRelax, msolveSweep,
        relaxCell, cellSolve, probeD, probeR, evalEqs, singleEquation, zeroFunc, setAll, setNth,
        mseedZero, levelsFrom, unitGrid, noEllipsis, resetZero, boundaryLeaves, boundaryLevel,
        constScalar, idBoundary, Scalar.set, unknown, writeCell, valAt, rhsLevels, rhsLevel,
        assignIdx, maxIdx, maxAbs, msolveResidual0, copyCell, listClone]
    unfold msolve
    rw [msolveLoop, if_pos ⟨by decide, Or.inl (by decide)⟩, hc]

/-- Where the diagonal coefficient is nowhere zero, a relaxation sweep of `msolve`
for the single equation `func - b[]` writes, cell after cell, the values that the
sweep of `solve` writes, under the same relation between the stored fields. -/
theorem msolveSweep_singleEquation {σ P : Type} [DecidableEq P] (func : (P → ℚ) → P → ℚ)
    (b : P → ℚ) (env : σ) (rh rm : Scalar P) (res : P → ℚ) (cells : List P)
    (hres : ∀ p, p ∈ cells → rm.val p = - res p) (hrhs : ∀ p, p ∈ cells → rh.val p = - b p)
    (hd : ∀ (f : P → ℚ) (p : P), p ∈ cells → diagonalize func (Function.update f p 0) p ≠ 0)
    (s : Scalar P) :
    msolveSweep (singleEquation func b) env [rh] [rm] cells [s]
      = .ok [solveSweep func res cells s] := by
  induction cells generalizing s with
  | nil => rfl
  | cons p ps ih =>
    rw [msolveSweep, relaxCell_singleEquation func b env rh rm s res p
      (hres p (List.mem_cons_self p ps)) (hrhs p (List.mem_cons_self p ps))
      (hd s.val p (List.mem_cons_self p ps))]
    exact ih (fun q hq => hres q (List.mem_cons_of_mem p hq))
      (fun q hq => hrhs q (List.mem_cons_of_mem p hq))
      (fun f q hq => hd f q (List.mem_cons_of_mem p hq)) _

/-! ## `msolve` on a single unknown, operation by operation -/

theorem seedZero_boundary {P : Type} [DecidableEq P] (cells : List P) (s : Scalar P) :
    (seedZero cells s).boundary = s.boundary ∧
    (seedZero cells s).boundary_homogeneous = s.boundary_homogeneous := by
  induction cells generalizing s with
  | nil => exact ⟨rfl, rfl⟩
  | cons p ps ih => exact ih (s.set p 0)

theorem seedZero_val {P : Type} [DecidableEq P] (cells : List P) (s : Scalar P) (q : P)
    (hq : q ∈ cells) : (seedZero cells s).val q = 0 := by
  induction cells generalizing s with
  | nil => cases hq
  | cons p ps ih =>
    by_cases h : q ∈ ps
    · exact ih (s.set p 0) h
    · have hqp : q = p := by
        rcases List.mem_cons.mp hq with h1 | h1
        · exact h1
        · exact absurd h1 h
      subst hqp
      have key : ∀ (cs : List P) (t : Scalar P), q ∉ cs → (seedZero cs t).val q = t.val q := by
        intro cs
        induction cs with
        | nil => intro t _; rfl
        | cons c cs ih2 =>
          intro t hc
          have hne : q ≠ c := fun e => hc (e ▸ List.mem_cons_self c cs)
          have hnc : q ∉ cs := fun e => hc (List.mem_cons_of_mem c e)
          show (seedZero cs (t.set c 0)).val q = t.val q
          rw [ih2 (t.set c 0) hnc]
          simp [Scalar.set, Function.update, hne]
      show (seedZero ps (s.set q 0)).val q = 0
      rw [key ps (s.set q 0) h]
      simp [Scalar.set]

theorem mseedZero_single {P : Type} [DecidableEq P] (cells : List P) (x : Scalar P) :
    mseedZero cells [x] = [seedZero cells x] := by
  induction cells generalizing x with
  | nil => rfl
  | cons p ps ih => exact ih (x.set p 0)

theorem mseedBilinear_single {P : Type} [DecidableEq P] (G : Grid P) (cells : List P)
    (x : Scalar P) : mseedBilinear G cells [x] = [seedBilinear G cells x] := by
  induction cells generalizing x with
  | nil => rfl
  | cons p ps ih => exact ih (x.set p (G.bilinear p x.val))

theorem msolveRelax_singleEquation {σ P : Type} [DecidableEq P] (G : Grid P)
    (func : (P → ℚ) → P → ℚ) (b : P → ℚ) (env : σ) (rh rm : Scalar P) (res : P → ℚ) (l : Int)
    (hres : ∀ p, p ∈ G.levelOrLeaf l → rm.val p = - res p)
    (hrhs : ∀ p, p ∈ G.levelOrLeaf l → rh.val p = - b p)
    (hd : ∀ (f : P → ℚ) (p : P), p ∈ G.levelOrLeaf l →
      diagonalize func (Function.update f p 0) p ≠ 0)
    (n : Nat) (s : Scalar P) :
    msolveRelax G (singleEquation func b) env [rh] [rm] l n [s]
      = .ok [solveRelax G func res l n s] := by
  induction n generalizing s with
  | zero => rfl
  | succ n ih =>
    rw [msolveRelax, msolveSweep_singleEquation func b env rh rm res _ hres hrhs hd]
    exact ih _

theorem msolveLevel_singleEquation {σ P : Type} [DecidableEq P] (G : Grid P)
    (func : (P → ℚ) → P → ℚ) (b : P → ℚ) (env : σ) (rh rm : Scalar P) (res : P → ℚ) (l : Int)
    (hres : ∀ p, p ∈ G.levelOrLeaf l → rm.val p = - res p)
    (hrhs : ∀ p, p ∈ G.levelOrLeaf l → rh.val p = - b p)
    (hd : ∀ (f : P → ℚ) (p : P), p ∈ G.levelOrLeaf l →
      diagonalize func (Function.update f p 0) p ≠ 0)
    (nrelax minl : Int) (s : Scalar P) :
    msolveLevel G (singleEquation func b) env [rh] [rm] nrelax minl [s] l
      = .ok [solveLevel G func res nrelax minl s l] := by
  unfold msolveLevel solveLevel
  by_cases h : l = minl
  · simp only [h, if_true, mseedZero_single, List.map]
    rw [← h]
    exact msolveRelax_singleEquation G func b env rh rm res l hres hrhs hd _ _
  · simp only [h, if_false, mseedBilinear_single, List.map]
    exact msolveRelax_singleEquation G func b env rh rm res l hres hrhs hd _ _

theorem msolveLevels_singleEquation {σ P : Type} [DecidableEq P] (G : Grid P)
    (func : (P → ℚ) → P → ℚ) (b : P → ℚ) (env : σ) (rh rm : Scalar P) (res : P → ℚ)
    (levels : List Int)
    (hres : ∀ l, l ∈ levels → ∀ p, p ∈ G.levelOrLeaf l → rm.val p = - res p)
    (hrhs : ∀ l, l ∈ levels → ∀ p, p ∈ G.levelOrLeaf l → rh.val p = - b p)
    (hd : ∀ l, l ∈ levels → ∀ (f : P → ℚ) (p : P), p ∈ G.levelOrLeaf l →
      diagonalize func (Function.update f p 0) p ≠ 0)
    (nrelax minl : Int) (s : Scalar P) :
    msolveLevels G (singleEquation func b) env [rh] [rm] nrelax minl levels [s]
      = .ok [solveLevels G func res nrelax minl levels s] := by
  induction levels generalizing s with
  | nil => rfl
  | cons l ls ih =>
    rw [msolveLevels, msolveLevel_singleEquation G func b env rh rm res l
      (hres l (List.mem_cons_self l ls)) (hrhs l (List.mem_cons_self l ls))
      (hd l (List.mem_cons_self l ls))]
    exact ih (fun l1 h1 => hres l1 (List.mem_cons_of_mem l h1))
      (fun l1 h1 => hrhs l1 (List.mem_cons_of_mem l h1))
      (fun l1 h1 => hd l1 (List.mem_cons_of_mem l h1)) _

/-! ## The V-cycle of `solve` does not depend on what the correction field held -/

theorem levelsFrom_nil (minl maxl : Int) (h : maxl < minl) : levelsFrom minl maxl = [] := by
  unfold levelsFrom
  have : (maxl + 1 - minl).toNat = 0 := by omega
  rw [this]
  rfl

theorem levelsFrom_cons (minl maxl : Int) (h : minl ≤ maxl) :
    levelsFrom minl maxl = minl :: levelsFrom (minl + 1) maxl := by
  unfold levelsFrom
  have : (maxl + 1 - minl).toNat = (maxl + 1 - (minl + 1)).toNat + 1 := by omega
  rw [this, List.range_succ_eq_map]
  simp only [List.map_cons, List.map_map, Nat.cast_zero, add_zero]
  congr 1
  apply List.map_congr_left
  intro k _
  simp only [Function.comp, Nat.cast_succ]
  ring

theorem levelsFrom_mem (minl maxl l : Int) (h : l ∈ levelsFrom minl maxl) :
    minl ≤ l ∧ l ≤ maxl := by
  unfold levelsFrom at h
  obtain ⟨k, hk, rfl⟩ := List.mem_map.mp h
  have := List.mem_range.mp hk
  omega

theorem seedBilinear_boundary {P : Type} [DecidableEq P] (G : Grid P) (cells : List P)
    (s : Scalar P) :
    (seedBilinear G cells s).boundary = s.boundary ∧
    (seedBilinear G cells s).boundary_homogeneous = s.boundary_homogeneous := by
  induction cells generalizing s with
  | nil => exact ⟨rfl, rfl⟩
  | cons p ps ih => exact ih (s.set p (G.bilinear p s.val))

theorem seedBilinear_agree {P : Type} [DecidableEq P] (G : Grid P) (K : P → Prop)
    (cells : List P)
    (hb : ∀ p, p ∈ cells → ∀ f g, (∀ q, K q → f q = g q) → G.bilinear p f = G.bilinear p g)
    (W : P → Prop) (s1 s2 : Scalar P) (h : ∀ q, (K q ∨ W q) → s1.val q = s2.val q) :
    ∀ q, (K q ∨ W q ∨ q ∈ cells) →
      (seedBilinear G cells s1).val q = (seedBilinear G cells s2).val q := by
  induction cells generalizing W s1 s2 with
  | nil =>
    intro q hq
    rcases hq with h1 | h1 | h1
    · exact h q (Or.inl h1)
    · exact h q (Or.inr h1)
    · cases h1
  | cons p ps ih =>
    intro q hq
    have hv : G.bilinear p s1.val = G.bilinear p s2.val :=
      hb p (List.mem_cons_self p ps) _ _ (fun r hr => h r (Or.inl hr))
    have h2 : ∀ r, (K r ∨ (W r ∨ r = p)) →
        (s1.set p (G.bilinear p s1.val)).val r = (s2.set p (G.bilinear p s2.val)).val r := by
      intro r hr
      by_cases hrp : r = p
      · subst hrp
        simp [Scalar.set, hv]
      · have : K r ∨ W r := by
          rcases hr with h3 | h3 | h3
          · exact Or.inl h3
          · exact Or.inr h3
          · exact absurd h3 hrp
        simp [Scalar.set, Function.update, hrp, h r this]
    apply ih (fun r hr => hb r (List.mem_cons_of_mem p hr)) (fun r => W r ∨ r = p) _ _ h2
    rcases hq with h1 | h1 | h1
    · exact Or.inl h1
    · exact Or.inr (Or.inl (Or.inl h1))
    · rcases List.mem_cons.mp h1 with h3 | h3
      · exact Or.inr (Or.inl (Or.inr h3))
      · exact Or.inr (Or.inr h3)

theorem solveRelaxCell_boundary {P : Type} [DecidableEq P] (func : (P → ℚ) → P → ℚ)
    (res : P → ℚ) (s : Scalar P) (p : P) :
    (solveRelaxCell func res s p).boundary = s.boundary ∧
    (solveRelaxCell func res s p).boundary_homogeneous = s.boundary_homogeneous :=
  ⟨rfl, rfl⟩

theorem solveSweep_boundary {P : Type} [DecidableEq P] (func : (P → ℚ) → P → ℚ)
    (res : P → ℚ) (cells : List P) (s : Scalar P) :
    (solveSweep func res cells s).boundary = s.boundary ∧
    (solveSweep func res cells s).boundary_homogeneous = s.boundary_homogeneous := by
  induction cells generalizing s with
  | nil => exact ⟨rfl, rfl⟩
  | cons p ps ih => exact ih (solveRelaxCell func res s p)

theorem solveRelaxCell_agree {P : Type} [DecidableEq P] (func : (P → ℚ) → P → ℚ)
    (res : P → ℚ) (K : P → Prop) (p : P)
    (hf : ∀ f g, (∀ q, K q → f q = g q) → func f p = func g p)
    (s1 s2 : Scalar P) (h : ∀ q, K q → s1.val q = s2.val q) :
    ∀ q, K q → (solveRelaxCell func res s1 p).val q = (solveRelaxCell func res s2 p).val q := by
  have upd : ∀ v : ℚ, ∀ q, K q →
      Function.update s1.val p v q = Function.update s2.val p v q := by
    intro v q hq
    by_cases hqp : q = p
    · subst hqp
      simp
    · simp [Function.update, hqp, h q hq]
  have h0 := hf _ _ (upd 0)
  have h1 := hf _ _ (upd 1)
  intro q hq
  simp only [solveRelaxCell, diagonalize, Scalar.set, Function.update_idem]
  rw [h0, h1]
  by_cases hqp : q = p
  · subst hqp
    simp
  · simp [Function.update, hqp, h q hq]

theorem solveSweep_agree {P : Type} [DecidableEq P] (func : (P → ℚ) → P → ℚ)
    (res : P → ℚ) (K : P → Prop) (cells : List P)
    (hf : ∀ p, p ∈ cells → ∀ f g, (∀ q, K q → f q = g q) → func f p = func g p)
    (s1 s2 : Scalar P) (h : ∀ q, K q → s1.val q = s2.val q) :
    ∀ q, K q → (solveSweep func res cells s1).val q = (solveSweep func res cells s2).val q := by
  induction cells generalizing s1 s2 with
  | nil => exact h
  | cons p ps ih =>
    exact ih (fun r hr => hf r (List.mem_cons_of_mem p hr)) _ _
      (solveRelaxCell_agree func res K p (hf p (List.mem_cons_self p ps)) s1 s2 h)

theorem solveRelax_boundary {P : Type} [DecidableEq P] (G : Grid P) (func : (P → ℚ) → P → ℚ)
    (res : P → ℚ) (l : Int) (n : Nat) (s : Scalar P) :
    (solveRelax G func res l n s).boundary = s.boundary ∧
    (solveRelax G func res l n s).boundary_homogeneous = s.boundary_homogeneous := by
  induction n generalizing s with
  | zero => exact ⟨rfl, rfl⟩
  | succ n ih =>
    obtain ⟨h1, h2⟩ := ih (boundaryLevel (solveSweep func res (G.levelOrLeaf l) s) l)
    obtain ⟨h3, h4⟩ := solveSweep_boundary func res (G.levelOrLeaf l) s
    exact ⟨h1.trans h3, h2.trans h4⟩

theorem solveLevel_boundary {P : Type} [DecidableEq P] (G : Grid P) (func : (P → ℚ) → P → ℚ)
    (res : P → ℚ) (nrelax minl : Int) (s : Scalar P) (l : Int) :
    (solveLevel G func res nrelax minl s l).boundary = s.boundary ∧
    (solveLevel G func res nrelax minl s l).boundary_homogeneous = s.boundary_homogeneous := by
  unfold solveLevel
  obtain ⟨h1, h2⟩ := solveRelax_boundary G func res l nrelax.toNat
    (boundaryLevel (if l = minl then seedZero (G.levelOrLeaf l) s
      else seedBilinear G (G.level l) s) l)
  by_cases h : l = minl
  · simp only [h, if_true] at h1 h2 ⊢
    obtain ⟨h3, h4⟩ := seedZero_boundary (G.levelOrLeaf minl) s
    exact ⟨h1.trans h3, h2.trans h4⟩
  · simp only [h, if_false] at h1 h2 ⊢
    obtain ⟨h3, h4⟩ := seedBilinear_boundary G (G.level l) s
    exact ⟨h1.trans h3, h2.trans h4⟩

theorem solveLevels_boundary {P : Type} [DecidableEq P] (G : Grid P) (func : (P → ℚ) → P → ℚ)
    (res : P → ℚ) (nrelax minl : Int) (levels : List Int) (s : Scalar P) :
    (solveLevels G func res nrelax minl levels s).boundary = s.boundary ∧
    (solveLevels G func res nrelax minl levels s).boundary_homogeneous
      = s.boundary_homogeneous := by
  induction levels generalizing s with
  | nil => exact ⟨rfl, rfl⟩
  | cons l ls ih =>
    obtain ⟨h1, h2⟩ := ih (solveLevel G func res nrelax minl s l)
    obtain ⟨h3, h4⟩ := solveLevel_boundary G func res nrelax minl s l
    exact ⟨h1.trans h3, h2.trans h4⟩

/-- After `boundary_level`, two correction fields that agree in the cells of a
level agree in all that is read on that level. -/
theorem boundaryLevel_agree {P : Type} {G : Grid P} {a : Scalar P} {func : (P → ℚ) → P → ℚ}
    {minlevel : Int} {vis : Int → P → Prop} (C : Consistent G a func minlevel vis) (l : Int)
    (s1 s2 : Scalar P) (hb1 : s1.boundary = a.boundary_homogeneous)
    (hb2 : s2.boundary = a.boundary_homogeneous)
    (h : ∀ q, q ∈ G.levelOrLeaf l → s1.val q = s2.val q) :
    ∀ q, vis l q → (boundaryLevel s1 l).val q = (boundaryLevel s2 l).val q := by
  intro q hq
  simp only [boundaryLevel, hb1, hb2]
  exact C.boundary_local l s1.val s2.val h q hq

section Locality

variable {P : Type} [DecidableEq P] {G : Grid P} {a : Scalar P} {func : (P → ℚ) → P → ℚ}
  {minlevel : Int} {vis : Int → P → Prop}

theorem solveRelax_agree (C : Consistent G a func minlevel vis) (res : P → ℚ) (l : Int)
    (n : Nat) (s1 s2 : Scalar P) (hb1 : s1.boundary = a.boundary_homogeneous)
    (hb2 : s2.boundary = a.boundary_homogeneous) (h : ∀ q, vis l q → s1.val q = s2.val q) :
    ∀ q, vis l q → (solveRelax G func res l n s1).val q = (solveRelax G func res l n s2).val q := by
  induction n generalizing s1 s2 with
  | zero => exact h
  | succ n ih =>
    have hs := solveSweep_agree func res (vis l) (G.levelOrLeaf l)
      (fun p hp => C.func_local l p hp) s1 s2 h
    apply ih
    · exact (solveSweep_boundary func res (G.levelOrLeaf l) s1).1.trans hb1
    · exact (solveSweep_boundary func res (G.levelOrLeaf l) s2).1.trans hb2
    · exact boundaryLevel_agree C l _ _
        ((solveSweep_boundary func res (G.levelOrLeaf l) s1).1.trans hb1)
        ((solveSweep_boundary func res (G.levelOrLeaf l) s2).1.trans hb2)
        (fun q hq => hs q (C.cells_vis l q hq))

/-- On the coarsest level of the cycle the correction does not depend on what the
field held. -/
theorem solveLevel_first_agree (C : Consistent G a func minlevel vis) (res : P → ℚ)
    (nrelax minl : Int) (s1 s2 : Scalar P) (hb1 : s1.boundary = a.boundary_homogeneous)
    (hb2 : s2.boundary = a.boundary_homogeneous) :
    ∀ q, vis minl q →
      (solveLevel G func res nrelax minl s1 minl).val q
        = (solveLevel G func res nrelax minl s2 minl).val q := by
  unfold solveLevel
  simp only [if_true]
  apply solveRelax_agree C res minl
  · exact (seedZero_boundary (G.levelOrLeaf minl) s1).1.trans hb1
  · exact (seedZero_boundary (G.levelOrLeaf minl) s2).1.trans hb2
  · apply boundaryLevel_agree C minl
    · exact (seedZero_boundary (G.levelOrLeaf minl) s1).1.trans hb1
    · exact (seedZero_boundary (G.levelOrLeaf minl) s2).1.trans hb2
    · intro q hq
      rw [seedZero_val _ _ q hq, seedZero_val _ _ q hq]

/-- On a finer level the correction depends only on what was read on the level
below. -/
theorem solveLevel_next_agree (C : Consistent G a func minlevel vis) (res : P → ℚ)
    (nrelax minl l : Int) (hl : l + 1 ≠ minl) (s1 s2 : Scalar P)
    (hb1 : s1.boundary = a.boundary_homogeneous) (hb2 : s2.boundary = a.boundary_homogeneous)
    (h : ∀ q, vis l q → s1.val q = s2.val q) :
    ∀ q, vis (l + 1) q →
      (solveLevel G func res nrelax minl s1 (l + 1)).val q
        = (solveLevel G func res nrelax minl s2 (l + 1)).val q := by
  unfold solveLevel
  simp only [hl, if_false]
  have hs := seedBilinear_agree G (vis l) (G.level (l + 1))
    (fun p hp => C.bilinear_local l p hp) (fun _ => False) s1 s2
    (fun q hq => hq.elim (h q) False.elim)
  apply solveRelax_agree C res (l + 1)
  · exact (seedBilinear_boundary G (G.level (l + 1)) s1).1.trans hb1
  · exact (seedBilinear_boundary G (G.level (l + 1)) s2).1.trans hb2
  · apply boundaryLevel_agree C (l + 1)
    · exact (seedBilinear_boundary G (G.level (l + 1)) s1).1.trans hb1
    · exact (seedBilinear_boundary G (G.level (l + 1)) s2).1.trans hb2
    · intro q hq
      rcases C.next_cells l q hq with h1 | h1
      · exact hs q (Or.inl h1)
      · exact hs q (Or.inr (Or.inr h1))

theorem solveLevels_next_agree (C : Consistent G a func minlevel vis) (res : P → ℚ)
    (nrelax minl : Int) (n : Nat) (l maxl : Int) (hn : (maxl - l).toNat = n) (hlm : l ≤ maxl)
    (hl : minl ≤ l) (s1 s2 : Scalar P)
    (hb1 : s1.boundary = a.boundary_homogeneous) (hb2 : s2.boundary = a.boundary_homogeneous)
    (h : ∀ q, vis l q → s1.val q = s2.val q) :
    ∀ q, vis maxl q →
      (solveLevels G func res nrelax minl (levelsFrom (l + 1) maxl) s1).val q
        = (solveLevels G func res nrelax minl (levelsFrom (l + 1) maxl) s2).val q := by
  induction n generalizing l s1 s2 with
  | zero =>
    have hle : l = maxl := by omega
    subst hle
    rw [levelsFrom_nil (l + 1) l (by omega)]
    exact h
  | succ n ih =>
    have hlt : l + 1 ≤ maxl := by omega
    rw [levelsFrom_cons (l + 1) maxl hlt]
    simp only [solveLevels]
    apply ih (l + 1) (by omega) hlt (by omega)
    · exact (solveLevel_boundary G func res nrelax minl s1 (l + 1)).1.trans hb1
    · exact (solveLevel_boundary G func res nrelax minl s2 (l + 1)).1.trans hb2
    · exact solveLevel_next_agree C res nrelax minl l (by omega) s1 s2 hb1 hb2 h

/-- The correction computed by the V-cycle of `solve` does not depend on what the
correction field held before the cycle. -/
theorem solveLevels_agree (C : Consistent G a func minlevel vis) (res : P → ℚ)
    (nrelax minl maxl : Int) (hm : minl ≤ maxl) (s1 s2 : Scalar P)
    (hb1 : s1.boundary = a.boundary_homogeneous) (hb2 : s2.boundary = a.boundary_homogeneous) :
    ∀ q, vis maxl q →
      (solveLevels G func res nrelax minl (levelsFrom minl maxl) s1).val q
        = (solveLevels G func res nrelax minl (levelsFrom minl maxl) s2).val q := by
  rw [levelsFrom_cons minl maxl hm]
  simp only [solveLevels]
  apply solveLevels_next_agree C res nrelax minl (maxl - minl).toNat minl maxl rfl hm (le_refl _)
  · exact (solveLevel_boundary G func res nrelax minl s1 minl).1.trans hb1
  · exact (solveLevel_boundary G func res nrelax minl s2 minl).1.trans hb2
  · exact solveLevel_first_agree C res nrelax minl s1 s2 hb1 hb2

end Locality

/-! ## The update of the solution and the residuals -/

theorem addCorrection_boundary {P : Type} [DecidableEq P] (da : Scalar P) (cells : List P)
    (a : Scalar P) :
    (addCorrection da cells a).boundary = a.boundary ∧
    (addCorrection da cells a).boundary_homogeneous = a.boundary_homogeneous := by
  induction cells generalizing a with
  | nil => exact ⟨rfl, rfl⟩
  | cons p ps ih => exact ih (a.set p (a.val p + da.val p))

theorem addCorrection_val {P : Type} [DecidableEq P] (da : Scalar P) (cells : List P)
    (hn : cells.Nodup) (a : Scalar P) :
    (∀ q, q ∈ cells → (addCorrection da cells a).val q = a.val q + da.val q) ∧
    (∀ q, q ∉ cells → (addCorrection da cells a).val q = a.val q) := by
  induction cells generalizing a with
  | nil => exact ⟨fun q hq => absurd hq (List.not_mem_nil q), fun q _ => rfl⟩
  | cons p ps ih =>
    obtain ⟨hp, hps⟩ := List.nodup_cons.mp hn
    obtain ⟨h1, h2⟩ := ih hps (a.set p (a.val p + da.val p))
    constructor
    · intro q hq
      show (addCorrection da ps (a.set p (a.val p + da.val p))).val q = _
      rcases List.mem_cons.mp hq with h3 | h3
      · subst h3
        rw [h2 q hp]
        simp [Scalar.set]
      · have hne : q ≠ p := fun e => hp (e ▸ h3)
        rw [h1 q h3]
        simp [Scalar.set, Function.update, hne]
    · intro q hq
      show (addCorrection da ps (a.set p (a.val p + da.val p))).val q = _
      have hne : q ≠ p := fun e => hq (e ▸ List.mem_cons_self p ps)
      rw [h2 q (fun e => hq (List.mem_cons_of_mem p e))]
      simp [Scalar.set, Function.update, hne]

theorem accumulate_single {P : Type} [DecidableEq P] (cells : List P) (hn : cells.Nodup)
    (s d : Scalar P) :
    ∃ s1 d1, accumulate cells ([s], [d]) = ([s1], [d1]) ∧
      s1.boundary = s.boundary ∧ s1.boundary_homogeneous = s.boundary_homogeneous ∧
      d1.boundary = d.boundary ∧
      (∀ q, q ∈ cells → s1.val q = s.val q + d.val q ∧ d1.val q = s.val q + d.val q) ∧
      (∀ q, q ∉ cells → s1.val q = s.val q ∧ d1.val q = d.val q) := by
  induction cells generalizing s d with
  | nil =>
    exact ⟨s, d, rfl, rfl, rfl, rfl, fun q hq => absurd hq (List.not_mem_nil q),
      fun q _ => ⟨rfl, rfl⟩⟩
  | cons p ps ih =>
    obtain ⟨hp, hps⟩ := List.nodup_cons.mp hn
    obtain ⟨s1, d1, h0, hb1, hb2, hb3, h1, h2⟩ :=
      ih hps (s.set p (s.val p + d.val p)) (d.set p (s.val p + d.val p))
    refine ⟨s1, d1, ?_, hb1, hb2, hb3, ?_, ?_⟩
    · simp only [accumulate, accumCell]
      exact h0
    · intro q hq
      rcases List.mem_cons.mp hq with h3 | h3
      · subst h3
        obtain ⟨h4, h5⟩ := h2 q hp
        rw [h4, h5]
        simp [Scalar.set]
      · have hne : q ≠ p := fun e => hp (e ▸ h3)
        obtain ⟨h4, h5⟩ := h1 q h3
        rw [h4, h5]
        simp [Scalar.set, Function.update, hne]
    · intro q hq
      have hne : q ≠ p := fun e => hq (e ▸ List.mem_cons_self p ps)
      obtain ⟨h4, h5⟩ := h2 q (fun e => hq (List.mem_cons_of_mem p e))
      rw [h4, h5]
      simp [Scalar.set, Function.update, hne]

theorem maxAbs_neg (m r : ℚ) : maxAbs m (-r) = maxAbs m r := by
  simp [maxAbs]

/-- The residuals of `msolve` for the single equation `func - b[]` are the
opposites of the residuals of `solve`, with the same maximum, when `func` takes
the same values on the two unknowns in the cells visited. -/
theorem msolveResidual_single {σ P : Type} [DecidableEq P] (func : (P → ℚ) → P → ℚ)
    (b : P → ℚ) (env : σ) (xb : Scalar P) (av : P → ℚ) (cells : List P)
    (hf : ∀ p, p ∈ cells → func xb.val p = func av p)
    (W : P → Prop) (rm : Scalar P) (res : P → ℚ) (m : ℚ)
    (h : ∀ q, W q → rm.val q = - res q) :
    ∃ rm1, msolveResidual (singleEquation func b) env [xb] cells ([rm], m)
        = ([rm1], (solveResidual func b av cells (res, m)).2) ∧
      ∀ q, (W q ∨ q ∈ cells) → rm1.val q = - (solveResidual func b av cells (res, m)).1 q := by
  induction cells generalizing W rm res m with
  | nil => exact ⟨rm, rfl, fun q hq => hq.elim (h q) (fun e => absurd e (List.not_mem_nil q))⟩
  | cons p ps ih =>
    have hR : evalEqs (singleEquation func b) env [xb] p 0 = - (b p - func av p) := by
      simp [evalEqs, singleEquation, hf p (List.mem_cons_self p ps)]
    have h2 : ∀ q, (W q ∨ q = p) →
        (rm.set p (evalEqs (singleEquation func b) env [xb] p 0)).val q
          = - (Function.update res p (b p - func av p)) q := by
      intro q hq
      by_cases hqp : q = p
      · subst hqp
        simp [Scalar.set, hR]
      · have hw : W q := hq.elim id (fun e => absurd e hqp)
        simp [Scalar.set, Function.update, hqp, h q hw]
    obtain ⟨rm1, h3, h4⟩ := ih (fun r hr => hf r (List.mem_cons_of_mem p hr))
      (fun q => W q ∨ q = p) _ (Function.update res p (b p - func av p))
      (maxAbs m (b p - func av p)) h2
    refine ⟨rm1, ?_, ?_⟩
    · simp only [msolveResidual, solveResidual, assignIdx, maxIdx]
      rw [hR, maxAbs_neg, ← hR]
      exact h3
    · intro q hq
      simp only [solveResidual]
      apply h4
      rcases hq with h5 | h5
      · exact Or.inl (Or.inl h5)
      · rcases List.mem_cons.mp h5 with h6 | h6
        · exact Or.inl (Or.inr h6)
        · exact Or.inr h6

/-- The initial residuals of `msolve` on a single unknown are those of the later
iterations, and `_lds` receives the values of the unknown in the cells visited. -/
theorem msolveResidual0_single {σ P : Type} [DecidableEq P] (equations : List (Eqn σ P))
    (env : σ) (xb : Scalar P) (cells : List P) (W : P → Prop) (rm : Scalar P) (m : ℚ)
    (d : Scalar P) (h : ∀ q, W q → d.val q = xb.val q) :
    ∃ d1, msolveResidual0 equations env [xb] cells ([rm], m, [d])
        = ((msolveResidual equations env [xb] cells ([rm], m)).1,
           (msolveResidual equations env [xb] cells ([rm], m)).2, [d1]) ∧
      d1.boundary = d.boundary ∧
      ∀ q, (W q ∨ q ∈ cells) → d1.val q = xb.val q := by
  induction cells generalizing W rm m d with
  | nil => exact ⟨d, rfl, rfl, fun q hq => hq.elim (h q) (fun e => absurd e (List.not_mem_nil q))⟩
  | cons p ps ih =>
    have h2 : ∀ q, (W q ∨ q = p) → (d.set p (xb.val p)).val q = xb.val q := by
      intro q hq
      by_cases hqp : q = p
      · subst hqp
        simp [Scalar.set]
      · have hw : W q := hq.elim id (fun e => absurd e hqp)
        simp [Scalar.set, Function.update, hqp, h q hw]
    obtain ⟨d1, h3, h4, h5⟩ := ih (fun q => W q ∨ q = p)
      (rm.set p (evalEqs equations env [xb] p 0))
      (maxAbs m (evalEqs equations env [xb] p 0)) (d.set p (xb.val p)) h2
    refine ⟨d1, ?_, h4, ?_⟩
    · simp only [msolveResidual0, msolveResidual, assignIdx, maxIdx, copyCell]
      exact h3
    · intro q hq
      apply h5
      rcases hq with h6 | h6
      · exact Or.inl (Or.inl h6)
      · rcases List.mem_cons.mp h6 with h7 | h7
        · exact Or.inl (Or.inr h7)
        · exact Or.inr h7

theorem rhsLevel_single {σ P : Type} [DecidableEq P] (func : (P → ℚ) → P → ℚ) (b : P → ℚ)
    (env : σ) (z : Scalar P) (cells : List P) (W : P → Prop) (rh : Scalar P)
    (h : ∀ q, W q → rh.val q = func z.val q - b q) :
    ∃ rh1, rhsLevel (singleEquation func b) env [z] cells [rh] = [rh1] ∧
      ∀ q, (W q ∨ q ∈ cells) → rh1.val q = func z.val q - b q := by
  induction cells generalizing W rh with
  | nil => exact ⟨rh, rfl, fun q hq => hq.elim (h q) (fun e => absurd e (List.not_mem_nil q))⟩
  | cons p ps ih =>
    have hR : evalEqs (singleEquation func b) env [z] p 0 = func z.val p - b p := by
      simp [evalEqs, singleEquation]
    have h2 : ∀ q, (W q ∨ q = p) →
        (rh.set p (evalEqs (singleEquation func b) env [z] p 0)).val q
          = func z.val q - b q := by
      intro q hq
      by_cases hqp : q = p
      · subst hqp
        simp [Scalar.set, hR]
      · have hw : W q := hq.elim id (fun e => absurd e hqp)
        simp [Scalar.set, Function.update, hqp, h q hw]
    obtain ⟨rh1, h3, h4⟩ := ih (fun q => W q ∨ q = p) _ h2
    refine ⟨rh1, ?_, ?_⟩
    · simp only [rhsLevel, assignIdx]
      exact h3
    · intro q hq
      apply h4
      rcases hq with h6 | h6
      · exact Or.inl (Or.inl h6)
      · rcases List.mem_cons.mp h6 with h7 | h7
        · exact Or.inl (Or.inr h7)
        · exact Or.inr h7

theorem rhsLevels_single {σ P : Type} [DecidableEq P] (G : Grid P) (func : (P → ℚ) → P → ℚ)
    (b : P → ℚ) (env : σ) (z : Scalar P) (levels : List Int) (W : P → Prop) (rh : Scalar P)
    (h : ∀ q, W q → rh.val q = func z.val q - b q) :
    ∃ rh1, rhsLevels G (singleEquation func b) env [z] levels [rh] = [rh1] ∧
      ∀ q, (W q ∨ ∃ l, l ∈ levels ∧ q ∈ G.level l) → rh1.val q = func z.val q - b q := by
  induction levels generalizing W rh with
  | nil =>
    refine ⟨rh, rfl, fun q hq => hq.elim (h q) ?_⟩
    rintro ⟨l, hl, _⟩
    exact absurd hl (List.not_mem_nil l)
  | cons l ls ih =>
    obtain ⟨rh0, h1, h2⟩ := rhsLevel_single func b env z (G.level l) W rh h
    obtain ⟨rh1, h3, h4⟩ := ih (fun q => W q ∨ q ∈ G.level l) rh0 h2
    refine ⟨rh1, ?_, ?_⟩
    · simp only [rhsLevels]
      rw [h1]
      exact h3
    · intro q hq
      apply h4
      rcases hq with h6 | ⟨l1, h7, h8⟩
      · exact Or.inl (Or.inl h6)
      · rcases List.mem_cons.mp h7 with h9 | h9
        · subst h9
          exact Or.inl (Or.inr h8)
        · exact Or.inr ⟨l1, h9, h8⟩

/-! ## One iteration of the two macros on a single unknown -/

/-- One iteration of the main loops keeps the two macros in step: the V-cycle of
`msolve` succeeds and leaves related states. -/
theorem related_iter {σ P : Type} [DecidableEq P] {G : Grid P} {a : Scalar P}
    {func : (P → ℚ) → P → ℚ} {minlevel : Int} {vis : Int → P → Prop}
    (C : Consistent G a func minlevel vis) (b : P → ℚ) (tolerance : ℚ)
    (hd : ∀ l, l ∈ levelsFrom (min minlevel G.maxdepth) G.maxdepth →
      ∀ (f : P → ℚ) (p : P), p ∈ G.levelOrLeaf l →
        diagonalize func (Function.update f p 0) p ≠ 0)
    (ss : SolveState P) (ms : MsolveState σ P) (h : Related G a b minlevel ss ms) :
    ∃ c, msolveCycle G (singleEquation func b) minlevel ms = .ok c ∧
      Related G a b minlevel (solveIter G func b minlevel tolerance ss)
        (msolveFinish G (singleEquation func b) noEllipsis tolerance ms c) := by
  obtain ⟨hst, hrb, hab, hdab, x, d, rm, rh, hX, hD, hRm, hRh, hxb, hxbh, hdb, hdv, hrm, hrh, _⟩ := h
  obtain ⟨s, resb, X, env, lres, lds, lrhs⟩ := ms
  obtain ⟨s', resb', a', res, da⟩ := ss
  simp only at hst hrb hab hdab hX hD hRm hRh hdv hrm
  subst hst hrb hX hD hRm hRh
  -- the V-cycle of `msolve` is the V-cycle of `solve` run on the unknown
  have hm : min minlevel G.maxdepth ≤ G.maxdepth := min_le_right _ _
  have hres1 : ∀ l, l ∈ levelsFrom (min minlevel G.maxdepth) G.maxdepth →
      ∀ p, p ∈ G.levelOrLeaf l →
        ({ rm with val := G.restriction rm.val } : Scalar P).val p = - G.restriction res p :=
    fun l hl p hp => C.restriction_odd rm.val res hrm l hl p hp
  have hlev := msolveLevels_singleEquation G func b env rh
    ({ rm with val := G.restriction rm.val } : Scalar P) (G.restriction res)
    (levelsFrom (min minlevel G.maxdepth) G.maxdepth) hres1 hrh hd s.nrelax
    (min minlevel G.maxdepth) ({ x with boundary := x.boundary_homogeneous } : Scalar P)
  -- the two corrections agree in the leaves
  have hagree := solveLevels_agree C (G.restriction res) s.nrelax (min minlevel G.maxdepth)
    G.maxdepth hm ({ x with boundary := x.boundary_homogeneous } : Scalar P) da hxbh hdab
  obtain ⟨hx2b, hx2bh⟩ := solveLevels_boundary G func (G.restriction res) s.nrelax
    (min minlevel G.maxdepth) (levelsFrom (min minlevel G.maxdepth) G.maxdepth)
    ({ x with boundary := x.boundary_homogeneous } : Scalar P)
  obtain ⟨hda1b, _⟩ := solveLevels_boundary G func (G.restriction res) s.nrelax
    (min minlevel G.maxdepth) (levelsFrom (min minlevel G.maxdepth) G.maxdepth) da
  obtain ⟨s1, d1, hacc, hs1b, hs1bh, hd1b, hacc1, _⟩ := accumulate_single G.leaves
    C.leaves_nodup
    (solveLevels G func (G.restriction res) s.nrelax (min minlevel G.maxdepth)
      (levelsFrom (min minlevel G.maxdepth) G.maxdepth)
      ({ x with boundary := x.boundary_homogeneous } : Scalar P)) d
  obtain ⟨hadd1, _⟩ := addCorrection_val
    (solveLevels G func (G.restriction res) s.nrelax (min minlevel G.maxdepth)
      (levelsFrom (min minlevel G.maxdepth) G.maxdepth) da) G.leaves C.leaves_nodup a'
  obtain ⟨haddb, _⟩ := addCorrection_boundary
    (solveLevels G func (G.restriction res) s.nrelax (min minlevel G.maxdepth)
      (levelsFrom (min minlevel G.maxdepth) G.maxdepth) da) G.leaves a'
  -- the unknowns agree in the leaves after the update
  have hleaf : ∀ p, p ∈ G.leaves → s1.val p
      = (addCorrection (solveLevels G func (G.restriction res) s.nrelax
          (min minlevel G.maxdepth) (levelsFrom (min minlevel G.maxdepth) G.maxdepth) da)
          G.leaves a').val p := by
    intro p hp
    rw [(hacc1 p hp).1, hadd1 p hp, hdv p hp,
      hagree p (C.cells_vis _ p (C.leaves_cells p hp))]
    ring
  have hcyc : msolveCycle G (singleEquation func b) minlevel
      ({ s := s, resb := resb, X := [x], env := env, lres := [rm], lds := [d], lrhs := [rh] } :
        MsolveState σ P)
      = .ok ([{ s1 with boundary := d1.boundary }], [d1],
          [({ rm with val := G.restriction rm.val } : Scalar P)]) := by
    simp only [msolveCycle, List.map]
    rw [hlev]
    simp only [hacc, restoreBoundary]
  refine ⟨_, hcyc, ?_⟩
  -- the new residuals
  have hfun : ∀ p, p ∈ G.leaves →
      func (boundaryLeaves ({ s1 with boundary := d1.boundary } : Scalar P)).val p
        = func (boundaryLeaves (addCorrection (solveLevels G func (G.restriction res) s.nrelax
            (min minlevel G.maxdepth) (levelsFrom (min minlevel G.maxdepth) G.maxdepth) da)
            G.leaves a')).val p := by
    intro p hp
    simp only [boundaryLeaves, hd1b, hdb, haddb, hab]
    exact C.residual_local _ _ hleaf p hp
  obtain ⟨rm1, hr1, hr2⟩ := msolveResidual_single func b env
    (boundaryLeaves ({ s1 with boundary := d1.boundary } : Scalar P))
    (boundaryLeaves (addCorrection (solveLevels G func (G.restriction res) s.nrelax
      (min minlevel G.maxdepth) (levelsFrom (min minlevel G.maxdepth) G.maxdepth) da)
      G.leaves a')).val G.leaves hfun (fun _ => False)
    ({ rm with val := G.restriction rm.val } : Scalar P) (G.restriction res) 0
    (fun q hq => hq.elim)
  have hfin : msolveFinish G (singleEquation func b) noEllipsis tolerance
      ({ s := s, resb := resb, X := [x], env := env, lres := [rm], lds := [d], lrhs := [rh] } :
        MsolveState σ P)
      ([{ s1 with boundary := d1.boundary }], [d1],
        [({ rm with val := G.restriction rm.val } : Scalar P)])
      = { s := (solveIter G func b minlevel tolerance
            { s := s, resb := resb, a := a', res := res, da := da }).s
          resb := (solveIter G func b minlevel tolerance
            { s := s, resb := resb, a := a', res := res, da := da }).resb
          X := [boundaryLeaves ({ s1 with boundary := d1.boundary } : Scalar P)]
          env := env
          lres := [rm1]
          lds := [d1]
          lrhs := [rh] } := by
    simp only [msolveFinish, noEllipsis, List.map, hr1, solveIter]
  rw [hfin]
  refine ⟨rfl, rfl, haddb.trans hab, hda1b.trans hdab, _, d1, rm1, rh, rfl, rfl, rfl, rfl,
    ?_, ?_, hd1b.trans hdb, ?_, ?_, hrh, ?_⟩
  · exact hd1b.trans hdb
  · exact hs1bh.trans (hx2bh.trans hxbh)
  · intro p hp
    show d1.val p = (boundaryLeaves _).val p
    simp only [boundaryLeaves, haddb, hab]
    rw [C.leaves_fixed _ p hp, (hacc1 p hp).2, ← (hacc1 p hp).1]
    exact hleaf p hp
  · intro p hp
    exact hr2 p (Or.inr hp)
  · intro _ p hp
    show (boundaryLeaves _).val p = (boundaryLeaves _).val p
    simp only [boundaryLeaves, haddb, hab, hd1b, hdb]
    rw [C.leaves_fixed _ p hp, C.leaves_fixed _ p hp]
    exact hleaf p hp

/-- On entry to their main loops the two macros are in step. -/
theorem related_init {σ P : Type} [DecidableEq P] {G : Grid P} {a : Scalar P}
    {func : (P → ℚ) → P → ℚ} {minlevel : Int} {vis : Int → P → Prop}
    (C : Consistent G a func minlevel vis) (b : P → ℚ) (env : σ) (nrelax : Int)
    (hhom : ∀ p, func (fun _ => 0) p = 0) :
    Related G a b minlevel (solveInit G func b a nrelax)
      (msolveInit G (singleEquation func b) noEllipsis [a] env nrelax minlevel) := by
  obtain ⟨d1, h0, hd1b, hd1v⟩ := msolveResidual0_single (singleEquation func b) env
    (boundaryLeaves a) G.leaves (fun _ => False) ({ a with val := G.fresh } : Scalar P) 0
    ({ a with val := G.fresh } : Scalar P) (fun q hq => hq.elim)
  obtain ⟨rm1, hr1, hr2⟩ := msolveResidual_single func b env (boundaryLeaves a)
    (boundaryLeaves a).val G.leaves (fun _ _ => rfl) (fun _ => False)
    ({ a with val := G.fresh } : Scalar P) G.fresh 0 (fun q hq => hq.elim)
  obtain ⟨rh1, hrh0, hrh1⟩ := rhsLevels_single G func b env
    ({ boundaryLeaves a with val := fun _ => 0 } : Scalar P)
    (levelsFrom (min minlevel G.maxdepth) G.maxdepth) (fun _ => False)
    ({ a with val := G.fresh } : Scalar P) (fun q hq => hq.elim)
  rw [hr1] at h0
  have hinit : msolveInit G (singleEquation func b) noEllipsis [a] env nrelax minlevel
      = { s := (solveInit G func b a nrelax).s
          resb := (solveInit G func b a nrelax).resb
          X := [({ boundaryLeaves a with val := fun _ => 0 } : Scalar P)]
          env := env
          lres := [rm1]
          lds := [d1]
          lrhs := [rh1] } := by
    simp only [msolveInit, noEllipsis, List.map, listClone, resetZero, h0, hrh0, solveInit]
  rw [hinit]
  refine ⟨rfl, rfl, rfl, rfl, _, d1, rm1, rh1, rfl, rfl, rfl, rfl, rfl, rfl, hd1b, ?_, ?_, ?_, ?_⟩
  · intro p hp
    exact hd1v p (Or.inr hp)
  · intro p hp
    exact hr2 p (Or.inr hp)
  · intro l hl p hp
    obtain ⟨l1, hl1, hp1⟩ := C.rhs_cover l hl p hp
    rw [hrh1 p (Or.inr ⟨l1, hl1, hp1⟩)]
    show func (fun _ => 0) p - b p = - b p
    rw [hhom p]
    ring
  · intro hi
    have h1 : (solveInit G func b a nrelax).s.i = 0 := rfl
    rw [h1] at hi
    exact absurd hi (by decide)

/-- After any number of iterations the two macros are in step. -/
theorem related_steps {σ P : Type} [DecidableEq P] {G : Grid P} {a : Scalar P}
    {func : (P → ℚ) → P → ℚ} {minlevel : Int} {vis : Int → P → Prop}
    (C : Consistent G a func minlevel vis) (b : P → ℚ) (tolerance : ℚ)
    (hd : ∀ l, l ∈ levelsFrom (min minlevel G.maxdepth) G.maxdepth →
      ∀ (f : P → ℚ) (p : P), p ∈ G.levelOrLeaf l →
        diagonalize func (Function.update f p 0) p ≠ 0)
    (k : Nat) (ss : SolveState P) (ms : MsolveState σ P) (h : Related G a b minlevel ss ms) :
    ∃ msk, msolveSteps G (singleEquation func b) noEllipsis minlevel tolerance k ms = .ok msk ∧
      Related G a b minlevel (solveSteps G func b minlevel tolerance k ss) msk := by
  induction k generalizing ss ms with
  | zero => exact ⟨ms, rfl, h⟩
  | succ k ih =>
    obtain ⟨c, hc, hrel⟩ := related_iter C b tolerance hd ss ms h
    obtain ⟨msk, h1, h2⟩ := ih _ _ hrel
    refine ⟨msk, ?_, h2⟩
    rw [msolveSteps, hc]
    exact h1

/-- The main loop of `msolve` ends in step with the main loop of `solve`. -/
theorem related_loop {σ P : Type} [DecidableEq P] {G : Grid P} {a : Scalar P}
    {func : (P → ℚ) → P → ℚ} {minlevel : Int} {vis : Int → P → Prop}
    (C : Consistent G a func minlevel vis) (b : P → ℚ) (NITERMAX NITERMIN : Int)
    (tolerance : ℚ)
    (hd : ∀ l, l ∈ levelsFrom (min minlevel G.maxdepth) G.maxdepth →
      ∀ (f : P → ℚ) (p : P), p ∈ G.levelOrLeaf l →
        diagonalize func (Function.update f p 0) p ≠ 0)
    (ss : SolveState P) (ms : MsolveState σ P) (h : Related G a b minlevel ss ms) :
    ∃ ms1, msolveLoop G NITERMAX NITERMIN (singleEquation func b) noEllipsis minlevel
        tolerance ms = .ok ms1 ∧
      Related G a b minlevel (solveLoop G NITERMAX NITERMIN func b minlevel tolerance ss)
        ms1 := by
  generalize hm : (NITERMAX - ss.s.i).toNat = m
  induction m using Nat.strong_induction_on generalizing ss ms with
  | _ m ih =>
    by_cases hc : continues NITERMAX NITERMIN tolerance ss.s
    · have hcm : continues NITERMAX NITERMIN tolerance ms.s := by
        rw [h.stats]
        exact hc
      obtain ⟨c, hcy, hrel⟩ := related_iter C b tolerance hd ss ms h
      have hlt : (NITERMAX - (solveIter G func b minlevel tolerance ss).s.i).toNat < m := by
        rw [solveIter_i]
        have := hc.1
        omega
      obtain ⟨ms1, h1, h2⟩ := ih _ hlt _ _ hrel rfl
      refine ⟨ms1, ?_, ?_⟩
      · rw [msolveLoop_step G NITERMAX NITERMIN _ noEllipsis minlevel tolerance ms c hcm hcy]
        exact h1
      · rw [solveLoop_step G NITERMAX NITERMIN func b minlevel tolerance ss hc]
        exact h2
    · have hcm : ¬ continues NITERMAX NITERMIN tolerance ms.s := by
        rw [h.stats]
        exact hc
      refine ⟨ms, ?_, ?_⟩
      · exact msolveLoop_stop G NITERMAX NITERMIN _ noEllipsis minlevel tolerance ms hcm
      · rw [solveLoop_stop G NITERMAX NITERMIN func b minlevel tolerance ss hc]
        exact h

/-- In exact arithmetic, on a consistent grid engine (in particular, every cell
relaxed by the cycle is a cell of one of its levels, `rhs_cover`, so that `_lrhs`
has been written wherever the relaxation reads it), for every operator `func`
that is zero when `a` is zero everywhere (linear or not) and whose diagonal coefficient is
not zero in any cell relaxed by the V-cycle, with equal `nrelax`, `minlevel` and
`tolerance`, `msolve` on the single unknown `{a}` with the single equation
`func - b[]` and `solve (a, func, b[])` write the same value in every relaxation
update and every sequence of relaxation sweeps started from the same values
(`msolve` never fails there); after every number of outer iterations they hold
the same statistics (iteration count, maximum residual, `nrelax`) and, once an
iteration has been executed, the same values of `a` in the leaves; and `msolve`
returns, with the statistics and the warning of `solve` and the same field. -/
theorem solve_msolve_consistent {σ P : Type} [DecidableEq P] (G : Grid P)
    (NITERMAX NITERMIN : Int) (a : Scalar P) (func : (P → ℚ) → P → ℚ) (b : P → ℚ) (env : σ)
    (nrelax minlevel : Int) (tolerance : ℚ) (vis : Int → P → Prop)
    (C : Consistent G a func minlevel vis)
    (hhom : ∀ p, func (fun _ => 0) p = 0)
    (hd : ∀ l, l ∈ levelsFrom (min minlevel G.maxdepth) G.maxdepth →
      ∀ (f : P → ℚ) (p : P), p ∈ G.levelOrLeaf l →
        diagonalize func (Function.update f p 0) p ≠ 0) :
    (∀ (l : Int), l ∈ levelsFrom (min minlevel G.maxdepth) G.maxdepth →
      ∀ (rh rm x : Scalar P) (res : P → ℚ),
        (∀ p, p ∈ G.levelOrLeaf l → rm.val p = - res p) →
        (∀ p, p ∈ G.levelOrLeaf l → rh.val p = - b p) →
        (∀ p, p ∈ G.levelOrLeaf l →
          relaxCell (singleEquation func b) env [rh] [rm] [x] p
            = .ok [solveRelaxCell func res x p]) ∧
        (∀ n : Nat,
          msolveRelax G (singleEquation func b) env [rh] [rm] l n [x]
            = .ok [solveRelax G func res l n x])) ∧
    (∀ k : Nat, ∃ ms,
      msolveSteps G (singleEquation func b) noEllipsis minlevel tolerance k
          (msolveInit G (singleEquation func b) noEllipsis [a] env nrelax minlevel) = .ok ms ∧
      ms.s = (solveSteps G func b minlevel tolerance k (solveInit G func b a nrelax)).s ∧
      (1 ≤ k → ∃ x, ms.X = [x] ∧ ∀ p, p ∈ G.leaves →
        x.val p
          = (solveSteps G func b minlevel tolerance k (solveInit G func b a nrelax)).a.val p)) ∧
    (∃ r, msolve G NITERMAX NITERMIN [a] (singleEquation func b) noEllipsis env nrelax
          minlevel tolerance = .ok r ∧
      r.stats = (solve G NITERMAX NITERMIN a func b nrelax minlevel tolerance).stats ∧
      r.warning = (solve G NITERMAX NITERMIN a func b nrelax minlevel tolerance).warning ∧
      (1 ≤ r.stats.i → ∃ x, r.X = [x] ∧ ∀ p, p ∈ G.leaves →
        x.val p = (solve G NITERMAX NITERMIN a func b nrelax minlevel tolerance).a.val p)) := by
  have hinit := related_init (σ := σ) C b env nrelax hhom
  refine ⟨?_, ?_, ?_⟩
  · intro l hl rh rm x res hres hrhs
    constructor
    · intro p hp
      exact relaxCell_singleEquation func b env rh rm x res p (hres p hp) (hrhs p hp)
        (hd l hl x.val p hp)
    · intro n
      exact msolveRelax_singleEquation G func b env rh rm res l hres hrhs (hd l hl) n x
  · intro k
    obtain ⟨ms, h1, h2⟩ := related_steps C b tolerance hd k _ _ hinit
    refine ⟨ms, h1, h2.stats, ?_⟩
    intro hk
    obtain ⟨x, d, rm, rh, hX, _, _, _, _, _, _, _, _, _, hx⟩ := h2.fields
    refine ⟨x, hX, hx ?_⟩
    rw [solveSteps_i]
    show (1 : Int) ≤ 0 + (k : Int)
    omega
  · obtain ⟨ms1, h1, h2⟩ := related_loop C b NITERMAX NITERMIN tolerance hd _ _ hinit
    obtain ⟨x, d, rm, rh, hX, _, _, _, _, _, _, _, _, _, hx⟩ := h2.fields
    have hm : msolve G NITERMAX NITERMIN [a] (singleEquation func b) noEllipsis env nrelax
        minlevel tolerance
        = .ok { stats := { ms1.s with minlevel := minlevel }
                X := ms1.X
                env := ms1.env
                warning := decide (ms1.s.resa > tolerance) } := by
      unfold msolve
      rw [h1]
    refine ⟨_, hm, ?_, ?_, ?_⟩
    · simp only [solve, h2.stats]
    · simp only [solve, h2.stats]
    · intro hi
      refine ⟨x, hX, ?_⟩
      apply hx
      simpa [h2.stats] using hi

/-- The periodic grid with two cells is consistent for the operator
`func = a[1] - 3 a[]`. -/
theorem pairGrid_consistent :
    Consistent pairGrid (constScalar Bool 0) pairDominant 0 (fun _ _ => True) where
  leaves_nodup := by simp [pairGrid]
  leaves_cells := by
    intro p _
    cases p <;> simp [pairGrid]
  cells_vis := fun _ _ _ => trivial
  next_cells := fun _ _ _ => Or.inl trivial
  boundary_local := by
    intro l f g h p _
    exact h p (by cases p <;> simp [pairGrid])
  func_local := by
    intro l p _ f g h
    simp only [pairDominant]
    rw [h p trivial, h (!p) trivial]
  bilinear_local := by
    intro l p _ f g h
    exact h p trivial
  leaves_fixed := fun _ _ _ => rfl
  residual_local := by
    intro f g h p _
    simp only [pairDominant, constScalar, idBoundary]
    rw [h p (by cases p <;> simp [pairGrid]), h (!p) (by cases p <;> simp [pairGrid])]
  restriction_odd := by
    intro f g h l _ p _
    exact h p (by cases p <;> simp [pairGrid])
  rhs_cover := by
    intro l hl p _
    exact ⟨l, hl, by cases p <;> simp [pairGrid]⟩

/-- The agreement of the two entry points in exact arithmetic, at a concrete
input: `a[1] - 3 a[] = b[]` on the periodic grid with two cells, with `NITERMAX = 5`, `NITERMIN = 1`, four relaxations and the
tolerance `1/1000`. -/
theorem solve_msolve_consistent_witness :
    ∃ r, msolve pairGrid 5 1 [constScalar Bool 0] (singleEquation pairDominant pairRhs)
          noEllipsis () 4 0 (1 / 1000) = .ok r ∧
      r.stats
        = (solve pairGrid 5 1 (constScalar Bool 0) pairDominant pairRhs 4 0 (1 / 1000)).stats ∧
      r.warning
        = (solve pairGrid 5 1 (constScalar Bool 0) pairDominant pairRhs 4 0 (1 / 1000)).warning ∧
      (1 ≤ r.stats.i → ∃ x, r.X = [x] ∧ ∀ p, p ∈ pairGrid.leaves →
        x.val p
          = (solve pairGrid 5 1 (constScalar Bool 0) pairDominant pairRhs 4 0
              (1 / 1000)).a.val p) :=
  (solve_msolve_consistent pairGrid 5 1 (constScalar Bool 0) pairDominant pairRhs () 4 0
    (1 / 1000) (fun _ _ => True) pairGrid_consistent
    (by
      intro p
      simp [pairDominant])
    (by
      intro l _ f p _
      cases p <;> simp [diagonalize, pairDominant, Function.update])).2.2

/-! ## The zero-iteration call, the reported level and the range of `nrelax` -/

/-- C17 at the failing input: the unknown holds 2 in the one cell of the grid and
the equation is `2 x0 - 4 = 0`, so the initial residual is zero; with
`NITERMIN = 0` (`NITERMAX = 100`, tolerance `1/1000`) the main loop of `msolve`
executes no iteration, and `msolve` returns the unknown reset to 0 by line 244,
where `solve` on the same equation returns it unchanged. -/
theorem msolve_zero_iterations_resets :
    (∃ r, msolve unitGrid 100 0 [constScalar Unit 2] singleEq noEllipsis () 4 0 (1 / 1000)
        = .ok r ∧ r.stats.i = 0 ∧ r.stats.resa = 0 ∧ r.X.map (fun s => s.val ()) = [0]) ∧
    (solve unitGrid 100 0 (constScalar Unit 2) twiceFunc (fun _ => 4) 4 0 (1 / 1000)).stats.i
      = 0 ∧
    (solve unitGrid 100 0 (constScalar Unit 2) twiceFunc (fun _ => 4) 4 0 (1 / 1000)).a.val ()
      = 2 := by
  have hm : (msolveInit unitGrid singleEq noEllipsis [constScalar Unit 2] () 4 0).s.resa = 0 := by
    simp [msolveInit, msolveResidual0, evalEqs, singleEq, unknown, unitGrid, noEllipsis,
      boundaryLeaves, constScalar, idBoundary, assignIdx, maxIdx, maxAbs, copyCell, listClone]
    norm_num
  have hs : (solveInit unitGrid twiceFunc (fun _ => 4) (constScalar Unit 2) 4).s.resa = 0 := by
    simp [solveInit, solveResidual, unitGrid, twiceFunc, boundaryLeaves, constScalar,
      idBoundary, maxAbs]
    norm_num
  refine ⟨?_, ?_, ?_⟩
  · have hl : msolveLoop unitGrid 100 0 singleEq noEllipsis 0 (1 / 1000)
        (msolveInit unitGrid singleEq noEllipsis [constScalar Unit 2] () 4 0)
        = .ok (msolveInit unitGrid singleEq noEllipsis [constScalar Unit 2] () 4 0) := by
      rw [msolveLoop_stop]
      intro h
      rcases h.2 with h1 | h1
      · exact absurd h1 (by decide)
      · rw [hm] at h1
        norm_num at h1
    have hr : msolve unitGrid 100 0 [constScalar Unit 2] singleEq noEllipsis () 4 0 (1 / 1000)
        = .ok { stats := { (msolveInit unitGrid singleEq noEllipsis [constScalar Unit 2] ()
                  4 0).s with minlevel := 0 }
                X := (msolveInit unitGrid singleEq noEllipsis [constScalar Unit 2] () 4 0).X
                env := (msolveInit unitGrid singleEq noEllipsis [constScalar Unit 2] () 4 0).env
                warning := decide ((msolveInit unitGrid singleEq noEllipsis
                  [constScalar Unit 2] () 4 0).s.resa > 1 / 1000) } := by
      unfold msolve
      rw [hl]
    refine ⟨_, hr, rfl, hm, ?_⟩
    simp [msolveInit, resetZero, noEllipsis]
  · unfold solve
    rw [solveLoop_stop]
    · rfl
    · intro h
      rcases h.2 with h1 | h1
      · exact absurd h1 (by decide)
      · rw [hs] at h1
        norm_num at h1
  · unfold solve
    rw [solveLoop_stop]
    · rfl
    · intro h
      rcases h.2 with h1 | h1
      · exact absurd h1 (by decide)
      · rw [hs] at h1
        norm_num at h1

/-- C18: for every call of `solve` or `msolve` whose requested `nrelax` lies in
[2,100] and for every history of residuals, `nrelax` lies in [2,100] after any
number of outer iterations and in the returned statistics, and it changes by at
most 1 from one outer iteration to the next. -/
theorem nrelax_stays_in_range {σ P : Type} [DecidableEq P] (G : Grid P)
    (NITERMAX NITERMIN : Int) (a : Scalar P) (func : (P → ℚ) → P → ℚ) (rhs : P → ℚ)
    (X : List (Scalar P)) (equations : List (Eqn σ P))
    (ellipsis : σ → List (Scalar P) → σ × List (Scalar P)) (env : σ)
    (nrelax minlevel : Int) (tolerance : ℚ) (h2 : 2 ≤ nrelax) (h100 : nrelax ≤ 100) :
    (∀ k : Nat,
      2 ≤ (solveSteps G func rhs minlevel tolerance k (solveInit G func rhs a nrelax)).s.nrelax ∧
      (solveSteps G func rhs minlevel tolerance k (solveInit G func rhs a nrelax)).s.nrelax
        ≤ 100 ∧
      (solveSteps G func rhs minlevel tolerance k (solveInit G func rhs a nrelax)).s.nrelax - 1
        ≤ (solveSteps G func rhs minlevel tolerance (k + 1)
            (solveInit G func rhs a nrelax)).s.nrelax ∧
      (solveSteps G func rhs minlevel tolerance (k + 1)
          (solveInit G func rhs a nrelax)).s.nrelax
        ≤ (solveSteps G func rhs minlevel tolerance k
            (solveInit G func rhs a nrelax)).s.nrelax + 1) ∧
    (2 ≤ (solve G NITERMAX NITERMIN a func rhs nrelax minlevel tolerance).stats.nrelax ∧
      (solve G NITERMAX NITERMIN a func rhs nrelax minlevel tolerance).stats.nrelax ≤ 100) ∧
    (∀ (k : Nat) (st : MsolveState σ P),
      msolveSteps G equations ellipsis minlevel tolerance k
          (msolveInit G equations ellipsis X env nrelax minlevel) = .ok st →
      2 ≤ st.s.nrelax ∧ st.s.nrelax ≤ 100 ∧
      ∀ st1 : MsolveState σ P,
        msolveSteps G equations ellipsis minlevel tolerance (k + 1)
            (msolveInit G equations ellipsis X env nrelax minlevel) = .ok st1 →
        st.s.nrelax - 1 ≤ st1.s.nrelax ∧ st1.s.nrelax ≤ st.s.nrelax + 1) ∧
    (∀ r : MsolveResult σ P,
      msolve G NITERMAX NITERMIN X equations ellipsis env nrelax minlevel tolerance = .ok r →
      2 ≤ r.stats.nrelax ∧ r.stats.nrelax ≤ 100) := by
  have hn0 : (solveInit G func rhs a nrelax).s.nrelax = nrelax := rfl
  have hm0 : (msolveInit G equations ellipsis X env nrelax minlevel).s.nrelax = nrelax := rfl
  refine ⟨?_, ?_, ?_, ?_⟩
  · intro k
    obtain ⟨h3, h4⟩ := solveSteps_nrelax_range G func rhs minlevel tolerance k
      (solveInit G func rhs a nrelax)
    rw [hn0] at h3 h4
    have h5 := tune_near tolerance
      (solveSteps G func rhs minlevel tolerance k (solveInit G func rhs a nrelax)).resb
      (solveIter G func rhs minlevel tolerance
        (solveSteps G func rhs minlevel tolerance k (solveInit G func rhs a nrelax))).s.resa
      (solveSteps G func rhs minlevel tolerance k (solveInit G func rhs a nrelax)).s.nrelax
    rw [solveSteps_succ, solveIter_nrelax]
    refine ⟨by omega, by omega, h5.1, h5.2⟩
  · obtain ⟨n, hn, _, _⟩ := solveLoop_eq_steps G NITERMAX NITERMIN func rhs minlevel tolerance
      (solveInit G func rhs a nrelax)
    obtain ⟨h3, h4⟩ := solveSteps_nrelax_range G func rhs minlevel tolerance n
      (solveInit G func rhs a nrelax)
    rw [hn0] at h3 h4
    unfold solve
    rw [hn]
    show 2 ≤ (solveSteps G func rhs minlevel tolerance n (solveInit G func rhs a nrelax)).s.nrelax ∧
      (solveSteps G func rhs minlevel tolerance n (solveInit G func rhs a nrelax)).s.nrelax ≤ 100
    exact ⟨by omega, by omega⟩
  · intro k st h
    obtain ⟨h3, h4⟩ := msolveSteps_nrelax_range G equations ellipsis minlevel tolerance k _ st h
    rw [hm0] at h3 h4
    refine ⟨by omega, by omega, ?_⟩
    intro st1 h1
    obtain ⟨stk, c, h5, _, h7⟩ := msolveSteps_back G equations ellipsis minlevel tolerance k _
      st1 h1
    rw [h] at h5
    cases h5
    rw [h7, msolveFinish_nrelax]
    exact tune_near tolerance st.resb _ st.s.nrelax
  · intro r h
    unfold msolve at h
    cases hl : msolveLoop G NITERMAX NITERMIN equations ellipsis minlevel tolerance
        (msolveInit G equations ellipsis X env nrelax minlevel) with
    | error e =>
      rw [hl] at h
      cases h
    | ok st =>
      rw [hl] at h
      cases h
      obtain ⟨n, hn, _, _⟩ := msolveLoop_ok G NITERMAX NITERMIN equations ellipsis minlevel
        tolerance _ st hl
      obtain ⟨h3, h4⟩ := msolveSteps_nrelax_range G equations ellipsis minlevel tolerance n _
        st hn
      rw [hm0] at h3 h4
      show 2 ≤ st.s.nrelax ∧ st.s.nrelax ≤ 100
      exact ⟨by omega, by omega⟩

/-- C18, at a concrete input: `msolve` for `2 x0 - 4 = 0` on the one-cell grid with
two relaxations requested. -/
theorem nrelax_stays_in_range_witness :
    ∃ r, msolve unitGrid 1 1 [constScalar Unit 0] singleEq noEllipsis () 2 0 (1 / 1000) = .ok r ∧
      2 ≤ r.stats.nrelax ∧ r.stats.nrelax ≤ 100 := by
  obtain ⟨r, hr⟩ := msolve_singleEq_ok
  exact ⟨r, hr,
    (nrelax_stays_in_range unitGrid 1 1 (constScalar Unit 0) twiceFunc (fun _ => 4)
      [constScalar Unit 0] singleEq noEllipsis () 2 0 (1 / 1000) (by decide)
      (by decide)).2.2.2 r hr⟩

/-- C13, as stated, fails: on the one-cell grid (`grid->maxdepth = 0`) `solve`
called with `minlevel = 3` runs its V-cycle on the single level 0, the clamped
`_minlevel`, and reports `minlevel = 3` in its statistics. -/
theorem solve_reports_requested_minlevel :
    unitGrid.maxdepth = 0 ∧
    levelsFrom (min 3 unitGrid.maxdepth) unitGrid.maxdepth = [0] ∧
    (solve unitGrid 1 1 (constScalar Unit 0) twiceFunc (fun _ => 4) 4 3 (1 / 1000)).stats.i = 1 ∧
    (solve unitGrid 1 1 (constScalar Unit 0) twiceFunc (fun _ => 4) 4 3 (1 / 1000)).stats.minlevel
      = 3 := by
  refine ⟨rfl, ?_, ?_, rfl⟩
  · simp [levelsFrom, unitGrid, List.range_succ]
  · unfold solve
    rw [solveLoop_once unitGrid 1 twiceFunc (fun _ => 4) 3 (1 / 1000) _ rfl (by decide)]
    rfl

/-- C13, amended: for every requested `minlevel` and every grid depth, the
`minlevel` stored in the statistics returned by `solve` and written by `msolve` is
the requested `minlevel`; the V-cycles seed and relax the correction on the levels
from `min (minlevel, maxdepth)`, where the correction is seeded with zero, to
`maxdepth`; so the stored value is the coarsest level of the V-cycles exactly when
`minlevel <= maxdepth`. -/
theorem minlevel_reported {σ P : Type} [DecidableEq P] (G : Grid P)
    (NITERMAX NITERMIN : Int) (a : Scalar P) (func : (P → ℚ) → P → ℚ) (rhs : P → ℚ)
    (X : List (Scalar P)) (equations : List (Eqn σ P))
    (ellipsis : σ → List (Scalar P) → σ × List (Scalar P)) (env : σ)
    (nrelax minlevel : Int) (tolerance : ℚ) :
    (solve G NITERMAX NITERMIN a func rhs nrelax minlevel tolerance).stats.minlevel = minlevel ∧
    (∀ r : MsolveResult σ P,
      msolve G NITERMAX NITERMIN X equations ellipsis env nrelax minlevel tolerance = .ok r →
      r.stats.minlevel = minlevel) ∧
    (∀ st : SolveState P,
      (solveIter G func rhs minlevel tolerance st).da
        = solveLevels G func (G.restriction st.res) st.s.nrelax (min minlevel G.maxdepth)
            (levelsFrom (min minlevel G.maxdepth) G.maxdepth) st.da) ∧
    (∀ (st : MsolveState σ P) (c : List (Scalar P) × List (Scalar P) × List (Scalar P)),
      msolveCycle G equations minlevel st = .ok c →
      ∃ X2, msolveLevels G equations st.env st.lrhs
          (st.lres.map (fun r => { r with val := G.restriction r.val })) st.s.nrelax
          (min minlevel G.maxdepth) (levelsFrom (min minlevel G.maxdepth) G.maxdepth)
          (st.X.map (fun s => { s with boundary := s.boundary_homogeneous })) = .ok X2) ∧
    (∀ (res : P → ℚ) (da : Scalar P),
      solveLevel G func res nrelax (min minlevel G.maxdepth) da (min minlevel G.maxdepth)
        = solveRelax G func res (min minlevel G.maxdepth) nrelax.toNat
            (boundaryLevel (seedZero (G.levelOrLeaf (min minlevel G.maxdepth)) da)
              (min minlevel G.maxdepth))) ∧
    levelsFrom (min minlevel G.maxdepth) G.maxdepth
      = min minlevel G.maxdepth :: levelsFrom (min minlevel G.maxdepth + 1) G.maxdepth ∧
    (∀ l, l ∈ levelsFrom (min minlevel G.maxdepth) G.maxdepth →
      min minlevel G.maxdepth ≤ l ∧ l ≤ G.maxdepth) ∧
    (minlevel = min minlevel G.maxdepth ↔ minlevel ≤ G.maxdepth) := by
  refine ⟨rfl, ?_, fun st => rfl, ?_, ?_, ?_, ?_, ?_⟩
  · intro r h
    unfold msolve at h
    cases hl : msolveLoop G NITERMAX NITERMIN equations ellipsis minlevel tolerance
        (msolveInit G equations ellipsis X env nrelax minlevel) with
    | error e =>
      rw [hl] at h
      cases h
    | ok st =>
      rw [hl] at h
      cases h
      rfl
  · intro st c h
    unfold msolveCycle at h
    cases hl : msolveLevels G equations st.env st.lrhs
        (st.lres.map (fun r => { r with val := G.restriction r.val })) st.s.nrelax
        (min minlevel G.maxdepth) (levelsFrom (min minlevel G.maxdepth) G.maxdepth)
        (st.X.map (fun s => { s with boundary := s.boundary_homogeneous })) with
    | error e =>
      simp only [hl] at h
      cases h
    | ok X2 => exact ⟨X2, rfl⟩
  · intro res da
    simp [solveLevel]
  · exact levelsFrom_cons _ _ (min_le_right _ _)
  · intro l hl
    exact levelsFrom_mem _ _ l hl
  · constructor
    · intro h
      rw [h]
      exact min_le_right _ _
    · intro h
      exact (min_eq_left h).symm

/-- C13, amended, at a concrete input: `msolve` for `2 x0 - 4 = 0` on the one-cell
grid with `minlevel = 0`. -/
theorem minlevel_reported_witness :
    ∃ r, msolve unitGrid 1 1 [constScalar Unit 0] singleEq noEllipsis () 2 0 (1 / 1000) = .ok r ∧
      r.stats.minlevel = 0 := by
  obtain ⟨r, hr⟩ := msolve_singleEq_ok
  exact ⟨r, hr,
    (minlevel_reported unitGrid 1 1 (constScalar Unit 0) twiceFunc (fun _ => 4)
      [constScalar Unit 0] singleEq noEllipsis () 2 0 (1 / 1000)).2.1 r hr⟩

/-! ## The maximum residual -/

theorem maxAbs_ge (m r : ℚ) : m ≤ maxAbs m r ∧ |r| ≤ maxAbs m r := by
  unfold maxAbs
  split_ifs with h
  · exact ⟨le_of_lt h, le_refl _⟩
  · exact ⟨le_refl _, not_lt.mp h⟩

theorem maxAbs_cases (m r : ℚ) : maxAbs m r = m ∨ maxAbs m r = |r| := by
  unfold maxAbs
  split_ifs
  · exact Or.inr rfl
  · exact Or.inl rfl

/-- What the residual loop of `solve` leaves: the residual in the cells visited,
the former content elsewhere, and the largest of the initial `maxres` and of the
absolute values of the residuals. -/
theorem solveResidual_spec {P : Type} [DecidableEq P] (func : (P → ℚ) → P → ℚ) (rhs : P → ℚ)
    (a : P → ℚ) (cells : List P) (res : P → ℚ) (m : ℚ) :
    (∀ p, p ∈ cells → (solveResidual func rhs a cells (res, m)).1 p = rhs p - func a p) ∧
    (∀ p, p ∉ cells → (solveResidual func rhs a cells (res, m)).1 p = res p) ∧
    m ≤ (solveResidual func rhs a cells (res, m)).2 ∧
    (∀ p, p ∈ cells → |rhs p - func a p| ≤ (solveResidual func rhs a cells (res, m)).2) ∧
    ((solveResidual func rhs a cells (res, m)).2 = m ∨
      ∃ p, p ∈ cells ∧ (solveResidual func rhs a cells (res, m)).2 = |rhs p - func a p|) := by
  induction cells generalizing res m with
  | nil =>
    exact ⟨fun p hp => absurd hp (List.not_mem_nil p), fun p _ => rfl, le_refl _,
      fun p hp => absurd hp (List.not_mem_nil p), Or.inl rfl⟩
  | cons q qs ih =>
    obtain ⟨h1, h2, h3, h4, h5⟩ := ih (Function.update res q (rhs q - func a q))
      (maxAbs m (rhs q - func a q))
    obtain ⟨g1, g2⟩ := maxAbs_ge m (rhs q - func a q)
    simp only [solveResidual]
    refine ⟨?_, ?_, le_trans g1 h3, ?_, ?_⟩
    · intro p hp
      by_cases hq : p ∈ qs
      · exact h1 p hq
      · have hpq : p = q := by
          rcases List.mem_cons.mp hp with h | h
          · exact h
          · exact absurd h hq
        rw [h2 p hq, hpq]
        simp
    · intro p hp
      have hne : p ≠ q := fun e => hp (e ▸ List.mem_cons_self q qs)
      rw [h2 p (fun e => hp (List.mem_cons_of_mem q e))]
      simp [Function.update, hne]
    · intro p hp
      rcases List.mem_cons.mp hp with h | h
      · rw [h]
        exact le_trans g2 h3
      · exact h4 p h
    · rcases h5 with h | ⟨p, hp, h⟩
      · rcases maxAbs_cases m (rhs q - func a q) with g | g
        · exact Or.inl (h.trans g)
        · exact Or.inr ⟨q, List.mem_cons_self q qs, h.trans g⟩
      · exact Or.inr ⟨p, List.mem_cons_of_mem q hp, h⟩

theorem valAt_cons_zero {P : Type} (s : Scalar P) (L : List (Scalar P)) (q : P) :
    valAt (s :: L) 0 q = s.val q := rfl

theorem valAt_cons_succ {P : Type} (s : Scalar P) (L : List (Scalar P)) (k : Nat) (q : P) :
    valAt (s :: L) (k + 1) q = valAt L k q := rfl

theorem assignIdx_length {P : Type} [DecidableEq P] (L : List (Scalar P)) (i : Nat) (p : P)
    (R : Nat → ℚ) : (assignIdx L i p R).length = L.length := by
  induction L generalizing i with
  | nil => rfl
  | cons s L ih => simp [assignIdx, ih]

theorem valAt_assignIdx {P : Type} [DecidableEq P] (L : List (Scalar P)) (i : Nat) (p : P)
    (R : Nat → ℚ) (k : Nat) (q : P) :
    valAt (assignIdx L i p R) k q
      = if k < L.length ∧ q = p then R (i + k) else valAt L k q := by
  induction L generalizing i k with
  | nil => simp [assignIdx]
  | cons s L ih =>
    cases k with
    | zero =>
      simp only [assignIdx, valAt_cons_zero, Scalar.set, List.length_cons, Nat.zero_lt_succ,
        true_and, Nat.add_zero]
      by_cases h : q = p
      · subst h
        simp [Function.update]
      · simp [Function.update, h]
    | succ k =>
      simp only [assignIdx, valAt_cons_succ, ih, List.length_cons, Nat.succ_lt_succ_iff]
      have : i + 1 + k = i + (k + 1) := by omega
      rw [this]

theorem maxIdx_spec {P : Type} (L : List (Scalar P)) (i : Nat) (R : Nat → ℚ) (m : ℚ) :
    m ≤ maxIdx L i R m ∧
    (∀ k, k < L.length → |R (i + k)| ≤ maxIdx L i R m) ∧
    (maxIdx L i R m = m ∨ ∃ k, k < L.length ∧ maxIdx L i R m = |R (i + k)|) := by
  induction L generalizing i m with
  | nil => exact ⟨le_refl _, fun k hk => absurd hk (Nat.not_lt_zero k), Or.inl rfl⟩
  | cons s L ih =>
    obtain ⟨h1, h2, h3⟩ := ih (i + 1) (maxAbs m (R i))
    obtain ⟨g1, g2⟩ := maxAbs_ge m (R i)
    simp only [maxIdx]
    refine ⟨le_trans g1 h1, ?_, ?_⟩
    · intro k hk
      cases k with
      | zero => exact le_trans g2 h1
      | succ k =>
        have := h2 k (by simpa using hk)
        have e : i + 1 + k = i + (k + 1) := by omega
        rw [e] at this
        exact this
    · rcases h3 with h | ⟨k, hk, h⟩
      · rcases maxAbs_cases m (R i) with g | g
        · exact Or.inl (h.trans g)
        · exact Or.inr ⟨0, by simp, h.trans g⟩
      · refine Or.inr ⟨k + 1, by simpa using hk, ?_⟩
        have e : i + 1 + k = i + (k + 1) := by omega
        rw [← e]
        exact h

/-- What the residual loop of `msolve` leaves: the residual of equation `k` in the
field `k` of `_lres` in the cells visited, the former content elsewhere, and the
largest of the initial `maxres` and of the absolute values of these residuals. -/
theorem msolveResidual_spec {σ P : Type} [DecidableEq P] (equations : List (Eqn σ P))
    (env : σ) (X : List (Scalar P)) (cells : List P) (L : List (Scalar P)) (m : ℚ) :
    (msolveResidual equations env X cells (L, m)).1.length = L.length ∧
    (∀ p, p ∈ cells → ∀ k, k < L.length →
      valAt (msolveResidual equations env X cells (L, m)).1 k p = evalEqs equations env X p k) ∧
    (∀ p, p ∉ cells → ∀ k,
      valAt (msolveResidual equations env X cells (L, m)).1 k p = valAt L k p) ∧
    m ≤ (msolveResidual equations env X cells (L, m)).2 ∧
    (∀ p, p ∈ cells → ∀ k, k < L.length →
      |evalEqs equations env X p k| ≤ (msolveResidual equations env X cells (L, m)).2) ∧
    ((msolveResidual equations env X cells (L, m)).2 = m ∨
      ∃ p, p ∈ cells ∧ ∃ k, k < L.length ∧
        (msolveResidual equations env X cells (L, m)).2 = |evalEqs equations env X p k|) := by
  induction cells generalizing L m with
  | nil =>
    exact ⟨rfl, fun p hp => absurd hp (List.not_mem_nil p), fun p _ k => rfl, le_refl _,
      fun p hp => absurd hp (List.not_mem_nil p), Or.inl rfl⟩
  | cons q qs ih =>
    obtain ⟨h0, h1, h2, h3, h4, h5⟩ := ih (assignIdx L 0 q (evalEqs equations env X q))
      (maxIdx L 0 (evalEqs equations env X q) m)
    obtain ⟨g1, g2, g3⟩ := maxIdx_spec L 0 (evalEqs equations env X q) m
    rw [assignIdx_length] at h0 h1 h4 h5
    simp only [msolveResidual]
    refine ⟨h0, ?_, ?_, le_trans g1 h3, ?_, ?_⟩
    · intro p hp k hk
      by_cases hq : p ∈ qs
      · exact h1 p hq k hk
      · have hpq : p = q := by
          rcases List.mem_cons.mp hp with h | h
          · exact h
          · exact absurd h hq
        rw [h2 p hq k, valAt_assignIdx, if_pos ⟨hk, hpq⟩, hpq, Nat.zero_add]
    · intro p hp k
      have hne : p ≠ q := fun e => hp (e ▸ List.mem_cons_self q qs)
      rw [h2 p (fun e => hp (List.mem_cons_of_mem q e)) k, valAt_assignIdx,
        if_neg (fun h => hne h.2)]
    · intro p hp k hk
      rcases List.mem_cons.mp hp with h | h
      · rw [h]
        have := g2 k hk
        rw [Nat.zero_add] at this
        exact le_trans this h3
      · exact h4 p h k hk
    · rcases h5 with h | ⟨p, hp, k, hk, h⟩
      · rcases g3 with g | ⟨k, hk, g⟩
        · exact Or.inl (h.trans g)
        · refine Or.inr ⟨q, List.mem_cons_self q qs, k, hk, ?_⟩
          rw [Nat.zero_add] at g
          exact h.trans g
      · exact Or.inr ⟨p, List.mem_cons_of_mem q hp, k, hk, h⟩

/-- The initial residual loop of `msolve` computes the residuals and their
maximum as the loop of the later iterations does. -/
theorem msolveResidual0_fst {σ P : Type} [DecidableEq P] (equations : List (Eqn σ P))
    (env : σ) (X : List (Scalar P)) (cells : List P) (L : List (Scalar P)) (m : ℚ)
    (D : List (Scalar P)) :
    (msolveResidual0 equations env X cells (L, m, D)).1
      = (msolveResidual equations env X cells (L, m)).1 ∧
    (msolveResidual0 equations env X cells (L, m, D)).2.1
      = (msolveResidual equations env X cells (L, m)).2 := by
  induction cells generalizing L m D with
  | nil => exact ⟨rfl, rfl⟩
  | cons q qs ih =>
    simp only [msolveResidual0, msolveResidual]
    exact ih _ _ _

/-! ## The probe of the equations at one cell -/

theorem setAll_length {P : Type} [DecidableEq P] (X : List (Scalar P)) (p : P) (v : ℚ) :
    (setAll X p v).length = X.length := by
  simp [setAll]

theorem setNth_length {P : Type} [DecidableEq P] (X : List (Scalar P)) (k : Nat) (p : P) (v : ℚ) :
    (setNth X k p v).length = X.length := by
  induction X generalizing k with
  | nil => rfl
  | cons s X ih =>
    cases k with
    | zero => rfl
    | succ k => simp [setNth, ih]

theorem valAt_nil {P : Type} (k : Nat) (q : P) : valAt ([] : List (Scalar P)) k q = 0 := by
  simp [valAt]

theorem valAt_setAll {P : Type} [DecidableEq P] (X : List (Scalar P)) (p : P) (v : ℚ)
    (k : Nat) (q : P) :
    valAt (setAll X p v) k q = if k < X.length ∧ q = p then v else valAt X k q := by
  induction X generalizing k with
  | nil => simp [setAll, valAt_nil]
  | cons s X ih =>
    cases k with
    | zero =>
      by_cases h : q = p
      · subst h
        simp [setAll, valAt_cons_zero, Scalar.set, Function.update]
      · simp [setAll, valAt_cons_zero, Scalar.set, Function.update, h]
    | succ k =>
      have := ih k
      simp only [setAll] at this
      simp only [setAll, List.map_cons, valAt_cons_succ, this, List.length_cons,
        Nat.succ_lt_succ_iff]

theorem valAt_setNth {P : Type} [DecidableEq P] (X : List (Scalar P)) (k0 : Nat) (p : P) (v : ℚ)
    (k : Nat) (q : P) :
    valAt (setNth X k0 p v) k q
      = if k = k0 ∧ k < X.length ∧ q = p then v else valAt X k q := by
  induction X generalizing k k0 with
  | nil => simp [setNth, valAt_nil]
  | cons s X ih =>
    cases k0 with
    | zero =>
      cases k with
      | zero =>
        by_cases h : q = p
        · subst h
          simp [setNth, valAt_cons_zero, Scalar.set, Function.update]
        · simp [setNth, valAt_cons_zero, Scalar.set, Function.update, h]
      | succ k => simp [setNth, valAt_cons_succ]
    | succ k0 =>
      cases k with
      | zero => simp [setNth, valAt_cons_zero]
      | succ k => simp [setNth, valAt_cons_succ, ih]

/-- Setting an unknown to one and back to zero at a cell where all the unknowns
hold zero changes nothing. -/
theorem setNth_one_zero {P : Type} [DecidableEq P] (X : List (Scalar P)) (k : Nat) (p : P) :
    setNth (setNth (setAll X p 0) k p 1) k p 0 = setAll X p 0 := by
  induction X generalizing k with
  | nil => rfl
  | cons s X ih =>
    cases k with
    | zero => simp [setAll, setNth, Scalar.set_set]
    | succ k =>
      have := ih k
      simp only [setAll] at this
      simp [setAll, setNth, this]

/-- The state of the loop of lines 306-313 after the unknowns of index below `n`:
the unknowns hold zero at the cell, and the rows of `_D` below `n` are filled. -/
theorem probeStep_fold {σ P : Type} [DecidableEq P] (equations : List (Eqn σ P)) (env : σ)
    (X : List (Scalar P)) (p : P) (R : Nat → ℚ) (len : Nat) (D0 : Nat → Nat → ℚ) (n : Nat) :
    ((List.range n).foldl (probeStep equations env p R len) (setAll X p 0, D0)).1
      = setAll X p 0 ∧
    ∀ k j, ((List.range n).foldl (probeStep equations env p R len) (setAll X p 0, D0)).2 k j
      = if k < n ∧ j < len then
          evalEqs equations env (setNth (setAll X p 0) k p 1) p j - R j
        else D0 k j := by
  induction n with
  | zero => exact ⟨rfl, fun k j => by simp⟩
  | succ n ih =>
    obtain ⟨h1, h2⟩ := ih
    rw [List.range_succ, List.foldl_append]
    simp only [List.foldl_cons, List.foldl_nil, probeStep, h1, setNth_one_zero, true_and]
    intro k j
    rw [h2]
    by_cases hk : k = n
    · subst hk
      by_cases hj : j < len
      · simp [hj]
      · simp [hj]
    · by_cases hj : j < len
      · have : k < n + 1 ↔ k < n := by omega
        simp [hk, hj, this]
      · simp [hj]

/-- The per-cell solve reads `_D` and `_R` at the indices below `_len` only. -/
theorem cellSolve_congr (len : Nat) (D D1 : Nat → Nat → ℚ) (R R1 : Nat → ℚ)
    (hD : ∀ k j, k < len → j < len → D k j = D1 k j) (hR : ∀ j, j < len → R j = R1 j) :
    cellSolve len D R = cellSolve len D1 R1 := by
  unfold cellSolve
  by_cases h1 : len = 1
  · subst h1
    simp only [if_true]
    rw [hD 0 0 (by decide) (by decide), hR 0 (by decide)]
  · by_cases h2 : len = 2
    · subst h2
      simp only [if_neg h1, if_true]
      rw [hD 0 0 (by decide) (by decide), hD 0 1 (by decide) (by decide),
        hD 1 0 (by decide) (by decide), hD 1 1 (by decide) (by decide),
        hR 0 (by decide), hR 1 (by decide)]
    · simp only [if_neg h1, if_neg h2]

/-! ## The executions of the ellipsis block -/

/-- A counter that each execution of the ellipsis block increments has increased
by `k` after `k` iterations of the main loop of `msolve`. -/
theorem msolveSteps_count {σ P : Type} [DecidableEq P] (G : Grid P) (equations : List (Eqn σ P))
    (ellipsis : σ → List (Scalar P) → σ × List (Scalar P)) (minlevel : Int) (tolerance : ℚ)
    (cnt : σ → Nat) (hcnt : ∀ e Y, cnt (ellipsis e Y).1 = cnt e + 1)
    (k : Nat) (st st1 : MsolveState σ P)
    (h : msolveSteps G equations ellipsis minlevel tolerance k st = .ok st1) :
    cnt st1.env = cnt st.env + k := by
  induction k generalizing st1 with
  | zero =>
    rw [msolveSteps] at h
    cases h
    rfl
  | succ k ih =>
    obtain ⟨stk, c, h1, _, h3⟩ := msolveSteps_back G equations ellipsis minlevel tolerance k st
      st1 h
    rw [h3]
    show cnt (ellipsis stk.env c.1).1 = _
    rw [hcnt, ih stk h1]
    ring

/-- The call of `msolve` for the equation `2 x0 - 4 = 0` on the one-cell grid with
the counting ellipsis block, `NITERMAX = NITERMIN = 1`, two relaxations and the
tolerance `1/1000`, returns. -/
theorem msolve_countedEq_ok :
    ∃ r, msolve unitGrid 1 1 [constScalar Unit 0] countedEq countingEllipsis 0 2 0 (1 / 1000)
      = .ok r := by
  have hc : ∃ c, msolveCycle unitGrid countedEq 0
      (msolveInit unitGrid countedEq countingEllipsis [constScalar Unit 0] 0 2 0) = .ok c := by
    simp [msolveInit, msolveCycle, msolveLevels, msolveLevel, msolveRelax, msolveSweep, relaxCell,
      cellSolve, probeD, probeR, evalEqs, countedEq, setAll, setNth, unknown, writeCell, valAt,
      mseedZero, levelsFrom, unitGrid, countingEllipsis, boundaryLeaves, boundaryLevel,
      constScalar, idBoundary, resetZero, rhsLevels, rhsLevel, assignIdx, maxIdx, maxAbs,
      msolveResidual0, copyCell, listClone, accumulate, accumCell, restoreBoundary, Scalar.set]
  obtain ⟨c, hc⟩ := hc
  unfold msolve
  rw [msolveLoop_once unitGrid 1 countedEq countingEllipsis 0 (1 / 1000) _ c rfl (by decide) hc]
  exact ⟨_, rfl⟩

/-- C12: for every call of `msolve`, with the executions of the ellipsis block
counted by a counter `cnt` of the auxiliary state that each execution increments:
the block is executed once on the state given by the caller and the initial
residual is evaluated on its output; in every iteration of the main loop whose
V-cycle returns, it is executed once, on the unknowns obtained by adding the
correction of the V-cycle (`accumulate`) and restoring the boundary conditions
(`restoreBoundary`), and the residual of the iteration is evaluated on its
output; and when `msolve` returns, the counter has increased by the number of
iterations plus one. -/
theorem ellipsis_invocations {σ P : Type} [DecidableEq P] (G : Grid P)
    (NITERMAX NITERMIN : Int) (X : List (Scalar P)) (equations : List (Eqn σ P))
    (ellipsis : σ → List (Scalar P) → σ × List (Scalar P)) (env : σ)
    (nrelax minlevel : Int) (tolerance : ℚ)
    (cnt : σ → Nat) (hcnt : ∀ e Y, cnt (ellipsis e Y).1 = cnt e + 1) :
    ((msolveInit G equations ellipsis X env nrelax minlevel).env = (ellipsis env X).1 ∧
      cnt (msolveInit G equations ellipsis X env nrelax minlevel).env = cnt env + 1 ∧
      (msolveInit G equations ellipsis X env nrelax minlevel).s.resa
        = (msolveResidual equations (ellipsis env X).1 ((ellipsis env X).2.map boundaryLeaves)
            G.leaves (listClone G X, 0)).2) ∧
    (∀ (st : MsolveState σ P) (c : List (Scalar P) × List (Scalar P) × List (Scalar P)),
      msolveCycle G equations minlevel st = .ok c →
      (∃ X2,
        msolveLevels G equations st.env st.lrhs
            (st.lres.map (fun r => { r with val := G.restriction r.val })) st.s.nrelax
            (min minlevel G.maxdepth) (levelsFrom (min minlevel G.maxdepth) G.maxdepth)
            (st.X.map (fun s => { s with boundary := s.boundary_homogeneous })) = .ok X2 ∧
        c.1 = restoreBoundary (accumulate G.leaves (X2, st.lds)).1
                (accumulate G.leaves (X2, st.lds)).2) ∧
      (msolveFinish G equations ellipsis tolerance st c).env = (ellipsis st.env c.1).1 ∧
      cnt (msolveFinish G equations ellipsis tolerance st c).env = cnt st.env + 1 ∧
      (msolveFinish G equations ellipsis tolerance st c).X
        = (ellipsis st.env c.1).2.map boundaryLeaves ∧
      (msolveFinish G equations ellipsis tolerance st c).s.resa
        = (msolveResidual equations (ellipsis st.env c.1).1
            ((ellipsis st.env c.1).2.map boundaryLeaves) G.leaves (c.2.2, 0)).2 ∧
      (msolveFinish G equations ellipsis tolerance st c).s.i = st.s.i + 1) ∧
    (∀ r : MsolveResult σ P,
      msolve G NITERMAX NITERMIN X equations ellipsis env nrelax minlevel tolerance = .ok r →
      (cnt r.env : Int) = cnt env + r.stats.i + 1) := by
  refine ⟨⟨rfl, hcnt env X, ?_⟩, ?_, ?_⟩
  · exact (msolveResidual0_fst equations (ellipsis env X).1
      ((ellipsis env X).2.map boundaryLeaves) G.leaves (listClone G X) 0 (listClone G X)).2
  · intro st c hc
    refine ⟨?_, rfl, hcnt st.env c.1, rfl, rfl, rfl⟩
    unfold msolveCycle at hc
    simp only at hc
    cases hl : msolveLevels G equations st.env st.lrhs
        (st.lres.map (fun r => { r with val := G.restriction r.val })) st.s.nrelax
        (min minlevel G.maxdepth) (levelsFrom (min minlevel G.maxdepth) G.maxdepth)
        (st.X.map (fun s => { s with boundary := s.boundary_homogeneous })) with
    | error e =>
      rw [hl] at hc
      cases hc
    | ok X2 =>
      rw [hl] at hc
      cases hc
      exact ⟨X2, rfl, rfl⟩
  · intro r h
    unfold msolve at h
    cases hl : msolveLoop G NITERMAX NITERMIN equations ellipsis minlevel tolerance
        (msolveInit G equations ellipsis X env nrelax minlevel) with
    | error e =>
      rw [hl] at h
      cases h
    | ok st =>
      rw [hl] at h
      cases h
      obtain ⟨n, hn, _, _⟩ := msolveLoop_ok G NITERMAX NITERMIN equations ellipsis minlevel
        tolerance _ st hl
      have h1 := msolveSteps_count G equations ellipsis minlevel tolerance cnt hcnt n _ st hn
      have h2 := msolveSteps_i G equations ellipsis minlevel tolerance n _ st hn
      have h3 : cnt (msolveInit G equations ellipsis X env nrelax minlevel).env = cnt env + 1 :=
        hcnt env X
      have h4 : (msolveInit G equations ellipsis X env nrelax minlevel).s.i = 0 := rfl
      show (cnt st.env : Int) = cnt env + st.s.i + 1
      rw [h1, h3, h2, h4]
      push_cast
      ring

/-- C12, at a concrete input: `msolve` for `2 x0 - 4 = 0` on the one-cell grid with
the counting ellipsis block and `NITERMAX = NITERMIN = 1`; the counter, 0 on
entry, exceeds the number of iterations by one on return. -/
theorem ellipsis_invocations_witness :
    ∃ r, msolve unitGrid 1 1 [constScalar Unit 0] countedEq countingEllipsis 0 2 0 (1 / 1000)
        = .ok r ∧
      ((r.env : Nat) : Int) = ((0 : Nat) : Int) + r.stats.i + 1 := by
  obtain ⟨r, hr⟩ := msolve_countedEq_ok
  exact ⟨r, hr,
    (ellipsis_invocations unitGrid 1 1 [constScalar Unit 0] countedEq countingEllipsis 0 2 0
      (1 / 1000) (fun n => n) (fun _ _ => rfl)).2.2 r hr⟩

/-! ## The order of the updates within a relaxation sweep -/

theorem solveSweep_append {P : Type} [DecidableEq P] (func : (P → ℚ) → P → ℚ) (res : P → ℚ)
    (l1 l2 : List P) (a : Scalar P) :
    solveSweep func res (l1 ++ l2) a = solveSweep func res l2 (solveSweep func res l1 a) := by
  induction l1 generalizing a with
  | nil => rfl
  | cons p ps ih => exact ih _

theorem solveRelaxCell_frame {P : Type} [DecidableEq P] (func : (P → ℚ) → P → ℚ) (res : P → ℚ)
    (a : Scalar P) (p q : P) (h : q ≠ p) : (solveRelaxCell func res a p).val q = a.val q := by
  simp [solveRelaxCell, Scalar.set, Function.update, h]

theorem solveSweep_frame {P : Type} [DecidableEq P] (func : (P → ℚ) → P → ℚ) (res : P → ℚ)
    (cells : List P) (a : Scalar P) (q : P) (h : q ∉ cells) :
    (solveSweep func res cells a).val q = a.val q := by
  induction cells generalizing a with
  | nil => rfl
  | cons p ps ih =>
    rw [solveSweep, ih _ (fun e => h (List.mem_cons_of_mem p e)),
      solveRelaxCell_frame func res a p q (fun e => h (e ▸ List.mem_cons_self p ps))]

theorem writeCell_length {P : Type} [DecidableEq P] (X : List (Scalar P)) (p : P) (x : List ℚ) :
    (writeCell X p x).length = X.length := by
  induction X generalizing x with
  | nil => cases x <;> rfl
  | cons s X ih =>
    cases x with
    | nil => rfl
    | cons v x => simp [writeCell, ih]

theorem valAt_writeCell_ne {P : Type} [DecidableEq P] (X : List (Scalar P)) (p : P) (x : List ℚ)
    (k : Nat) (q : P) (h : q ≠ p) : valAt (writeCell X p x) k q = valAt X k q := by
  induction X generalizing x k with
  | nil => cases x <;> rfl
  | cons s X ih =>
    cases x with
    | nil => rfl
    | cons v x =>
      cases k with
      | zero => simp [writeCell, valAt_cons_zero, Scalar.set, Function.update, h]
      | succ k => simp [writeCell, valAt_cons_succ, ih]

/-- The body of the relaxation loop of `msolve` at the cell `p` keeps the number
of unknowns and their values in the other cells. -/
theorem relaxCell_frame {σ P : Type} [DecidableEq P] (equations : List (Eqn σ P)) (env : σ)
    (lrhs lres X Y : List (Scalar P)) (p : P)
    (h : relaxCell equations env lrhs lres X p = .ok Y) :
    Y.length = X.length ∧ ∀ k q, q ≠ p → valAt Y k q = valAt X k q := by
  unfold relaxCell at h
  simp only at h
  cases hc : cellSolve X.length (probeD equations env X p)
      (fun k => probeR equations env X p k + (valAt lres k p - valAt lrhs k p)) with
  | error e =>
    rw [hc] at h
    cases h
  | ok x =>
    rw [hc] at h
    cases h
    refine ⟨by rw [writeCell_length, setAll_length], ?_⟩
    intro k q hq
    rw [valAt_writeCell_ne _ _ _ _ _ hq, valAt_setAll, if_neg (fun e => hq e.2)]

theorem msolveSweep_append {σ P : Type} [DecidableEq P] (equations : List (Eqn σ P)) (env : σ)
    (lrhs lres : List (Scalar P)) (l1 l2 : List P) (X : List (Scalar P)) :
    msolveSweep equations env lrhs lres (l1 ++ l2) X
      = (match msolveSweep equations env lrhs lres l1 X with
         | .ok X1 => msolveSweep equations env lrhs lres l2 X1
         | .error e => .error e) := by
  induction l1 generalizing X with
  | nil => rfl
  | cons p ps ih =>
    simp only [List.cons_append, msolveSweep]
    cases relaxCell equations env lrhs lres X p with
    | error e => rfl
    | ok X1 => exact ih X1

/-- A relaxation sweep of `msolve` keeps the number of unknowns and their values
in the cells it does not visit. -/
theorem msolveSweep_frame {σ P : Type} [DecidableEq P] (equations : List (Eqn σ P)) (env : σ)
    (lrhs lres : List (Scalar P)) (cells : List P) (X Y : List (Scalar P))
    (h : msolveSweep equations env lrhs lres cells X = .ok Y) :
    Y.length = X.length ∧ ∀ k q, q ∉ cells → valAt Y k q = valAt X k q := by
  induction cells generalizing X with
  | nil =>
    rw [msolveSweep] at h
    cases h
    exact ⟨rfl, fun _ _ _ => rfl⟩
  | cons p ps ih =>
    rw [msolveSweep] at h
    cases hc : relaxCell equations env lrhs lres X p with
    | error e =>
      rw [hc] at h
      cases h
    | ok X1 =>
      rw [hc] at h
      obtain ⟨h1, h2⟩ := relaxCell_frame equations env lrhs lres X X1 p hc
      obtain ⟨h3, h4⟩ := ih X1 h
      refine ⟨h3.trans h1, ?_⟩
      intro k q hq
      rw [h4 k q (fun e => hq (List.mem_cons_of_mem p e)),
        h2 k q (fun e => hq (e ▸ List.mem_cons_self p ps))]

/-- A sweep of `msolve` on the two-cell grid that returns. -/
theorem msolveSweep_pair_ok :
    ∃ Y, msolveSweep (singleEquation pairDominant (fun _ => 0)) () [constScalar Bool 0]
      [constScalar Bool 3] [false, true] [constScalar Bool 0] = .ok Y := by
  simp [msolveSweep, relaxCell, cellSolve, probeD, probeR, evalEqs, singleEquation, pairDominant,
    setAll, setNth, writeCell, valAt, constScalar, Scalar.set]

/-- C14, on the periodic grid with two cells, for `func = a[1] - 3 a[]`, the
residual 3 and the field 0 before the sweep: the sweep of `solve` over the cells
`false`, `true` writes -4/3 in the cell `true`, computed from the -1 it has just
written in the cell `false`, where the sweep from a snapshot of the field writes
-1; visiting the cells in the other order, it writes -1 in the cell `true`. The
sweep of `msolve` for the same equation writes 4/3 in the cell `true`, where the
update computed from the field before the sweep gives 1. -/
theorem sweep_reads_values_of_same_sweep :
    (solveSweep pairDominant (fun _ => 3) [false, true] (constScalar Bool 0)).val true
      = -4 / 3 ∧
    (snapshotSweep pairDominant (fun _ => 3) (constScalar Bool 0) [false, true]
      (constScalar Bool 0)).val true = -1 ∧
    (solveSweep pairDominant (fun _ => 3) [true, false] (constScalar Bool 0)).val true = -1 ∧
    (msolveSweep (singleEquation pairDominant (fun _ => 0)) () [constScalar Bool 0]
        [constScalar Bool 3] [false, true] [constScalar Bool 0]).map
      (fun Y => Y.map (fun s => s.val true)) = .ok [4 / 3] ∧
    (relaxCell (singleEquation pairDominant (fun _ => 0)) () [constScalar Bool 0]
        [constScalar Bool 3] [constScalar Bool 0] true).map
      (fun Y => Y.map (fun s => s.val true)) = .ok [1] := by
  refine ⟨?_, ?_, ?_, ?_, ?_⟩
  · simp [solveSweep, solveRelaxCell, diagonalize, pairDominant, constScalar, Scalar.set]
    norm_num
  · simp [snapshotSweep, solveRelaxCell, diagonalize, pairDominant, constScalar, Scalar.set]
  · simp [solveSweep, solveRelaxCell, diagonalize, pairDominant, constScalar, Scalar.set]
  · simp [msolveSweep, relaxCell, cellSolve, probeD, probeR, evalEqs, singleEquation,
      pairDominant, setAll, setNth, writeCell, valAt, constScalar, Scalar.set, Except.map]
    norm_num
  · simp [relaxCell, cellSolve, probeD, probeR, evalEqs, singleEquation,
      pairDominant, setAll, setNth, writeCell, valAt, constScalar, Scalar.set, Except.map]

/-- C14, amended: the sweeps of `solve` and `msolve` are in place (Gauss-Seidel).
With the cells of the sweep listed as `pre`, then `p`, then `post`, and `p` not
visited again in `post`, the value the sweep leaves at `p` is the one the per-cell
update computes from the field as the cells of `pre` have left it: the cells
visited before `p` (and not again after it) already hold there the value they have
at the end of the sweep, and the cells not yet visited hold the value of before
the sweep. -/
theorem sweep_in_place {σ P : Type} [DecidableEq P] (func : (P → ℚ) → P → ℚ) (res : P → ℚ)
    (equations : List (Eqn σ P)) (env : σ) (lrhs lres : List (Scalar P))
    (pre post : List P) (p : P) (a : Scalar P) (X Y : List (Scalar P)) (hp : p ∉ post)
    (hY : msolveSweep equations env lrhs lres (pre ++ p :: post) X = .ok Y) :
    ((solveSweep func res (pre ++ p :: post) a).val p
        = (solveRelaxCell func res (solveSweep func res pre a) p).val p ∧
      (solveRelaxCell func res (solveSweep func res pre a) p).val p
        = (res p - func (Function.update (solveSweep func res pre a).val p 0) p)
          / diagonalize func (Function.update (solveSweep func res pre a).val p 0) p ∧
      (∀ q, q ∉ pre → (solveSweep func res pre a).val q = a.val q) ∧
      (∀ q, q ∈ pre → q ∉ p :: post →
        (solveSweep func res pre a).val q = (solveSweep func res (pre ++ p :: post) a).val q)) ∧
    (∃ X1 X2,
      msolveSweep equations env lrhs lres pre X = .ok X1 ∧
      relaxCell equations env lrhs lres X1 p = .ok X2 ∧
      (∀ k, valAt Y k p = valAt X2 k p) ∧
      (∀ k q, q ∉ pre → valAt X1 k q = valAt X k q) ∧
      (∀ k q, q ∈ pre → q ∉ p :: post → valAt X1 k q = valAt Y k q)) := by
  constructor
  · refine ⟨?_, ?_, ?_, ?_⟩
    · rw [solveSweep_append, solveSweep, solveSweep_frame func res post _ p hp]
    · simp [solveRelaxCell, Scalar.set]
    · intro q hq
      exact solveSweep_frame func res pre a q hq
    · intro q _ hq
      rw [solveSweep_append, solveSweep_frame func res (p :: post) _ q hq]
  · rw [msolveSweep_append] at hY
    cases h1 : msolveSweep equations env lrhs lres pre X with
    | error e =>
      rw [h1] at hY
      cases hY
    | ok X1 =>
      rw [h1] at hY
      simp only [msolveSweep] at hY
      cases h2 : relaxCell equations env lrhs lres X1 p with
      | error e =>
        rw [h2] at hY
        cases hY
      | ok X2 =>
        rw [h2] at hY
        simp only at hY
        refine ⟨X1, X2, rfl, h2, ?_, ?_, ?_⟩
        · intro k
          exact (msolveSweep_frame equations env lrhs lres post X2 Y hY).2 k p hp
        · intro k q hq
          exact (msolveSweep_frame equations env lrhs lres pre X X1 h1).2 k q hq
        · intro k q _ hq
          rw [(msolveSweep_frame equations env lrhs lres post X2 Y hY).2 k q
              (fun e => hq (List.mem_cons_of_mem p e)),
            (relaxCell_frame equations env lrhs lres X1 X2 p h2).2 k q
              (fun e => hq (e ▸ List.mem_cons_self p post))]

/-- C14, amended, at a concrete input: the sweep over the cells `false`, `true` of
the periodic grid with two cells, for `func = a[1] - 3 a[]`; the value left in the
cell `true` is computed from the field left by the update of the cell `false`. -/
theorem sweep_in_place_witness :
    (solveSweep pairDominant (fun _ => 3) ([false] ++ true :: []) (constScalar Bool 0)).val true
      = (solveRelaxCell pairDominant (fun _ => 3)
          (solveSweep pairDominant (fun _ => 3) [false] (constScalar Bool 0)) true).val true := by
  obtain ⟨Y, hY⟩ := msolveSweep_pair_ok
  exact (sweep_in_place pairDominant (fun _ => 3) (singleEquation pairDominant (fun _ => 0)) ()
    [constScalar Bool 0] [constScalar Bool 3] [false] [] true (constScalar Bool 0)
    [constScalar Bool 0] Y (List.not_mem_nil true) hY).1.1

/-! ## The lists of fields along the V-cycle and the update of the solution -/

theorem accumCell_spec {P : Type} [DecidableEq P] (X L : List (Scalar P)) (p : P) :
    (accumCell X L p).1.length = X.length ∧
    (accumCell X L p).2.length = L.length ∧
    (accumCell X L p).2.map Scalar.boundary = L.map Scalar.boundary ∧
    (∀ j q, valAt (accumCell X L p).1 j q
      = if q = p ∧ j < X.length ∧ j < L.length then valAt X j p + valAt L j p
        else valAt X j q) ∧
    (∀ j q, valAt (accumCell X L p).2 j q
      = if q = p ∧ j < X.length ∧ j < L.length then valAt X j p + valAt L j p
        else valAt L j q) := by
  induction X generalizing L with
  | nil =>
    cases L <;> simp [accumCell]
  | cons s X ih =>
    cases L with
    | nil => simp [accumCell]
    | cons d L =>
      obtain ⟨h1, h2, h3, h4, h5⟩ := ih L
      simp only [accumCell, List.length_cons, h1, h2, List.map_cons, h3, true_and]
      refine ⟨?_, ?_, ?_⟩
      · rfl
      · intro j q
        cases j with
        | zero =>
          by_cases h : q = p
          · subst h
            simp [valAt_cons_zero, Scalar.set, Function.update]
          · simp [valAt_cons_zero, Scalar.set, Function.update, h]
        | succ j => simp only [valAt_cons_succ, h4, Nat.succ_lt_succ_iff]
      · intro j q
        cases j with
        | zero =>
          by_cases h : q = p
          · subst h
            simp [valAt_cons_zero, Scalar.set, Function.update]
          · simp [valAt_cons_zero, Scalar.set, Function.update, h]
        | succ j => simp only [valAt_cons_succ, h5, Nat.succ_lt_succ_iff]

theorem restoreBoundary_spec {P : Type} (X L : List (Scalar P)) :
    (restoreBoundary X L).length = X.length ∧
    ∀ j q, valAt (restoreBoundary X L) j q = valAt X j q := by
  induction X generalizing L with
  | nil => cases L <;> exact ⟨rfl, fun _ _ => rfl⟩
  | cons s X ih =>
    cases L with
    | nil => exact ⟨rfl, fun _ _ => rfl⟩
    | cons d L =>
      obtain ⟨h1, h2⟩ := ih L
      refine ⟨by simp [restoreBoundary, h1], ?_⟩
      intro j q
      cases j with
      | zero => rfl
      | succ j => simp only [restoreBoundary, valAt_cons_succ, h2]

theorem mseedZero_length {P : Type} [DecidableEq P] (cells : List P) (X : List (Scalar P)) :
    (mseedZero cells X).length = X.length := by
  induction cells generalizing X with
  | nil => rfl
  | cons p ps ih => rw [mseedZero, ih, setAll_length]

theorem mseedBilinear_length {P : Type} [DecidableEq P] (G : Grid P) (cells : List P)
    (X : List (Scalar P)) : (mseedBilinear G cells X).length = X.length := by
  induction cells generalizing X with
  | nil => rfl
  | cons p ps ih => rw [mseedBilinear, ih, List.length_map]

theorem msolveRelax_length {σ P : Type} [DecidableEq P] (G : Grid P) (equations : List (Eqn σ P))
    (env : σ) (lrhs lres : List (Scalar P)) (l : Int) (n : Nat) (X Y : List (Scalar P))
    (h : msolveRelax G equations env lrhs lres l n X = .ok Y) : Y.length = X.length := by
  induction n generalizing X with
  | zero =>
    rw [msolveRelax] at h
    cases h
    rfl
  | succ n ih =>
    rw [msolveRelax] at h
    cases hs : msolveSweep equations env lrhs lres (G.levelOrLeaf l) X with
    | error e =>
      rw [hs] at h
      cases h
    | ok X1 =>
      rw [hs] at h
      rw [ih _ h, List.length_map,
        (msolveSweep_frame equations env lrhs lres (G.levelOrLeaf l) X X1 hs).1]

theorem msolveLevel_length {σ P : Type} [DecidableEq P] (G : Grid P) (equations : List (Eqn σ P))
    (env : σ) (lrhs lres : List (Scalar P)) (nrelax minl : Int) (X Y : List (Scalar P)) (l : Int)
    (h : msolveLevel G equations env lrhs lres nrelax minl X l = .ok Y) :
    Y.length = X.length := by
  unfold msolveLevel at h
  rw [msolveRelax_length G equations env lrhs lres l _ _ Y h, List.length_map]
  split_ifs
  · exact mseedZero_length _ X
  · exact mseedBilinear_length G _ X

theorem msolveLevels_length {σ P : Type} [DecidableEq P] (G : Grid P) (equations : List (Eqn σ P))
    (env : σ) (lrhs lres : List (Scalar P)) (nrelax minl : Int) (ls : List Int)
    (X Y : List (Scalar P))
    (h : msolveLevels G equations env lrhs lres nrelax minl ls X = .ok Y) :
    Y.length = X.length := by
  induction ls generalizing X with
  | nil =>
    rw [msolveLevels] at h
    cases h
    rfl
  | cons l ls ih =>
    rw [msolveLevels] at h
    cases hl : msolveLevel G equations env lrhs lres nrelax minl X l with
    | error e =>
      rw [hl] at h
      cases h
    | ok X1 =>
      rw [hl] at h
      rw [ih X1 h, msolveLevel_length G equations env lrhs lres nrelax minl X X1 l hl]

/-- The V-cycle and the update of the solution, in two steps. -/
theorem msolveCycle_eq {σ P : Type} [DecidableEq P] (G : Grid P) (equations : List (Eqn σ P))
    (minlevel : Int) (st : MsolveState σ P) :
    msolveCycle G equations minlevel st
      = (match msolveCorrection G equations minlevel st with
         | .ok X2 =>
           .ok (restoreBoundary (accumulate G.leaves (X2, st.lds)).1
                  (accumulate G.leaves (X2, st.lds)).2,
                (accumulate G.leaves (X2, st.lds)).2,
                st.lres.map (fun r => { r with val := G.restriction r.val }))
         | .error e => .error e) := by
  unfold msolveCycle msolveCorrection
  simp only

theorem msolveCorrection_length {σ P : Type} [DecidableEq P] (G : Grid P)
    (equations : List (Eqn σ P)) (minlevel : Int) (st : MsolveState σ P) (X2 : List (Scalar P))
    (h : msolveCorrection G equations minlevel st = .ok X2) : X2.length = st.X.length := by
  unfold msolveCorrection at h
  rw [msolveLevels_length G equations _ _ _ _ _ _ _ X2 h, List.length_map]

/-! ## The accumulation of the corrections in `msolve` -/

theorem listClone_spec {P : Type} (G : Grid P) (X : List (Scalar P)) :
    (listClone G X).length = X.length ∧
    (listClone G X).map Scalar.boundary = X.map Scalar.boundary := by
  induction X with
  | nil => exact ⟨rfl, rfl⟩
  | cons s X ih =>
    obtain ⟨h1, h2⟩ := ih
    simp only [listClone] at h1 h2
    simp [listClone, h1, h2]

theorem assignIdx_congr {P : Type} [DecidableEq P] (L : List (Scalar P)) (i : Nat) (p : P)
    (R R1 : Nat → ℚ) (h : ∀ k, k < L.length → R (i + k) = R1 (i + k)) :
    assignIdx L i p R = assignIdx L i p R1 := by
  induction L generalizing i with
  | nil => rfl
  | cons s L ih =>
    have h0 := h 0 (by simp)
    rw [Nat.add_zero] at h0
    have h1 : ∀ k, k < L.length → R (i + 1 + k) = R1 (i + 1 + k) := by
      intro k hk
      have := h (k + 1) (by simpa using hk)
      rw [show i + (k + 1) = i + 1 + k by omega] at this
      exact this
    simp only [assignIdx, h0, ih (i + 1) h1]

theorem maxIdx_congr {P : Type} (L : List (Scalar P)) (i : Nat) (R R1 : Nat → ℚ) (m : ℚ)
    (h : ∀ k, k < L.length → R (i + k) = R1 (i + k)) : maxIdx L i R m = maxIdx L i R1 m := by
  induction L generalizing i m with
  | nil => rfl
  | cons s L ih =>
    have h0 := h 0 (by simp)
    rw [Nat.add_zero] at h0
    have h1 : ∀ k, k < L.length → R (i + 1 + k) = R1 (i + 1 + k) := by
      intro k hk
      have := h (k + 1) (by simpa using hk)
      rw [show i + (k + 1) = i + 1 + k by omega] at this
      exact this
    simp only [maxIdx, h0, ih (i + 1) _ h1]

section Leading

variable {σ P : Type} [DecidableEq P] (G : Grid P) (E1 E2 : List (Eqn σ P))

theorem msolveResidual_congr (env : σ) (X : List (Scalar P)) (cells : List P)
    (L : List (Scalar P)) (m : ℚ)
    (h : ∀ p j, j < L.length → evalEqs E1 env X p j = evalEqs E2 env X p j) :
    msolveResidual E1 env X cells (L, m) = msolveResidual E2 env X cells (L, m) := by
  induction cells generalizing L m with
  | nil => rfl
  | cons p ps ih =>
    have hp : ∀ k, k < L.length → evalEqs E1 env X p (0 + k) = evalEqs E2 env X p (0 + k) := by
      intro k hk
      rw [Nat.zero_add]
      exact h p k hk
    simp only [msolveResidual]
    rw [assignIdx_congr L 0 p _ _ hp, maxIdx_congr L 0 _ _ m hp]
    exact ih _ _ (fun q j hj => h q j (by rwa [assignIdx_length] at hj))

theorem msolveResidual0_congr (env : σ) (X : List (Scalar P)) (cells : List P)
    (L : List (Scalar P)) (m : ℚ) (D : List (Scalar P))
    (h : ∀ p j, j < L.length → evalEqs E1 env X p j = evalEqs E2 env X p j) :
    msolveResidual0 E1 env X cells (L, m, D) = msolveResidual0 E2 env X cells (L, m, D) := by
  induction cells generalizing L m D with
  | nil => rfl
  | cons p ps ih =>
    have hp : ∀ k, k < L.length → evalEqs E1 env X p (0 + k) = evalEqs E2 env X p (0 + k) := by
      intro k hk
      rw [Nat.zero_add]
      exact h p k hk
    simp only [msolveResidual0]
    rw [assignIdx_congr L 0 p _ _ hp, maxIdx_congr L 0 _ _ m hp]
    exact ih _ _ _ (fun q j hj => h q j (by rwa [assignIdx_length] at hj))

theorem rhsLevel_length (env : σ) (X : List (Scalar P)) (cells : List P) (L : List (Scalar P)) :
    (rhsLevel E1 env X cells L).length = L.length := by
  induction cells generalizing L with
  | nil => rfl
  | cons p ps ih => rw [rhsLevel, ih, assignIdx_length]

theorem rhsLevel_congr (env : σ) (X : List (Scalar P)) (cells : List P) (L : List (Scalar P))
    (h : ∀ p j, j < L.length → evalEqs E1 env X p j = evalEqs E2 env X p j) :
    rhsLevel E1 env X cells L = rhsLevel E2 env X cells L := by
  induction cells generalizing L with
  | nil => rfl
  | cons p ps ih =>
    have hp : ∀ k, k < L.length → evalEqs E1 env X p (0 + k) = evalEqs E2 env X p (0 + k) := by
      intro k hk
      rw [Nat.zero_add]
      exact h p k hk
    simp only [rhsLevel]
    rw [assignIdx_congr L 0 p _ _ hp]
    exact ih _ (fun q j hj => h q j (by rwa [assignIdx_length] at hj))

theorem rhsLevels_congr (env : σ) (X : List (Scalar P)) (ls : List Int) (L : List (Scalar P))
    (h : ∀ p j, j < L.length → evalEqs E1 env X p j = evalEqs E2 env X p j) :
    rhsLevels G E1 env X ls L = rhsLevels G E2 env X ls L := by
  induction ls generalizing L with
  | nil => rfl
  | cons l ls ih =>
    simp only [rhsLevels]
    rw [rhsLevel_congr E1 E2 env X (G.level l) L h]
    exact ih _ (fun q j hj => h q j (by rwa [rhsLevel_length] at hj))

theorem relaxCell_congr (env : σ) (lrhs lres X : List (Scalar P)) (p : P)
    (h : ∀ Y q j, j < X.length → evalEqs E1 env Y q j = evalEqs E2 env Y q j) :
    relaxCell E1 env lrhs lres X p = relaxCell E2 env lrhs lres X p := by
  unfold relaxCell
  simp only
  rw [cellSolve_congr X.length (probeD E1 env X p) (probeD E2 env X p)
    (fun k => probeR E1 env X p k + (valAt lres k p - valAt lrhs k p))
    (fun k => probeR E2 env X p k + (valAt lres k p - valAt lrhs k p))
    (fun k j _ hj => by simp only [probeD, probeR]; rw [h _ _ _ hj, h _ _ _ hj])
    (fun j hj => by simp only [probeR]; rw [h _ _ _ hj])]

theorem msolveSweep_congr (env : σ) (lrhs lres : List (Scalar P)) (cells : List P)
    (X : List (Scalar P))
    (h : ∀ Y q j, j < X.length → evalEqs E1 env Y q j = evalEqs E2 env Y q j) :
    msolveSweep E1 env lrhs lres cells X = msolveSweep E2 env lrhs lres cells X := by
  induction cells generalizing X with
  | nil => rfl
  | cons p ps ih =>
    rw [msolveSweep, msolveSweep, relaxCell_congr E1 E2 env lrhs lres X p h]
    cases hr : relaxCell E2 env lrhs lres X p with
    | error e => rfl
    | ok X1 =>
      exact ih X1 (fun Y q j hj => h Y q j
        (by rwa [(relaxCell_frame E2 env lrhs lres X X1 p hr).1] at hj))

theorem msolveRelax_congr (env : σ) (lrhs lres : List (Scalar P)) (l : Int) (n : Nat)
    (X : List (Scalar P))
    (h : ∀ Y q j, j < X.length → evalEqs E1 env Y q j = evalEqs E2 env Y q j) :
    msolveRelax G E1 env lrhs lres l n X = msolveRelax G E2 env lrhs lres l n X := by
  induction n generalizing X with
  | zero => rfl
  | succ n ih =>
    rw [msolveRelax, msolveRelax, msolveSweep_congr E1 E2 env lrhs lres _ X h]
    cases hs : msolveSweep E2 env lrhs lres (G.levelOrLeaf l) X with
    | error e => rfl
    | ok X1 =>
      exact ih _ (fun Y q j hj => h Y q j
        (by rwa [List.length_map, (msolveSweep_frame E2 env lrhs lres _ X X1 hs).1] at hj))

theorem msolveLevel_congr (env : σ) (lrhs lres : List (Scalar P)) (nrelax minl : Int)
    (X : List (Scalar P)) (l : Int)
    (h : ∀ Y q j, j < X.length → evalEqs E1 env Y q j = evalEqs E2 env Y q j) :
    msolveLevel G E1 env lrhs lres nrelax minl X l
      = msolveLevel G E2 env lrhs lres nrelax minl X l := by
  unfold msolveLevel
  apply msolveRelax_congr
  intro Y q j hj
  apply h Y q j
  rw [List.length_map] at hj
  split_ifs at hj
  · rwa [mseedZero_length] at hj
  · rwa [mseedBilinear_length] at hj

theorem msolveLevels_congr (env : σ) (lrhs lres : List (Scalar P)) (nrelax minl : Int)
    (ls : List Int) (X : List (Scalar P))
    (h : ∀ Y q j, j < X.length → evalEqs E1 env Y q j = evalEqs E2 env Y q j) :
    msolveLevels G E1 env lrhs lres nrelax minl ls X
      = msolveLevels G E2 env lrhs lres nrelax minl ls X := by
  induction ls generalizing X with
  | nil => rfl
  | cons l ls ih =>
    rw [msolveLevels, msolveLevels, msolveLevel_congr G E1 E2 env lrhs lres nrelax minl X l h]
    cases hl : msolveLevel G E2 env lrhs lres nrelax minl X l with
    | error e => rfl
    | ok X1 =>
      exact ih X1 (fun Y q j hj => h Y q j
        (by rwa [msolveLevel_length G E2 env lrhs lres nrelax minl X X1 l hl] at hj))

theorem msolveCycle_congr (minlevel : Int) (st : MsolveState σ P)
    (h : ∀ e Y q j, j < st.X.length → evalEqs E1 e Y q j = evalEqs E2 e Y q j) :
    msolveCycle G E1 minlevel st = msolveCycle G E2 minlevel st := by
  unfold msolveCycle
  simp only
  rw [msolveLevels_congr G E1 E2 st.env st.lrhs _ st.s.nrelax _ _ _
    (fun Y q j hj => h st.env Y q j (by rwa [List.length_map] at hj))]

theorem msolveFinish_congr (ellipsis : σ → List (Scalar P) → σ × List (Scalar P))
    (tolerance : ℚ) (st : MsolveState σ P)
    (c : List (Scalar P) × List (Scalar P) × List (Scalar P))
    (h : ∀ e Y q j, j < c.2.2.length → evalEqs E1 e Y q j = evalEqs E2 e Y q j) :
    msolveFinish G E1 ellipsis tolerance st c = msolveFinish G E2 ellipsis tolerance st c := by
  unfold msolveFinish
  simp only
  rw [msolveResidual_congr E1 E2 (ellipsis st.env c.1).1 _ G.leaves c.2.2 0
    (fun p j hj => h _ _ p j hj)]

theorem msolveInit_congr (ellipsis : σ → List (Scalar P) → σ × List (Scalar P))
    (X : List (Scalar P)) (env : σ) (nrelax minlevel : Int)
    (h : ∀ e Y q j, j < X.length → evalEqs E1 e Y q j = evalEqs E2 e Y q j) :
    msolveInit G E1 ellipsis X env nrelax minlevel
      = msolveInit G E2 ellipsis X env nrelax minlevel := by
  have hc : (listClone G X).length = X.length := (listClone_spec G X).1
  unfold msolveInit
  simp only
  rw [msolveResidual0_congr E1 E2 (ellipsis env X).1 _ G.leaves (listClone G X) 0 (listClone G X)
      (fun p j hj => h _ _ p j (by rwa [hc] at hj)),
    rhsLevels_congr G E1 E2 (ellipsis env X).1 _ _ (listClone G X)
      (fun p j hj => h _ _ p j (by rwa [hc] at hj))]

theorem accumulate_length (cells : List P) (X L : List (Scalar P)) :
    (accumulate cells (X, L)).1.length = X.length ∧
    (accumulate cells (X, L)).2.length = L.length := by
  induction cells generalizing X L with
  | nil => exact ⟨rfl, rfl⟩
  | cons p ps ih =>
    obtain ⟨a1, a2, _⟩ := accumCell_spec X L p
    obtain ⟨h1, h2⟩ := ih (accumCell X L p).1 (accumCell X L p).2
    exact ⟨h1.trans a1, h2.trans a2⟩

/-- The lists a V-cycle of `msolve` returns have the lengths of the lists it
received. -/
theorem msolveCycle_lengths (minlevel : Int) (st : MsolveState σ P)
    (c : List (Scalar P) × List (Scalar P) × List (Scalar P))
    (h : msolveCycle G E1 minlevel st = .ok c) :
    c.1.length = st.X.length ∧ c.2.2.length = st.lres.length := by
  rw [msolveCycle_eq] at h
  cases hX2 : msolveCorrection G E1 minlevel st with
  | error e =>
    rw [hX2] at h
    cases h
  | ok X2 =>
    rw [hX2] at h
    cases h
    refine ⟨?_, by simp⟩
    show (restoreBoundary _ _).length = _
    rw [(restoreBoundary_spec _ _).1, (accumulate_length G.leaves X2 st.lds).1,
      msolveCorrection_length G E1 minlevel st X2 hX2]

/-- The main loop of `msolve` reads the equations of index below the number of
unknowns only. -/
theorem msolveLoop_congr (NITERMAX NITERMIN : Int)
    (ellipsis : σ → List (Scalar P) → σ × List (Scalar P)) (minlevel : Int) (tolerance : ℚ)
    (hlen : ∀ e Y, (ellipsis e Y).2.length = Y.length) (n : Nat)
    (h : ∀ e Y q j, j < n → evalEqs E1 e Y q j = evalEqs E2 e Y q j)
    (st : MsolveState σ P) (hX : st.X.length = n) (hres : st.lres.length = n) :
    msolveLoop G NITERMAX NITERMIN E1 ellipsis minlevel tolerance st
      = msolveLoop G NITERMAX NITERMIN E2 ellipsis minlevel tolerance st := by
  generalize hm : (NITERMAX - st.s.i).toNat = m
  induction m using Nat.strong_induction_on generalizing st with
  | _ m ih =>
    have hcy : msolveCycle G E1 minlevel st = msolveCycle G E2 minlevel st :=
      msolveCycle_congr G E1 E2 minlevel st (fun e Y q j hj => h e Y q j (by rwa [hX] at hj))
    by_cases hc : continues NITERMAX NITERMIN tolerance st.s
    · cases hc2 : msolveCycle G E2 minlevel st with
      | error e =>
        rw [msolveLoop, msolveLoop, if_pos hc, if_pos hc, hcy, hc2]
      | ok c =>
        obtain ⟨l1, l2⟩ := msolveCycle_lengths G E2 minlevel st c hc2
        rw [msolveLoop_step G NITERMAX NITERMIN E1 ellipsis minlevel tolerance st c hc
            (hcy.trans hc2),
          msolveLoop_step G NITERMAX NITERMIN E2 ellipsis minlevel tolerance st c hc hc2,
          msolveFinish_congr G E1 E2 ellipsis tolerance st c
            (fun e Y q j hj => h e Y q j (by rwa [l2, hres] at hj))]
        have hlt : (NITERMAX - (msolveFinish G E2 ellipsis tolerance st c).s.i).toNat < m := by
          rw [msolveFinish_i]
          have := hc.1
          omega
        refine ih _ hlt (msolveFinish G E2 ellipsis tolerance st c) ?_ ?_ rfl
        · show ((ellipsis st.env c.1).2.map boundaryLeaves).length = n
          rw [List.length_map, hlen, l1, hX]
        · show (msolveResidual E2 _ _ G.leaves (c.2.2, 0)).1.length = n
          rw [(msolveResidual_spec E2 _ _ G.leaves c.2.2 0).1, l2, hres]
    · rw [msolveLoop_stop G NITERMAX NITERMIN E1 ellipsis minlevel tolerance st hc,
        msolveLoop_stop G NITERMAX NITERMIN E2 ellipsis minlevel tolerance st hc]

end Leading

theorem evalEqs_append {σ P : Type} (equations extra : List (Eqn σ P)) (env : σ)
    (X : List (Scalar P)) (p : P) (j : Nat) (h : j < equations.length) :
    evalEqs (equations ++ extra) env X p j = evalEqs equations env X p j := by
  simp only [evalEqs, List.get?_eq_getElem?, List.getElem?_append_left h]

/-- The first V-cycle of `msolve` called with the unknown `x0` and the two
equations `2 x0 - 4 = 0` and `0 - 1 = 0`, on the one-cell grid: it returns, and
leaves 2 in the unknown. -/
theorem msolveCycle_surplus :
    ∃ c, msolveCycle unitGrid (singleEq ++ degenerateEq) 0
        (msolveInit unitGrid (singleEq ++ degenerateEq) noEllipsis [constScalar Unit 0] () 2 0)
        = .ok c ∧
      ((noEllipsis () c.1).2.map boundaryLeaves).map (fun s => s.val ()) = [2] := by
  simp [msolveInit, msolveCycle, msolveLevels, msolveLevel, msolveRelax, msolveSweep, relaxCell,
    cellSolve, probeD, probeR, evalEqs, singleEq, degenerateEq, setAll, setNth, unknown,
    writeCell, valAt,
    mseedZero, levelsFrom, unitGrid, noEllipsis, boundaryLeaves, boundaryLevel, constScalar,
    idBoundary, resetZero, rhsLevels, rhsLevel, assignIdx, maxIdx, maxAbs, msolveResidual0,
    copyCell, listClone, accumulate, accumCell, restoreBoundary, Scalar.set]
  norm_num

/-- C11, with one unknown and two equations: `msolve` called on the one-cell grid
with the unknown `x0` (at 0 on entry) and the equations `2 x0 - 4 = 0` and
`0 - 1 = 0`, with `NITERMAX = NITERMIN = 1`, returns its statistics after one
iteration, and the unknown holds 2: the correction has been computed and
applied. -/
theorem msolve_accepts_surplus_equation :
    [constScalar Unit 0].length = 1 ∧ (singleEq ++ degenerateEq).length = 2 ∧
    ∃ r, msolve unitGrid 1 1 [constScalar Unit 0] (singleEq ++ degenerateEq) noEllipsis () 2 0
        (1 / 1000) = .ok r ∧
      r.stats.i = 1 ∧ r.X.map (fun s => s.val ()) = [2] := by
  obtain ⟨c, hc, h1⟩ := msolveCycle_surplus
  have hm : msolve unitGrid 1 1 [constScalar Unit 0] (singleEq ++ degenerateEq) noEllipsis () 2 0
      (1 / 1000)
      = .ok { stats := { (msolveFinish unitGrid (singleEq ++ degenerateEq) noEllipsis (1 / 1000)
                  (msolveInit unitGrid (singleEq ++ degenerateEq) noEllipsis
                    [constScalar Unit 0] () 2 0) c).s with minlevel := 0 }
              X := (noEllipsis () c.1).2.map boundaryLeaves
              env := ()
              warning := decide ((msolveFinish unitGrid (singleEq ++ degenerateEq) noEllipsis
                  (1 / 1000) (msolveInit unitGrid (singleEq ++ degenerateEq) noEllipsis
                    [constScalar Unit 0] () 2 0) c).s.resa > 1 / 1000) } := by
    unfold msolve
    rw [msolveLoop_once unitGrid 1 (singleEq ++ degenerateEq) noEllipsis 0 (1 / 1000) _ c rfl
      (by decide) hc]
    rfl
  exact ⟨rfl, rfl, _, hm, rfl, h1⟩

/-- C11, amended: `msolve` makes no test on the lengths of its lists and has no
failure for lists of different lengths. It reads the equations of index below the
number of unknowns only: called with at least as many equations as unknowns (and
an ellipsis block that keeps the number of unknowns), it does what it does when
called with the same unknowns and without the equations in surplus, and two lists
of equations with the same values at the indices below the number of unknowns
give the same result. -/
theorem surplus_equations_ignored {σ P : Type} [DecidableEq P] (G : Grid P)
    (NITERMAX NITERMIN : Int) (X : List (Scalar P)) (equations extra : List (Eqn σ P))
    (ellipsis : σ → List (Scalar P) → σ × List (Scalar P)) (env : σ)
    (nrelax minlevel : Int) (tolerance : ℚ)
    (hlen : ∀ e Y, (ellipsis e Y).2.length = Y.length)
    (hle : X.length ≤ equations.length) :
    msolve G NITERMAX NITERMIN X (equations ++ extra) ellipsis env nrelax minlevel tolerance
      = msolve G NITERMAX NITERMIN X equations ellipsis env nrelax minlevel tolerance ∧
    ∀ E2 : List (Eqn σ P),
      (∀ e Y q j, j < X.length → evalEqs equations e Y q j = evalEqs E2 e Y q j) →
      msolve G NITERMAX NITERMIN X equations ellipsis env nrelax minlevel tolerance
        = msolve G NITERMAX NITERMIN X E2 ellipsis env nrelax minlevel tolerance := by
  have key : ∀ E1 E2 : List (Eqn σ P),
      (∀ e Y q j, j < X.length → evalEqs E1 e Y q j = evalEqs E2 e Y q j) →
      msolve G NITERMAX NITERMIN X E1 ellipsis env nrelax minlevel tolerance
        = msolve G NITERMAX NITERMIN X E2 ellipsis env nrelax minlevel tolerance := by
    intro E1 E2 h
    have hi := msolveInit_congr G E1 E2 ellipsis X env nrelax minlevel h
    have hX : (msolveInit G E2 ellipsis X env nrelax minlevel).X.length = X.length := by
      show (resetZero ((ellipsis env X).2.map boundaryLeaves)).length = X.length
      simp [resetZero, hlen]
    have hres : (msolveInit G E2 ellipsis X env nrelax minlevel).lres.length = X.length := by
      show (msolveResidual0 E2 _ _ G.leaves (listClone G X, 0, listClone G X)).1.length = _
      rw [(msolveResidual0_fst E2 _ _ G.leaves (listClone G X) 0 (listClone G X)).1,
        (msolveResidual_spec E2 _ _ G.leaves (listClone G X) 0).1, (listClone_spec G X).1]
    unfold msolve
    rw [hi, msolveLoop_congr G E1 E2 NITERMAX NITERMIN ellipsis minlevel tolerance hlen X.length h
      _ hX hres]
  refine ⟨key _ _ ?_, fun E2 h => key _ _ h⟩
  intro e Y q j hj
  exact evalEqs_append equations extra e Y q j (lt_of_lt_of_le hj hle)

/-- C11, amended, at a concrete input: the call with the unknown `x0` and the
equations `2 x0 - 4 = 0` and `0 - 1 = 0` on the one-cell grid is the call with the
equation `2 x0 - 4 = 0` alone. -/
theorem surplus_equations_ignored_witness :
    msolve unitGrid 1 1 [constScalar Unit 0] (singleEq ++ degenerateEq) noEllipsis () 2 0
        (1 / 1000)
      = msolve unitGrid 1 1 [constScalar Unit 0] singleEq noEllipsis () 2 0 (1 / 1000) :=
  (surplus_equations_ignored unitGrid 1 1 [constScalar Unit 0] singleEq degenerateEq noEllipsis
    () 2 0 (1 / 1000) (fun _ _ => rfl) (by decide)).1

/-! ## Rounding to binary64 -/

theorem roundHalfEven_of_lt (x : ℚ) (m : Int) (h1 : (m : ℚ) - 1 / 2 < x)
    (h2 : x < m + 1 / 2) : roundHalfEven x = m := by
  unfold roundHalfEven
  by_cases hx : (m : ℚ) ≤ x
  · have hf : ⌊x⌋ = m := Int.floor_eq_iff.mpr ⟨hx, by linarith⟩
    rw [hf, if_pos (by linarith)]
  · have hf : ⌊x⌋ = m - 1 := Int.floor_eq_iff.mpr ⟨by push_cast; linarith, by push_cast; linarith⟩
    rw [hf, if_neg (by push_cast; linarith), if_pos (by push_cast; linarith)]
    ring

theorem roundHalfEven_tie_even (x : ℚ) (m : Int) (h : x = m + 1 / 2) (hm : m % 2 = 0) :
    roundHalfEven x = m := by
  unfold roundHalfEven
  have hf : ⌊x⌋ = m := Int.floor_eq_iff.mpr ⟨by linarith, by linarith⟩
  rw [hf, if_neg (by linarith), if_neg (by linarith), if_pos hm]

theorem roundHalfEven_intCast (m : Int) : roundHalfEven (m : ℚ) = m :=
  roundHalfEven_of_lt _ m (by linarith) (by linarith)

theorem roundHalfEven_error (x : ℚ) : |(roundHalfEven x : ℚ) - x| ≤ 1 / 2 := by
  unfold roundHalfEven
  have h1 := Int.floor_le x
  have h2 := Int.lt_floor_add_one x
  split_ifs with a b c
  · rw [abs_le]
    constructor <;> linarith
  · rw [abs_le]
    push_cast
    constructor <;> linarith
  · rw [abs_le]
    constructor <;> linarith
  · rw [abs_le]
    push_cast
    constructor <;> linarith

theorem roundHalfEven_nonneg (x : ℚ) (h : 0 ≤ x) : 0 ≤ roundHalfEven x := by
  unfold roundHalfEven
  have h1 : 0 ≤ ⌊x⌋ := Int.floor_nonneg.mpr h
  split_ifs <;> omega

theorem log2_eq (q : ℚ) (e : Int) (hlo : (2 : ℚ) ^ e ≤ q) (hhi : q < 2 ^ (e + 1)) :
    Int.log 2 q = e := by
  have hq : 0 < q := lt_of_lt_of_le (by positivity) hlo
  have h1 : e ≤ Int.log 2 q := (Int.zpow_le_iff_le_log (by norm_num) hq).mp (by exact_mod_cast hlo)
  have h2 : Int.log 2 q < e + 1 :=
    (Int.lt_zpow_iff_log_lt (by norm_num) hq).mp (by exact_mod_cast hhi)
  omega

theorem expo64_normal (q : ℚ) (e : Int) (he : -1022 ≤ e) (hlo : (2 : ℚ) ^ e ≤ |q|)
    (hhi : |q| < 2 ^ (e + 1)) : expo64 q = e := by
  unfold expo64
  rw [log2_eq |q| e hlo hhi]
  exact max_eq_left he

theorem expo64_subnormal (q : ℚ) (hq : q ≠ 0) (hhi : |q| < 2 ^ (-1022 : Int)) :
    expo64 q = -1022 := by
  unfold expo64
  have h0 : 0 < |q| := abs_pos.mpr hq
  have h2 : Int.log 2 |q| < -1022 :=
    (Int.lt_zpow_iff_log_lt (by norm_num) h0).mp (by exact_mod_cast hhi)
  exact max_eq_right (le_of_lt h2)

theorem expo64_neg (q : ℚ) : expo64 (-q) = expo64 q := by
  unfold expo64
  rw [abs_neg]

theorem ulp64_neg (q : ℚ) : ulp64 (-q) = ulp64 q := by
  unfold ulp64
  rw [expo64_neg]

theorem ulp64_pos (q : ℚ) : 0 < ulp64 q := by
  unfold ulp64
  positivity

/-- The rounding is odd: the opposite of a number rounds to the opposite. -/
theorem round64_neg (q : ℚ) : round64 (-q) = (round64 q).neg := by
  unfold round64
  by_cases h0 : q = 0
  · subst h0
    simp [Dbl.neg]
  · have h1 : -q ≠ 0 := neg_ne_zero.mpr h0
    rw [if_neg h1, if_neg h0, abs_neg, ulp64_neg]
    by_cases hb : (2 : ℚ) ^ (1024 : Int) ≤ roundHalfEven (|q| / ulp64 q) * ulp64 q
    · rw [if_pos hb, if_pos hb]
      rcases lt_or_gt_of_ne h0 with h | h
      · have h2 : ¬ -q < 0 := by linarith
        simp [Dbl.neg, h, h2]
      · have h2 : -q < 0 := by linarith
        have h3 : ¬ q < 0 := by linarith
        simp [Dbl.neg, h2, h3]
    · rw [if_neg hb, if_neg hb]
      rcases lt_or_gt_of_ne h0 with h | h
      · have h2 : ¬ -q < 0 := by linarith
        simp [Dbl.neg, h, h2]
      · have h2 : -q < 0 := by linarith
        have h3 : ¬ q < 0 := by linarith
        simp [Dbl.neg, h2, h3]

/-- The rounding of a positive number whose exponent is `e` and whose quotient
by the spacing is nearer to the integer `m` than to any other. -/
theorem round64_pos (q : ℚ) (e m : Int) (hq : 0 < q) (he : expo64 q = e)
    (h1 : (m : ℚ) - 1 / 2 < q / 2 ^ (e - 52)) (h2 : q / 2 ^ (e - 52) < m + 1 / 2)
    (hfin : (m : ℚ) * 2 ^ (e - 52) < 2 ^ (1024 : Int)) :
    round64 q = .fin (m * 2 ^ (e - 52)) := by
  unfold round64
  have hu : ulp64 q = 2 ^ (e - 52) := by
    unfold ulp64
    rw [he]
  rw [if_neg (ne_of_gt hq), abs_of_pos hq, hu, roundHalfEven_of_lt _ m h1 h2,
    if_neg (not_le.mpr hfin), if_neg (not_lt.mpr (le_of_lt hq))]

/-- The rounding of a positive number that lies halfway between two binary64
numbers. -/
theorem round64_tie (q : ℚ) (e m : Int) (hq : 0 < q) (he : expo64 q = e)
    (h : q / 2 ^ (e - 52) = m + 1 / 2) (hm : m % 2 = 0)
    (hfin : (m : ℚ) * 2 ^ (e - 52) < 2 ^ (1024 : Int)) :
    round64 q = .fin (m * 2 ^ (e - 52)) := by
  unfold round64
  have hu : ulp64 q = 2 ^ (e - 52) := by
    unfold ulp64
    rw [he]
  rw [if_neg (ne_of_gt hq), abs_of_pos hq, hu, roundHalfEven_tie_even _ m h hm,
    if_neg (not_le.mpr hfin), if_neg (not_lt.mpr (le_of_lt hq))]

/-- In the range of the normal numbers, the rounding changes a positive number by
at most the fraction `2^-53` of it. -/
theorem round64_error_pos (q : ℚ) (hlo : (2 : ℚ) ^ (-1022 : Int) ≤ q)
    (hhi : q < 2 ^ (1023 : Int)) :
    ∃ v, round64 q = .fin v ∧ |v - q| ≤ 2 ^ (-53 : Int) * q := by
  have hq : 0 < q := lt_of_lt_of_le (by positivity) hlo
  have hlo1 : (2 : ℚ) ^ Int.log 2 q ≤ q := by
    exact_mod_cast Int.zpow_log_le_self (by norm_num) hq
  have hhi1 : q < (2 : ℚ) ^ (Int.log 2 q + 1) := by
    exact_mod_cast Int.lt_zpow_succ_log_self (by norm_num) q
  have he1 : -1022 ≤ Int.log 2 q :=
    (Int.zpow_le_iff_le_log (by norm_num) hq).mp (by exact_mod_cast hlo)
  have he2 : Int.log 2 q < 1023 :=
    (Int.lt_zpow_iff_log_lt (by norm_num) hq).mp (by exact_mod_cast hhi)
  generalize Int.log 2 q = e at hlo1 hhi1 he1 he2
  have hexp : expo64 q = e :=
    expo64_normal q e he1 (by rwa [abs_of_pos hq]) (by rwa [abs_of_pos hq])
  have hu : ulp64 q = 2 ^ (e - 52) := by
    unfold ulp64
    rw [hexp]
  have hupos : (0 : ℚ) < 2 ^ (e - 52) := by positivity
  have hue : (2 : ℚ) ^ (e - 52) = 2 ^ e * 2 ^ (-52 : Int) := by
    rw [← zpow_add₀ (by norm_num : (2 : ℚ) ≠ 0)]
    congr 1
  have hm := roundHalfEven_error (q / 2 ^ (e - 52))
  have hv : |(roundHalfEven (q / 2 ^ (e - 52)) : ℚ) * 2 ^ (e - 52) - q|
      ≤ 2 ^ (e - 52) / 2 := by
    have e1 : (roundHalfEven (q / 2 ^ (e - 52)) : ℚ) * 2 ^ (e - 52) - q
        = ((roundHalfEven (q / 2 ^ (e - 52)) : ℚ) - q / 2 ^ (e - 52)) * 2 ^ (e - 52) := by
      field_simp
    rw [e1, abs_mul, abs_of_pos hupos]
    calc |(roundHalfEven (q / 2 ^ (e - 52)) : ℚ) - q / 2 ^ (e - 52)| * 2 ^ (e - 52)
        ≤ 1 / 2 * 2 ^ (e - 52) := mul_le_mul_of_nonneg_right hm (le_of_lt hupos)
      _ = 2 ^ (e - 52) / 2 := by ring
  have h53 : (2 : ℚ) ^ (e - 52) / 2 = 2 ^ (-53 : Int) * 2 ^ e := by
    rw [hue]
    norm_num
    ring
  have hpe : (2 : ℚ) ^ (e + 1) ≤ 2 ^ (1023 : Int) :=
    zpow_le_zpow_right₀ (by norm_num) (by omega)
  have hpe2 : (2 : ℚ) ^ (e + 1) = 2 * 2 ^ e := by
    rw [zpow_add₀ (by norm_num : (2 : ℚ) ≠ 0), zpow_one]
    ring
  have hepos : (0 : ℚ) < 2 ^ e := by positivity
  have hfin : (roundHalfEven (q / 2 ^ (e - 52)) : ℚ) * 2 ^ (e - 52) < 2 ^ (1024 : Int) := by
    have := (abs_le.mp hv).2
    have h1024 : (2 : ℚ) ^ (1024 : Int) = 2 * 2 ^ (1023 : Int) := by norm_num
    have hsmall : (2 : ℚ) ^ (-53 : Int) * 2 ^ e ≤ 2 ^ e := by
      have : (2 : ℚ) ^ (-53 : Int) ≤ 1 := by norm_num
      nlinarith
    rw [h53] at this
    nlinarith
  refine ⟨roundHalfEven (q / 2 ^ (e - 52)) * 2 ^ (e - 52), ?_, ?_⟩
  · unfold round64
    rw [if_neg (ne_of_gt hq), abs_of_pos hq, hu, if_neg (not_le.mpr hfin),
      if_neg (not_lt.mpr (le_of_lt hq))]
  · rw [h53] at hv
    have : (2 : ℚ) ^ (-53 : Int) * 2 ^ e ≤ 2 ^ (-53 : Int) * q :=
      mul_le_mul_of_nonneg_left hlo1 (by positivity)
    linarith

/-- In the range of the normal numbers, the rounding changes a number by at most
the fraction `2^-53` of its absolute value. -/
theorem round64_error (q : ℚ) (hlo : (2 : ℚ) ^ (-1022 : Int) ≤ |q|)
    (hhi : |q| < 2 ^ (1023 : Int)) :
    ∃ v, round64 q = .fin v ∧ |v - q| ≤ 2 ^ (-53 : Int) * |q| := by
  rcases le_or_lt 0 q with h | h
  · rw [abs_of_nonneg h] at hlo hhi ⊢
    exact round64_error_pos q hlo hhi
  · rw [abs_of_neg h] at hlo hhi ⊢
    obtain ⟨v, hv, hb⟩ := round64_error_pos (-q) hlo hhi
    refine ⟨-v, ?_, ?_⟩
    · have := round64_neg (-q)
      rw [neg_neg, hv] at this
      exact this
    · have e1 : -v - q = -(v - -q) := by ring
      rw [e1, abs_neg]
      exact hb

/-- The natural numbers below `2^53` are binary64 numbers. -/
theorem round64_natCast (n : Nat) (h : n < 2 ^ 53) : round64 (n : ℚ) = .fin n := by
  rcases Nat.eq_zero_or_pos n with h0 | h0
  · subst h0
    simp [round64]
  · have hq : (0 : ℚ) < n := by exact_mod_cast h0
    have h1 : (1 : ℚ) ≤ n := by exact_mod_cast h0
    have hlo1 : (2 : ℚ) ^ Int.log 2 (n : ℚ) ≤ n := by
      exact_mod_cast Int.zpow_log_le_self (by norm_num) hq
    have hhi1 : (n : ℚ) < (2 : ℚ) ^ (Int.log 2 (n : ℚ) + 1) := by
      exact_mod_cast Int.lt_zpow_succ_log_self (by norm_num) (n : ℚ)
    have he1 : 0 ≤ Int.log 2 (n : ℚ) :=
      (Int.zpow_le_iff_le_log (by norm_num) hq).mp (by simpa using h1)
    have he2 : Int.log 2 (n : ℚ) < 53 :=
      (Int.lt_zpow_iff_log_lt (by norm_num) hq).mp (by
        have h2 : (n : ℚ) < (2 : ℚ) ^ (53 : Int) := by
          rw [show (53 : Int) = ((53 : Nat) : Int) from rfl, zpow_natCast]
          exact_mod_cast h
        exact_mod_cast h2)
    generalize Int.log 2 (n : ℚ) = e at hlo1 hhi1 he1 he2
    have hexp : expo64 (n : ℚ) = e :=
      expo64_normal _ e (by omega) (by rwa [abs_of_pos hq]) (by rwa [abs_of_pos hq])
    obtain ⟨k, hk⟩ : ∃ k : Nat, (k : Int) = 52 - e := ⟨(52 - e).toNat, by omega⟩
    have hpk : (2 : ℚ) ^ (e - 52) = ((2 : ℚ) ^ k)⁻¹ := by
      rw [← zpow_natCast, hk, ← zpow_neg]
      congr 1
      ring
    have hx : (n : ℚ) / 2 ^ (e - 52) = (((n * 2 ^ k : Nat) : Int) : ℚ) := by
      rw [hpk]
      push_cast
      field_simp
    have hr := round64_pos (n : ℚ) e ((n * 2 ^ k : Nat) : Int) hq hexp
      (by rw [hx]; linarith) (by rw [hx]; linarith)
      (by
        rw [← hx]
        have : (n : ℚ) / 2 ^ (e - 52) * 2 ^ (e - 52) = n := by field_simp
        rw [this]
        have h2 : (n : ℚ) < 2 ^ 53 := by exact_mod_cast h
        have h3 : (2 : ℚ) ^ 53 < 2 ^ (1024 : Int) := by norm_num
        linarith)
    rw [hr, ← hx]
    congr 1
    field_simp

/-- The integers of absolute value below `2^53` are binary64 numbers. -/
theorem round64_intCast (n : Int) (h : |n| < 2 ^ 53) : round64 (n : ℚ) = .fin n := by
  rcases le_or_lt 0 n with h0 | h0
  · obtain ⟨k, rfl⟩ := Int.eq_ofNat_of_zero_le h0
    have hk : k < 2 ^ 53 := by
      rw [abs_of_nonneg h0] at h
      exact_mod_cast h
    simpa using round64_natCast k hk
  · obtain ⟨k, hk⟩ := Int.eq_ofNat_of_zero_le (by omega : 0 ≤ -n)
    have hk2 : k < 2 ^ 53 := by
      rw [abs_of_neg h0, hk] at h
      exact_mod_cast h
    have e1 : (n : ℚ) = -(k : ℚ) := by
      have : n = -(k : Int) := by omega
      rw [this]
      push_cast
      rfl
    rw [e1, round64_neg, round64_natCast k hk2]
    rfl

/-- A positive number not above `2^-1075` rounds to zero. -/
theorem round64_underflow (q : ℚ) (hq : 0 < q) (h : q ≤ 2 ^ (-1075 : Int)) :
    round64 q = .fin 0 := by
  have hs : expo64 q = -1022 :=
    expo64_subnormal q (ne_of_gt hq) (by
      rw [abs_of_pos hq]
      have : (2 : ℚ) ^ (-1075 : Int) < 2 ^ (-1022 : Int) :=
        zpow_lt_zpow_right₀ (by norm_num) (by norm_num)
      linarith)
  have hx : q / 2 ^ ((-1022 : Int) - 52) ≤ 1 / 2 := by
    rw [div_le_iff₀ (by positivity)]
    have : (1 : ℚ) / 2 * 2 ^ ((-1022 : Int) - 52) = 2 ^ (-1075 : Int) := by
      rw [show ((-1022 : Int) - 52) = -1075 + 1 by norm_num,
        zpow_add₀ (by norm_num : (2 : ℚ) ≠ 0), zpow_one]
      ring
    rw [this]
    exact h
  have hx0 : 0 < q / 2 ^ ((-1022 : Int) - 52) := by positivity
  rcases lt_or_eq_of_le hx with h1 | h1
  · have := round64_pos q (-1022) 0 hq hs (by push_cast; linarith) (by push_cast; linarith)
      (by push_cast; rw [zero_mul]; positivity)
    simpa using this
  · have := round64_tie q (-1022) 0 hq hs (by push_cast; linarith) (by decide)
      (by push_cast; rw [zero_mul]; positivity)
    simpa using this

/-- The quotient `1/49` in binary64. -/
theorem round64_one_div_49 :
    round64 (1 / 49) = .fin (5882252574524729 / 288230376151711744) := by
  have he : expo64 (1 / 49) = -6 :=
    expo64_normal _ (-6) (by norm_num) (by rw [abs_of_pos (by norm_num)]; norm_num)
      (by rw [abs_of_pos (by norm_num)]; norm_num)
  have := round64_pos (1 / 49) (-6) 5882252574524729 (by norm_num) he (by norm_num)
    (by norm_num) (by norm_num)
  rw [this]
  norm_num

/-- The sum `1e16 + 1` in binary64: it lies halfway between `1e16` and `1e16 + 2`,
and rounds to the former. -/
theorem round64_1e16_add_one : round64 (10000000000000000 + 1) = .fin 10000000000000000 := by
  have he : expo64 (10000000000000000 + 1) = 53 :=
    expo64_normal _ 53 (by norm_num) (by norm_num) (by norm_num)
  have := round64_tie (10000000000000000 + 1) 53 5000000000000000 (by norm_num) he
    (by norm_num) (by decide) (by norm_num)
  rw [this]
  norm_num

/-! ## The operations on doubles whose result is a binary64 number -/

theorem round64_zero : round64 0 = .fin 0 := by
  simp [round64]

theorem round64_one : round64 1 = .fin 1 := by
  simpa using round64_natCast 1 (by norm_num)

theorem round64_ofNat (n : Nat) [n.AtLeastTwo] (h : n < 2 ^ 53) :
    round64 (OfNat.ofNat n : ℚ) = .fin (OfNat.ofNat n) := by
  simpa using round64_natCast n h

theorem representable_intCast (n : Int) (h : |n| < 2 ^ 53) : Representable (n : ℚ) :=
  round64_intCast n h

theorem Dbl.add_fin (a b : ℚ) (h : Representable (a + b)) :
    (Dbl.fin a).add (.fin b) = .fin (a + b) := h

theorem Dbl.sub_fin (a b : ℚ) (h : Representable (a - b)) :
    (Dbl.fin a).sub (.fin b) = .fin (a - b) := by
  show round64 (a + -b) = _
  rw [← sub_eq_add_neg]
  exact h

theorem Dbl.mul_fin (a b : ℚ) (h : Representable (a * b)) :
    (Dbl.fin a).mul (.fin b) = .fin (a * b) := h

theorem Dbl.div_fin (a b : ℚ) (hb : b ≠ 0) (h : Representable (a / b)) :
    (Dbl.fin a).div (.fin b) = .fin (a / b) := by
  show (if b = 0 then _ else round64 (a / b)) = _
  rw [if_neg hb]
  exact h

theorem Dbl.ne_fin_zero (a : ℚ) : (Dbl.fin a).ne (.fin 0) = decide (a ≠ 0) := rfl

/-- When no operation rounds and the determinant is not zero, the per-cell solve
in binary64 returns the solution of the system whose equation `j` has the
coefficients `d k j`, which is the only one. -/
theorem cellSolve64_exact (len : Nat) (hl : len = 1 ∨ len = 2) (D : Nat → Nat → Dbl)
    (R : Nat → Dbl) (d : Nat → Nat → ℚ) (r : Nat → ℚ)
    (hD : ∀ k j, k < len → j < len → D k j = .fin (d k j))
    (hR : ∀ j, j < len → R j = .fin (r j))
    (hdet : exactDet len d ≠ 0) (hex : ExactSolve len d r) :
    ∃ x : Nat → ℚ,
      cellSolve64 len D R = .ok ((List.range len).map (fun k => Dbl.fin (x k))) ∧
      (∀ j, j < len → ∑ k in Finset.range len, d k j * x k = - r j) ∧
      (∀ y : Nat → ℚ, (∀ j, j < len → ∑ k in Finset.range len, d k j * y k = - r j) →
        ∀ k, k < len → y k = x k) := by
  rcases hl with h1 | h2
  · subst h1
    simp only [exactDet, if_true] at hdet
    simp only [ExactSolve, if_true] at hex
    refine ⟨fun _ => - r 0 / d 0 0, ?_, ?_, ?_⟩
    · simp only [cellSolve64, if_true, hD 0 0 (by decide) (by decide), hR 0 (by decide),
        Dbl.ne_fin_zero, ne_eq, hdet, not_false_eq_true, decide_True, Dbl.neg,
        Dbl.div_fin _ _ hdet hex, List.range_succ, List.range_zero, List.map,
        List.nil_append]
    · intro j hj
      have : j = 0 := by omega
      subst this
      simp only [Finset.sum_range_one]
      field_simp
      ring
    · intro y hy k hk
      have : k = 0 := by omega
      subst this
      have := hy 0 (by decide)
      simp only [Finset.sum_range_one] at this
      field_simp
      linarith
  · subst h2
    simp only [exactDet, show ¬ (2 = 1) by decide, if_false] at hdet
    simp only [ExactSolve, show ¬ (2 = 1) by decide, if_false] at hex
    obtain ⟨e1, e2, e3, e4, e5, e6, e7, e8, e9, e10, e11⟩ := hex
    refine ⟨fun k => if k = 0 then (d 1 0 * r 1 - d 1 1 * r 0) / (d 0 0 * d 1 1 - d 0 1 * d 1 0)
        else (d 0 1 * r 0 - d 0 0 * r 1) / (d 0 0 * d 1 1 - d 0 1 * d 1 0), ?_, ?_, ?_⟩
    · simp only [cellSolve64, show ¬ (2 = 1) by decide, if_false, if_true,
        hD 0 0 (by decide) (by decide), hD 0 1 (by decide) (by decide),
        hD 1 0 (by decide) (by decide), hD 1 1 (by decide) (by decide),
        hR 0 (by decide), hR 1 (by decide),
        Dbl.mul_fin _ _ e1, Dbl.mul_fin _ _ e2, Dbl.sub_fin _ _ e3,
        Dbl.mul_fin _ _ e4, Dbl.mul_fin _ _ e5, Dbl.sub_fin _ _ e6,
        Dbl.mul_fin _ _ e8, Dbl.mul_fin _ _ e9, Dbl.sub_fin _ _ e10,
        Dbl.div_fin _ _ hdet e7, Dbl.div_fin _ _ hdet e11,
        Dbl.ne_fin_zero, ne_eq, hdet, not_false_eq_true, decide_True]
      rfl
    · intro j hj
      have : j = 0 ∨ j = 1 := by omega
      rcases this with h | h
      · subst h
        simp only [Finset.sum_range_succ, Finset.sum_range_zero, zero_add, if_true,
          show ¬ ((1 : Nat) = 0) by decide, if_false]
        field_simp
        ring
      · subst h
        simp only [Finset.sum_range_succ, Finset.sum_range_zero, zero_add, if_true,
          show ¬ ((1 : Nat) = 0) by decide, if_false]
        field_simp
        ring
    · intro y hy k hk
      have h0 := hy 0 (by decide)
      have h1 := hy 1 (by decide)
      simp only [Finset.sum_range_succ, Finset.sum_range_zero, zero_add] at h0 h1
      have : k = 0 ∨ k = 1 := by omega
      rcases this with h | h
      · subst h
        simp only [if_true]
        rw [eq_div_iff hdet]
        linear_combination (d 1 1) * h0 - (d 1 0) * h1
      · subst h
        simp only [show ¬ ((1 : Nat) = 0) by decide, if_false]
        rw [eq_div_iff hdet]
        linear_combination (d 0 0) * h1 - (d 0 1) * h0

/-- For one unknown, in the range of the normal numbers, the value the per-cell
solve returns satisfies the equation up to the fraction `2^-53` of `_R[0]`. -/
theorem cellSolve64_one_bound (D : Nat → Nat → Dbl) (R : Nat → Dbl) (d r : ℚ)
    (hD : D 0 0 = .fin d) (hR : R 0 = .fin r) (hd : d ≠ 0)
    (hlo : (2 : ℚ) ^ (-1022 : Int) ≤ |r / d|) (hhi : |r / d| < 2 ^ (1023 : Int)) :
    ∃ x, cellSolve64 1 D R = .ok [.fin x] ∧ |d * x + r| ≤ 2 ^ (-53 : Int) * |r| := by
  have hq : |(-r) / d| = |r / d| := by rw [neg_div, abs_neg]
  obtain ⟨x, hx, hb⟩ := round64_error (-r / d) (by rw [hq]; exact hlo) (by rw [hq]; exact hhi)
  refine ⟨x, ?_, ?_⟩
  · simp only [cellSolve64, if_true, hD, hR, Dbl.ne_fin_zero, ne_eq, hd, not_false_eq_true,
      decide_True, Dbl.neg]
    show Except.ok [if d = 0 then _ else round64 (-r / d)] = _
    rw [if_neg hd, hx]
  · have e1 : d * x + r = d * (x - -r / d) := by
      field_simp
      ring
    rw [e1, abs_mul]
    have e2 : |r| = |d| * |(-r) / d| := by
      have e3 : d * (-r / d) = -r := by
        field_simp
        ring
      rw [← abs_mul, e3, abs_neg]
    rw [e2]
    calc |d| * |x - -r / d| ≤ |d| * (2 ^ (-53 : Int) * |(-r) / d|) :=
          mul_le_mul_of_nonneg_left hb (abs_nonneg d)
      _ = 2 ^ (-53 : Int) * (|d| * |(-r) / d|) := by ring

/-- The per-cell solve for `_D[0][0] = 49` and `_R[0] = -1` in binary64: the value
returned is the rounded quotient `1/49`. -/
theorem cellSolve64_49 (D : Nat → Nat → Dbl) (R : Nat → Dbl) (hD : D 0 0 = .fin 49)
    (hR : R 0 = .fin (-1)) :
    cellSolve64 1 D R = .ok [.fin (5882252574524729 / 288230376151711744)] := by
  have e1 : ((- -1 : ℚ) / 49) = 1 / 49 := by norm_num
  have h1 : (Dbl.fin (- -1)).div (.fin 49)
      = .fin (5882252574524729 / 288230376151711744) := by
    show (if (49 : ℚ) = 0 then
        (if (- -1 : ℚ) = 0 then Dbl.nan else Dbl.inf (decide ((- -1 : ℚ) < 0)))
      else round64 (- -1 / 49)) = _
    rw [if_neg (by norm_num), e1, round64_one_div_49]
  simp only [cellSolve64, if_true, hD, hR, Dbl.ne_fin_zero, Dbl.neg, h1]
  norm_num

/-! ## The probe of the equations, in binary64 -/

theorem setAll64_length {P : Type} [DecidableEq P] (X : List (P → Dbl)) (p : P) (v : Dbl) :
    (setAll64 X p v).length = X.length := by
  simp [setAll64]

theorem setNth64_length {P : Type} [DecidableEq P] (X : List (P → Dbl)) (k : Nat) (p : P)
    (v : Dbl) : (setNth64 X k p v).length = X.length := by
  induction X generalizing k with
  | nil => rfl
  | cons s X ih =>
    cases k with
    | zero => rfl
    | succ k => simp [setNth64, ih]

theorem valAt64_nil {P : Type} (k : Nat) (q : P) :
    valAt64 ([] : List (P → Dbl)) k q = .fin 0 := by
  simp [valAt64]

theorem valAt64_cons_zero {P : Type} (f : P → Dbl) (L : List (P → Dbl)) (q : P) :
    valAt64 (f :: L) 0 q = f q := rfl

theorem valAt64_cons_succ {P : Type} (f : P → Dbl) (L : List (P → Dbl)) (k : Nat) (q : P) :
    valAt64 (f :: L) (k + 1) q = valAt64 L k q := rfl

theorem valAt64_setAll64 {P : Type} [DecidableEq P] (X : List (P → Dbl)) (p : P) (v : Dbl)
    (k : Nat) (q : P) :
    valAt64 (setAll64 X p v) k q = if k < X.length ∧ q = p then v else valAt64 X k q := by
  induction X generalizing k with
  | nil => simp [setAll64, valAt64_nil]
  | cons s X ih =>
    cases k with
    | zero =>
      by_cases h : q = p
      · subst h
        simp [setAll64, valAt64_cons_zero]
      · simp [setAll64, valAt64_cons_zero, Function.update, h]
    | succ k =>
      have := ih k
      simp only [setAll64] at this
      simp only [setAll64, List.map_cons, valAt64_cons_succ, this, List.length_cons,
        Nat.succ_lt_succ_iff]

theorem valAt64_setNth64 {P : Type} [DecidableEq P] (X : List (P → Dbl)) (k0 : Nat) (p : P)
    (v : Dbl) (k : Nat) (q : P) :
    valAt64 (setNth64 X k0 p v) k q
      = if k = k0 ∧ k < X.length ∧ q = p then v else valAt64 X k q := by
  induction X generalizing k k0 with
  | nil => simp [setNth64, valAt64_nil]
  | cons s X ih =>
    cases k0 with
    | zero =>
      cases k with
      | zero =>
        by_cases h : q = p
        · subst h
          simp [setNth64, valAt64_cons_zero]
        · simp [setNth64, valAt64_cons_zero, Function.update, h]
      | succ k => simp [setNth64, valAt64_cons_succ]
    | succ k0 =>
      cases k with
      | zero => simp [setNth64, valAt64_cons_zero]
      | succ k => simp [setNth64, valAt64_cons_succ, ih]

theorem setNth64_one_zero {P : Type} [DecidableEq P] (X : List (P → Dbl)) (k : Nat) (p : P) :
    setNth64 (setNth64 (setAll64 X p (.fin 0)) k p (.fin 1)) k p (.fin 0)
      = setAll64 X p (.fin 0) := by
  induction X generalizing k with
  | nil => rfl
  | cons s X ih =>
    cases k with
    | zero => simp [setAll64, setNth64]
    | succ k =>
      have := ih k
      simp only [setAll64] at this
      simp [setAll64, setNth64, this]

theorem probeStep64_fold {σ P : Type} [DecidableEq P] (equations : List (Eqn64 σ P)) (env : σ)
    (X : List (P → Dbl)) (p : P) (R : Nat → Dbl) (len : Nat) (D0 : Nat → Nat → Dbl) (n : Nat) :
    ((List.range n).foldl (probeStep64 equations env p R len) (setAll64 X p (.fin 0), D0)).1
      = setAll64 X p (.fin 0) ∧
    ∀ k j,
      ((List.range n).foldl (probeStep64 equations env p R len) (setAll64 X p (.fin 0), D0)).2 k j
        = if k < n ∧ j < len then
            (evalEqs64 equations env (setNth64 (setAll64 X p (.fin 0)) k p (.fin 1)) p j).sub
              (R j)
          else D0 k j := by
  induction n with
  | zero => exact ⟨rfl, fun k j => by simp⟩
  | succ n ih =>
    obtain ⟨h1, h2⟩ := ih
    rw [List.range_succ, List.foldl_append]
    simp only [List.foldl_cons, List.foldl_nil, probeStep64, h1, setNth64_one_zero, true_and]
    intro k j
    rw [h2]
    by_cases hk : k = n
    · subst hk
      by_cases hj : j < len
      · simp [hj]
      · simp [hj]
    · by_cases hj : j < len
      · have : k < n + 1 ↔ k < n := by omega
        simp [hk, hj, this]
      · simp [hj]

/-- The probe in binary64: `_R[j]` is equation `j` with all the unknowns at 0 at
the cell, `_D[k][j]` the binary64 difference of equation `j` with the unknown `k`
at 1 and of `_R[j]`, and the unknowns are left at 0 at the cell. -/
theorem probeCell64_spec {σ P : Type} [DecidableEq P] (equations : List (Eqn64 σ P)) (env : σ)
    (X : List (P → Dbl)) (p : P) (D0 : Nat → Nat → Dbl) :
    (probeCell64 equations env X p D0).1
      = evalEqs64 equations env (setAll64 X p (.fin 0)) p ∧
    (∀ k j, k < X.length → j < X.length →
      (probeCell64 equations env X p D0).2.1 k j
        = (evalEqs64 equations env (setNth64 (setAll64 X p (.fin 0)) k p (.fin 1)) p j).sub
            (evalEqs64 equations env (setAll64 X p (.fin 0)) p j)) ∧
    (probeCell64 equations env X p D0).2.2 = setAll64 X p (.fin 0) := by
  obtain ⟨f1, f2⟩ := probeStep64_fold equations env X p
    (evalEqs64 equations env (setAll64 X p (.fin 0)) p) X.length D0 X.length
  refine ⟨rfl, ?_, f1⟩
  intro k j hk hj
  show ((List.range X.length).foldl _ (setAll64 X p (.fin 0), D0)).2 k j = _
  rw [f2, if_pos ⟨hk, hj⟩]

/-- The values the unknowns hold at the points where the probe evaluates the
equations. -/
theorem probe64_points {P : Type} [DecidableEq P] (X : List (P → Dbl)) (p : P) :
    (∀ k, k < X.length → valAt64 (setAll64 X p (.fin 0)) k p = .fin 0) ∧
    (∀ k i, k < X.length → i < X.length →
      valAt64 (setNth64 (setAll64 X p (.fin 0)) k p (.fin 1)) i p
        = if i = k then .fin 1 else .fin 0) ∧
    (∀ k i q, q ≠ p →
      valAt64 (setAll64 X p (.fin 0)) i q = valAt64 X i q ∧
      valAt64 (setNth64 (setAll64 X p (.fin 0)) k p (.fin 1)) i q = valAt64 X i q) := by
  have h0 : ∀ k, k < X.length → valAt64 (setAll64 X p (.fin 0)) k p = .fin 0 := by
    intro k hk
    rw [valAt64_setAll64, if_pos ⟨hk, rfl⟩]
  refine ⟨h0, ?_, ?_⟩
  · intro k i _ hi
    rw [valAt64_setNth64, setAll64_length, valAt64_setAll64]
    by_cases h : i = k
    · subst h
      simp [hi]
    · simp [h, hi]
  · intro k i q hq
    have e : valAt64 (setAll64 X p (.fin 0)) i q = valAt64 X i q := by
      rw [valAt64_setAll64, if_neg (fun h => hq h.2)]
    refine ⟨e, ?_⟩
    rw [valAt64_setNth64, if_neg (fun h => hq h.2.2), e]

theorem representable_of_eq_int (q : ℚ) (n : Int) (h : q = n) (hn : n.natAbs < 2 ^ 53) :
    Representable q := by
  rw [h]
  apply representable_intCast
  have : |n| = (n.natAbs : Int) := Int.abs_eq_natAbs n
  rw [this]
  exact_mod_cast hn

theorem exactSolve_integer (r : Nat → ℚ) (h0 : r 0 = -4) (h1 : r 1 = -7) :
    ExactSolve 2 integerD r := by
  simp only [ExactSolve, show ¬ (2 = 1) by decide, if_false, h0, h1]
  refine ⟨representable_of_eq_int _ 6 (by norm_num [integerD]) (by decide),
    representable_of_eq_int _ 1 (by norm_num [integerD]) (by decide),
    representable_of_eq_int _ 5 (by norm_num [integerD]) (by decide),
    representable_of_eq_int _ (-7) (by norm_num [integerD]) (by decide),
    representable_of_eq_int _ (-12) (by norm_num [integerD]) (by decide),
    representable_of_eq_int _ 5 (by norm_num [integerD]) (by decide),
    representable_of_eq_int _ 1 (by norm_num [integerD]) (by decide),
    representable_of_eq_int _ (-4) (by norm_num [integerD]) (by decide),
    representable_of_eq_int _ (-14) (by norm_num [integerD]) (by decide),
    representable_of_eq_int _ 10 (by norm_num [integerD]) (by decide),
    representable_of_eq_int _ 2 (by norm_num [integerD]) (by decide)⟩

/-- The per-cell solve for a matrix with `2^-600` on the diagonal and 0 elsewhere:
the products of line 336 underflow to zero and the assertion on the determinant
fails, while the determinant of the matrix is not zero. -/
theorem cellSolve64_underflow (D : Nat → Nat → Dbl) (R : Nat → Dbl)
    (hD : ∀ k j, k < 2 → j < 2 → D k j = .fin (tinyD k j)) :
    cellSolve64 2 D R = .error .SingularSystem ∧ exactDet 2 tinyD ≠ 0 := by
  constructor
  · have h1 : (Dbl.fin (tinyD 0 0)).mul (.fin (tinyD 1 1)) = .fin 0 := by
      show round64 (tinyD 0 0 * tinyD 1 1) = _
      apply round64_underflow
      · simp only [tinyD, if_true]
        positivity
      · simp only [tinyD, if_true]
        rw [← zpow_add₀ (by norm_num : (2 : ℚ) ≠ 0)]
        exact zpow_le_zpow_right₀ (by norm_num) (by norm_num)
    have h2 : (Dbl.fin (tinyD 0 1)).mul (.fin (tinyD 1 0)) = .fin 0 := by
      show round64 (tinyD 0 1 * tinyD 1 0) = _
      simp [tinyD, round64_zero]
    have h3 : (Dbl.fin 0).sub (.fin 0) = .fin 0 := by
      show round64 (0 + -0) = _
      simp [round64_zero]
    simp only [cellSolve64, show ¬ (2 = 1) by decide, if_false, if_true,
      hD 0 0 (by decide) (by decide), hD 0 1 (by decide) (by decide),
      hD 1 0 (by decide) (by decide), hD 1 1 (by decide) (by decide), h1, h2, h3]
    rfl
  · simp only [exactDet, show ¬ (2 = 1) by decide, if_false, tinyD, if_true]
    norm_num

/-- C2, amended: for one or two unknowns, a finite matrix `_D` (of values `d`) and
a finite vector `_R` (of values `r`), in binary64. When no operation of the solver
rounds and the determinant (resp. `d 0 0`) is not zero, the solver returns the
solution, which is the only one, of the system whose equation `j` has the
coefficients `D[k][j]`: `sum_k d k j * x_k = - r j`. For one unknown and a
quotient in the range of the normal numbers, the value returned satisfies
`|d00 * x0 + r0| <= 2^-53 |r0|`. The equation is not satisfied exactly in
general: for `d00 = 49`, `r0 = -1` the solver returns the rounded quotient, whose
product by 49 is not 1. And the determinant tested is the computed one: for the
matrix with `2^-600` on the diagonal it underflows to zero and the solver
fails. -/
theorem cellSolve64_solves_transposed (len : Nat) (hl : len = 1 ∨ len = 2)
    (D : Nat → Nat → Dbl) (R : Nat → Dbl) (d : Nat → Nat → ℚ) (r : Nat → ℚ)
    (hD : ∀ k j, k < len → j < len → D k j = .fin (d k j))
    (hR : ∀ j, j < len → R j = .fin (r j))
    (hdet : exactDet len d ≠ 0) :
    (ExactSolve len d r →
      ∃ x : Nat → ℚ,
        cellSolve64 len D R = .ok ((List.range len).map (fun k => Dbl.fin (x k))) ∧
        (∀ j, j < len → ∑ k in Finset.range len, d k j * x k = - r j) ∧
        (∀ y : Nat → ℚ, (∀ j, j < len → ∑ k in Finset.range len, d k j * y k = - r j) →
          ∀ k, k < len → y k = x k)) ∧
    (len = 1 → (2 : ℚ) ^ (-1022 : Int) ≤ |r 0 / d 0 0| → |r 0 / d 0 0| < 2 ^ (1023 : Int) →
      ∃ x, cellSolve64 len D R = .ok [.fin x] ∧
        |d 0 0 * x + r 0| ≤ 2 ^ (-53 : Int) * |r 0|) ∧
    (cellSolve64 1 (fun _ _ => .fin 49) (fun _ => .fin (-1))
        = .ok [.fin (5882252574524729 / 288230376151711744)] ∧
      (49 : ℚ) * (5882252574524729 / 288230376151711744) ≠ 1) ∧
    (cellSolve64 2 (fun k j => .fin (tinyD k j)) R = .error .SingularSystem ∧
      exactDet 2 tinyD ≠ 0) := by
  refine ⟨fun hex => cellSolve64_exact len hl D R d r hD hR hdet hex, ?_,
    ⟨cellSolve64_49 _ _ rfl rfl, by norm_num⟩,
    cellSolve64_underflow _ R (fun _ _ _ _ => rfl)⟩
  intro h1 hlo hhi
  subst h1
  simp only [exactDet, if_true] at hdet
  exact cellSolve64_one_bound D R (d 0 0) (r 0) (hD 0 0 (by decide) (by decide))
    (hR 0 (by decide)) hdet hlo hhi

/-- No operation of the solver rounds for the coefficients `skewD` and the vector
`(-4, -5)`. -/
theorem exactSolve_skew : ExactSolve 2 skewD skewR := by
  simp only [ExactSolve, show ¬ (2 = 1) by decide, if_false]
  refine ⟨representable_of_eq_int _ 6 (by norm_num [skewD]) (by decide),
    representable_of_eq_int _ 0 (by norm_num [skewD]) (by decide),
    representable_of_eq_int _ 6 (by norm_num [skewD]) (by decide),
    representable_of_eq_int _ 0 (by norm_num [skewD, skewR]) (by decide),
    representable_of_eq_int _ (-12) (by norm_num [skewD, skewR]) (by decide),
    representable_of_eq_int _ 12 (by norm_num [skewD, skewR]) (by decide),
    representable_of_eq_int _ 2 (by norm_num [skewD, skewR]) (by decide),
    representable_of_eq_int _ (-4) (by norm_num [skewD, skewR]) (by decide),
    representable_of_eq_int _ (-10) (by norm_num [skewD, skewR]) (by decide),
    representable_of_eq_int _ 6 (by norm_num [skewD, skewR]) (by decide),
    representable_of_eq_int _ 1 (by norm_num [skewD, skewR]) (by decide)⟩

/-- C2, amended, at a concrete input: `_D = ((2, 1), (0, 3))` and `_R = (-4, -5)`,
for which no operation rounds. The solver returns `(2, 1)`, which solves
`2 x0 + 0 x1 = 4`, `x0 + 3 x1 = 5`, the system of the columns of `_D`, and not
the one of its rows (`2 x0 + x1 = 5`). -/
theorem cellSolve64_solves_transposed_witness :
    cellSolve64 2 (fun k j => .fin (skewD k j)) (fun j => .fin (skewR j))
        = .ok [.fin 2, .fin 1] ∧
      skewD 0 0 * 2 + skewD 1 0 * 1 = - skewR 0 ∧
      skewD 0 1 * 2 + skewD 1 1 * 1 = - skewR 1 ∧
      skewD 0 0 * 2 + skewD 0 1 * 1 ≠ - skewR 0 := by
  obtain ⟨x, h1, h2, _⟩ :=
    (cellSolve64_solves_transposed 2 (Or.inr rfl) (fun k j => .fin (skewD k j))
      (fun j => .fin (skewR j)) skewD skewR (fun _ _ _ _ => rfl) (fun _ _ => rfl)
      (by norm_num [exactDet, skewD])).1 exactSolve_skew
  have e0 := h2 0 (by decide)
  have e1 := h2 1 (by decide)
  simp only [Finset.sum_range_succ, Finset.sum_range_zero, zero_add] at e0 e1
  norm_num [skewD, skewR] at e0 e1
  have x0 : x 0 = 2 := by linarith
  have x1 : x 1 = 1 := by linarith
  refine ⟨?_, by norm_num [skewD, skewR], by norm_num [skewD, skewR],
    by norm_num [skewD, skewR]⟩
  rw [h1]
  simp [List.range_succ, x0, x1]

/-- The number `1e16` is a binary64 number. -/
theorem round64_1e16 : round64 10000000000000000 = .fin 10000000000000000 := by
  have he : expo64 10000000000000000 = 53 :=
    expo64_normal _ 53 (by norm_num) (by norm_num) (by norm_num)
  have := round64_pos 10000000000000000 53 5000000000000000 (by norm_num) he
    (by norm_num) (by norm_num) (by norm_num)
  rw [this]
  norm_num

theorem representable_small (q : ℚ) (n : Int) (h : q = n)
    (hn : -4503599627370496 ≤ n ∧ n ≤ 4503599627370496) : Representable q := by
  rw [h]
  apply representable_intCast
  rw [abs_lt]
  constructor <;> omega

/-- The system `2 x0 + x1 - 3 = 0`, `x0 + 3 x1 - 5 = 0` evaluated in binary64 where
the unknowns hold the integers `u0` and `u1` between -1 and 1: no operation
rounds. -/
theorem coupledEqs64_eval (Y : List (Unit → Dbl)) (u0 u1 : Int)
    (h0 : unknown64 Y 0 () = .fin u0) (h1 : unknown64 Y 1 () = .fin u1)
    (b0 : -1 ≤ u0 ∧ u0 ≤ 1) (b1 : -1 ≤ u1 ∧ u1 ≤ 1) :
    evalEqs64 coupledEqs64 () Y () 0 = .fin ((2 * u0 + u1 - 3 : Int) : ℚ) ∧
    evalEqs64 coupledEqs64 () Y () 1 = .fin ((u0 + 3 * u1 - 5 : Int) : ℚ) := by
  constructor
  · simp only [evalEqs64, coupledEqs64, List.get?, h0, h1]
    rw [Dbl.mul_fin _ _ (representable_small _ (2 * u0) (by push_cast; ring) (by omega)),
      Dbl.add_fin _ _ (representable_small _ (2 * u0 + u1) (by push_cast; ring) (by omega)),
      Dbl.sub_fin _ _ (representable_small _ (2 * u0 + u1 - 3) (by push_cast; ring)
        (by omega))]
    push_cast
    ring_nf
  · simp only [evalEqs64, coupledEqs64, List.get?, h0, h1]
    rw [Dbl.mul_fin _ _ (representable_small _ (3 * u1) (by push_cast; ring) (by omega)),
      Dbl.add_fin _ _ (representable_small _ (u0 + 3 * u1) (by push_cast; ring) (by omega)),
      Dbl.sub_fin _ _ (representable_small _ (u0 + 3 * u1 - 5) (by push_cast; ring)
        (by omega))]
    push_cast
    ring_nf

theorem integerD_representable (k j : Nat) : Representable (integerD k j) := by
  unfold integerD
  split_ifs
  · exact representable_small _ 2 (by norm_num) (by omega)
  · exact representable_small _ 3 (by norm_num) (by omega)
  · exact representable_small _ 1 (by norm_num) (by omega)

/-- C15, for the equation `1e16 + x0 = 0`, affine in the unknown with `c = 1e16`
and `a = 1`: in binary64 the sum `1e16 + 1` rounds to `1e16`, so the probe returns
`_R[0] = 1e16 = c` and `_D[0][0] = 0`, which is not `a`. -/
theorem probe64_loses_coefficient :
    (probeCell64 bigOffsetEq () [fun _ => Dbl.fin 5] () (fun _ _ => Dbl.nan)).1 0
      = .fin 10000000000000000 ∧
    (probeCell64 bigOffsetEq () [fun _ => Dbl.fin 5] () (fun _ _ => Dbl.nan)).2.1 0 0
      = .fin 0 ∧
    Representable 10000000000000000 ∧ Representable 1 := by
  obtain ⟨h1, h2, _⟩ := probeCell64_spec bigOffsetEq () [fun _ => Dbl.fin 5] ()
    (fun _ _ => Dbl.nan)
  have e0 : evalEqs64 bigOffsetEq () (setAll64 [fun _ => Dbl.fin 5] () (.fin 0)) () 0
      = .fin 10000000000000000 := by
    simp only [evalEqs64, bigOffsetEq, unknown64, setAll64, List.map, List.get?,
      Function.update_same, Dbl.add, add_zero, round64_1e16]
  have e1 : evalEqs64 bigOffsetEq ()
      (setNth64 (setAll64 [fun _ => Dbl.fin 5] () (.fin 0)) 0 () (.fin 1)) () 0
      = .fin 10000000000000000 := by
    simp only [evalEqs64, bigOffsetEq, unknown64, setAll64, setNth64, List.map, List.get?,
      Function.update_same, Dbl.add, round64_1e16_add_one]
  have e2 : (Dbl.fin 10000000000000000).sub (.fin 10000000000000000) = .fin 0 := by
    show round64 (10000000000000000 + -10000000000000000) = _
    rw [add_neg_cancel, round64_zero]
  refine ⟨?_, ?_, round64_1e16, round64_one⟩
  · rw [h1, e0]
  · rw [h2 0 0 (by decide) (by decide), e1, e0, e2]

/-- C15, amended: at every cell and for every list of unknowns and of equations
(of every length, so for N = 1 and N = 2), in binary64. The probe returns `_R[j]`
equal to equation `j` evaluated with all the unknowns set to 0 at the cell and
`_D[k][j]` equal to the binary64 difference of equation `j` evaluated with the
unknown `k` set to 1 and the others to 0 at the cell, and of `_R[j]` (the values
away from the cell are untouched); it leaves every unknown at 0 at the cell. When
the two evaluations of equation `j` are the exact values `c j` and `c j + a k j`
of an affine expression and `a k j` is a binary64 number, then `_R[j] = c j` and
`_D[k][j] = a k j`. -/
theorem probe64_linearisation {σ P : Type} [DecidableEq P] (equations : List (Eqn64 σ P))
    (env : σ) (X : List (P → Dbl)) (p : P) (D0 : Nat → Nat → Dbl) :
    (probeCell64 equations env X p D0).1
      = evalEqs64 equations env (setAll64 X p (.fin 0)) p ∧
    (∀ k j, k < X.length → j < X.length →
      (probeCell64 equations env X p D0).2.1 k j
        = (evalEqs64 equations env (setNth64 (setAll64 X p (.fin 0)) k p (.fin 1)) p j).sub
            (evalEqs64 equations env (setAll64 X p (.fin 0)) p j)) ∧
    (∀ k, k < X.length → valAt64 (setAll64 X p (.fin 0)) k p = .fin 0) ∧
    (∀ k i, k < X.length → i < X.length →
      valAt64 (setNth64 (setAll64 X p (.fin 0)) k p (.fin 1)) i p
        = if i = k then .fin 1 else .fin 0) ∧
    (∀ k i q, q ≠ p →
      valAt64 (setAll64 X p (.fin 0)) i q = valAt64 X i q ∧
      valAt64 (setNth64 (setAll64 X p (.fin 0)) k p (.fin 1)) i q = valAt64 X i q) ∧
    (probeCell64 equations env X p D0).2.2 = setAll64 X p (.fin 0) ∧
    (∀ k, k < X.length → valAt64 (probeCell64 equations env X p D0).2.2 k p = .fin 0) ∧
    (∀ (c : Nat → ℚ) (a : Nat → Nat → ℚ),
      (∀ j, j < X.length →
        evalEqs64 equations env (setAll64 X p (.fin 0)) p j = .fin (c j)) →
      (∀ k j, k < X.length → j < X.length →
        evalEqs64 equations env (setNth64 (setAll64 X p (.fin 0)) k p (.fin 1)) p j
          = .fin (c j + a k j)) →
      (∀ k j, k < X.length → j < X.length → Representable (a k j)) →
      ∀ j, j < X.length →
        (probeCell64 equations env X p D0).1 j = .fin (c j) ∧
        ∀ k, k < X.length → (probeCell64 equations env X p D0).2.1 k j = .fin (a k j)) := by
  obtain ⟨h1, h2, h3⟩ := probeCell64_spec equations env X p D0
  obtain ⟨g1, g2, g3⟩ := probe64_points X p
  refine ⟨h1, h2, g1, g2, g3, h3, ?_, ?_⟩
  · intro k hk
    rw [h3]
    exact g1 k hk
  · intro c a hc ha hrep j hj
    refine ⟨by rw [h1]; exact hc j hj, ?_⟩
    intro k hk
    rw [h2 k j hk hj, ha k j hk hj, hc j hj]
    have e : c j + a k j - c j = a k j := by ring
    rw [Dbl.sub_fin _ _ (by rw [e]; exact hrep k j hk hj), e]

/-- C15, amended, at a concrete input: the system `2 x0 + x1 - 3 = 0`,
`x0 + 3 x1 - 5 = 0` on the one-cell grid, with the unknowns at 5 and 7 before the
probe; no evaluation rounds, and the probe returns `_R = (-3, -5)` and
`_D = ((2, 1), (1, 3))`. -/
theorem probe64_linearisation_witness :
    ∀ j, j < 2 →
      (probeCell64 coupledEqs64 () [fun _ => Dbl.fin 5, fun _ => Dbl.fin 7] ()
          (fun _ _ => Dbl.nan)).1 j = .fin (coupledC j) ∧
      ∀ k, k < 2 →
        (probeCell64 coupledEqs64 () [fun _ => Dbl.fin 5, fun _ => Dbl.fin 7] ()
            (fun _ _ => Dbl.nan)).2.1 k j = .fin (integerD k j) := by
  refine (probe64_linearisation coupledEqs64 () [fun _ => Dbl.fin 5, fun _ => Dbl.fin 7] ()
    (fun _ _ => Dbl.nan)).2.2.2.2.2.2.2 coupledC integerD ?_ ?_ ?_
  · intro j hj
    have hj2 : j < 2 := hj
    have h := coupledEqs64_eval (setAll64 [fun _ => Dbl.fin 5, fun _ => Dbl.fin 7] () (.fin 0))
      0 0 rfl rfl (by decide) (by decide)
    interval_cases j
    · rw [h.1]
      norm_num [coupledC]
    · rw [h.2]
      norm_num [coupledC]
  · intro k j hk hj
    have hj2 : j < 2 := hj
    have hk2 : k < 2 := hk
    have h0 := coupledEqs64_eval
      (setNth64 (setAll64 [fun _ => Dbl.fin 5, fun _ => Dbl.fin 7] () (.fin 0)) 0 () (.fin 1))
      1 0 (by simp [unknown64, setAll64, setNth64]) (by simp [unknown64, setAll64, setNth64])
      (by decide) (by decide)
    have h1 := coupledEqs64_eval
      (setNth64 (setAll64 [fun _ => Dbl.fin 5, fun _ => Dbl.fin 7] () (.fin 0)) 1 () (.fin 1))
      0 1 (by simp [unknown64, setAll64, setNth64]) (by simp [unknown64, setAll64, setNth64])
      (by decide) (by decide)
    interval_cases j <;> interval_cases k
    · rw [h0.1]
      norm_num [coupledC, integerD]
    · rw [h1.1]
      norm_num [coupledC, integerD]
    · rw [h0.2]
      norm_num [coupledC, integerD]
    · rw [h1.2]
      norm_num [coupledC, integerD]
  · intro k j hk hj
    exact integerD_representable k j

/-! ## The relaxation update at a cell, in binary64 -/

theorem writeCell64_length {P : Type} [DecidableEq P] (X : List (P → Dbl)) (p : P)
    (x : List Dbl) : (writeCell64 X p x).length = X.length := by
  induction X generalizing x with
  | nil => cases x <;> rfl
  | cons s X ih =>
    cases x with
    | nil => rfl
    | cons v x => simp [writeCell64, ih]

theorem valAt64_writeCell64_ne {P : Type} [DecidableEq P] (X : List (P → Dbl)) (p : P)
    (x : List Dbl) (k : Nat) (q : P) (h : q ≠ p) :
    valAt64 (writeCell64 X p x) k q = valAt64 X k q := by
  induction X generalizing x k with
  | nil => cases x <;> rfl
  | cons s X ih =>
    cases x with
    | nil => rfl
    | cons v x =>
      cases k with
      | zero => simp [writeCell64, valAt64_cons_zero, Function.update, h]
      | succ k => simp [writeCell64, valAt64_cons_succ, ih]

theorem valAt64_writeCell64 {P : Type} [DecidableEq P] (X : List (P → Dbl)) (p : P)
    (x : List Dbl) (k : Nat) (hk : k < X.length) (hx : k < x.length) :
    valAt64 (writeCell64 X p x) k p = x.get ⟨k, hx⟩ := by
  induction X generalizing x k with
  | nil => simp at hk
  | cons s X ih =>
    cases x with
    | nil => simp at hx
    | cons v x =>
      cases k with
      | zero => simp [writeCell64, valAt64_cons_zero]
      | succ k =>
        simp only [writeCell64, valAt64_cons_succ]
        rw [ih x k (by simpa using hk) (by simpa using hx)]
        rfl

/-- The relaxation update in binary64 when no operation rounds: it writes the
only solution of the correction equations at the cell. -/
theorem relaxCell64_of_exact {σ P : Type} [DecidableEq P] (equations : List (Eqn64 σ P))
    (env : σ) (lrhs lres X : List (P → Dbl)) (p : P) (D0 : Nat → Nat → Dbl)
    (c s t : Nat → ℚ) (a : Nat → Nat → ℚ)
    (hN : X.length = 1 ∨ X.length = 2)
    (hl1 : lrhs.length = X.length) (hl2 : lres.length = X.length)
    (hc : ∀ j, j < X.length →
      evalEqs64 equations env (setAll64 X p (.fin 0)) p j = .fin (c j))
    (ha : ∀ k j, k < X.length → j < X.length →
      evalEqs64 equations env (setNth64 (setAll64 X p (.fin 0)) k p (.fin 1)) p j
        = .fin (c j + a k j))
    (hs : ∀ j, j < X.length → valAt64 lres j p = .fin (s j))
    (ht : ∀ j, j < X.length → valAt64 lrhs j p = .fin (t j))
    (hdet : exactDet X.length a ≠ 0)
    (hex : ExactUpdate X.length c a s t) :
    ∃ (Y : List (P → Dbl)) (x : Nat → ℚ),
      relaxCell64 equations env lrhs lres X p D0 = .ok Y ∧
      (∀ k, k < X.length → valAt64 Y k p = .fin (x k)) ∧
      (∀ k q, q ≠ p → valAt64 Y k q = valAt64 X k q) ∧
      (∀ j, j < X.length →
        c j + ∑ k in Finset.range X.length, a k j * x k + (s j - t j) = 0) ∧
      (∀ y : Nat → ℚ,
        (∀ j, j < X.length →
          c j + ∑ k in Finset.range X.length, a k j * y k + (s j - t j) = 0) →
        ∀ k, k < X.length → y k = x k) := by
  obtain ⟨h1, h2, h3⟩ := probeCell64_spec equations env X p D0
  obtain ⟨_, _, g3⟩ := probe64_points X p
  have hD : ∀ k j, k < X.length → j < X.length →
      (probeCell64 equations env X p D0).2.1 k j = .fin (a k j) := by
    intro k j hk hj
    rw [h2 k j hk hj, ha k j hk hj, hc j hj]
    have e : c j + a k j - c j = a k j := by ring
    rw [Dbl.sub_fin _ _ (by rw [e]; exact hex.coeff k j hk hj), e]
  have hR : ∀ j, j < X.length →
      (if j < lrhs.length ∧ j < lres.length then
        ((probeCell64 equations env X p D0).1 j).add ((valAt64 lres j p).sub (valAt64 lrhs j p))
       else (probeCell64 equations env X p D0).1 j) = .fin (c j + (s j - t j)) := by
    intro j hj
    rw [if_pos ⟨by rw [hl1]; exact hj, by rw [hl2]; exact hj⟩, h1, hc j hj, hs j hj, ht j hj,
      Dbl.sub_fin _ _ (hex.diff j hj), Dbl.add_fin _ _ (hex.sum j hj)]
  obtain ⟨x, hx, hsol, huniq⟩ := cellSolve64_exact X.length hN
    (probeCell64 equations env X p D0).2.1
    (fun k => if k < lrhs.length ∧ k < lres.length then
        ((probeCell64 equations env X p D0).1 k).add ((valAt64 lres k p).sub (valAt64 lrhs k p))
       else (probeCell64 equations env X p D0).1 k)
    a (fun j => c j + (s j - t j)) hD hR hdet hex.solver
  refine ⟨writeCell64 (setAll64 X p (.fin 0)) p
    ((List.range X.length).map (fun k => Dbl.fin (x k))), x, ?_, ?_, ?_, ?_, ?_⟩
  · unfold relaxCell64
    simp only
    rw [hx, h3]
  · intro k hk
    rw [valAt64_writeCell64 _ _ _ k (by rw [setAll64_length]; exact hk) (by simpa using hk)]
    simp
  · intro k q hq
    rw [valAt64_writeCell64_ne _ _ _ _ _ hq]
    exact (g3 0 k q hq).1
  · intro j hj
    have := hsol j hj
    linarith
  · intro y hy k hk
    exact huniq y (fun j hj => by have := hy j hj; linarith) k hk

/-- For one unknown, when the probe and line 320 do not round and the quotient is
in the range of the normal numbers, the value the relaxation update writes
satisfies the correction equation up to the fraction `2^-53` of `_R[0]`. -/
theorem relaxCell64_one_bound {σ P : Type} [DecidableEq P] (equations : List (Eqn64 σ P))
    (env : σ) (lrhs lres X : List (P → Dbl)) (p : P) (D0 : Nat → Nat → Dbl)
    (c s t : Nat → ℚ) (a : Nat → Nat → ℚ)
    (hN : X.length = 1) (hl1 : lrhs.length = 1) (hl2 : lres.length = 1)
    (hc : evalEqs64 equations env (setAll64 X p (.fin 0)) p 0 = .fin (c 0))
    (ha : evalEqs64 equations env (setNth64 (setAll64 X p (.fin 0)) 0 p (.fin 1)) p 0
        = .fin (c 0 + a 0 0))
    (hs : valAt64 lres 0 p = .fin (s 0)) (ht : valAt64 lrhs 0 p = .fin (t 0))
    (hcoeff : Representable (a 0 0)) (hdiff : Representable (s 0 - t 0))
    (hsum : Representable (c 0 + (s 0 - t 0))) (hdet : a 0 0 ≠ 0)
    (hlo : (2 : ℚ) ^ (-1022 : Int) ≤ |(c 0 + (s 0 - t 0)) / a 0 0|)
    (hhi : |(c 0 + (s 0 - t 0)) / a 0 0| < 2 ^ (1023 : Int)) :
    ∃ (Y : List (P → Dbl)) (x : ℚ),
      relaxCell64 equations env lrhs lres X p D0 = .ok Y ∧ valAt64 Y 0 p = .fin x ∧
      |c 0 + a 0 0 * x + (s 0 - t 0)| ≤ 2 ^ (-53 : Int) * |c 0 + (s 0 - t 0)| := by
  obtain ⟨h1, h2, h3⟩ := probeCell64_spec equations env X p D0
  have hD : (probeCell64 equations env X p D0).2.1 0 0 = .fin (a 0 0) := by
    rw [h2 0 0 (by omega) (by omega), ha, hc]
    have e : c 0 + a 0 0 - c 0 = a 0 0 := by ring
    rw [Dbl.sub_fin _ _ (by rw [e]; exact hcoeff), e]
  have hR : (if 0 < lrhs.length ∧ 0 < lres.length then
        ((probeCell64 equations env X p D0).1 0).add ((valAt64 lres 0 p).sub (valAt64 lrhs 0 p))
       else (probeCell64 equations env X p D0).1 0) = .fin (c 0 + (s 0 - t 0)) := by
    rw [if_pos ⟨by omega, by omega⟩, h1, hc, hs, ht, Dbl.sub_fin _ _ hdiff,
      Dbl.add_fin _ _ hsum]
  obtain ⟨x, hx, hb⟩ := cellSolve64_one_bound (probeCell64 equations env X p D0).2.1
    (fun k => if k < lrhs.length ∧ k < lres.length then
        ((probeCell64 equations env X p D0).1 k).add ((valAt64 lres k p).sub (valAt64 lrhs k p))
       else (probeCell64 equations env X p D0).1 k)
    (a 0 0) (c 0 + (s 0 - t 0)) hD hR hdet hlo hhi
  refine ⟨writeCell64 (setAll64 X p (.fin 0)) p [.fin x], x, ?_, ?_, ?_⟩
  · unfold relaxCell64
    simp only
    rw [hN, hx, h3]
  · rw [valAt64_writeCell64 _ _ _ 0 (by rw [setAll64_length]; omega) (by simp)]
    rfl
  · have e : c 0 + a 0 0 * x + (s 0 - t 0) = a 0 0 * x + (c 0 + (s 0 - t 0)) := by ring
    rw [e]
    exact hb

/-- The equation `49 x0 - 1 = 0` evaluated in binary64 where the unknown holds
the integer `u` between -1 and 1: no operation rounds. -/
theorem fortyNineEq_eval (Y : List (Unit → Dbl)) (u : Int) (h : unknown64 Y 0 () = .fin u)
    (b : -1 ≤ u ∧ u ≤ 1) :
    evalEqs64 fortyNineEq () Y () 0 = .fin ((49 * u - 1 : Int) : ℚ) := by
  simp only [evalEqs64, fortyNineEq, List.get?, h]
  rw [Dbl.mul_fin _ _ (representable_small _ (49 * u) (by push_cast; ring) (by omega)),
    Dbl.sub_fin _ _ (representable_small _ (49 * u - 1) (by push_cast; ring) (by omega))]
  push_cast
  ring_nf

/-- The number `2^-600` is a binary64 number. -/
theorem round64_tiny : round64 (2 ^ (-600 : Int)) = .fin (2 ^ (-600 : Int)) := by
  have hp : (0 : ℚ) < 2 ^ (-600 : Int) := by positivity
  have he : expo64 (2 ^ (-600 : Int)) = -600 :=
    expo64_normal _ (-600) (by norm_num) (by rw [abs_of_pos hp])
      (by rw [abs_of_pos hp]; exact zpow_lt_zpow_right₀ (by norm_num) (by norm_num))
  have hq : (2 : ℚ) ^ (-600 : Int) / 2 ^ ((-600 : Int) - 52) = ((4503599627370496 : Int) : ℚ) := by
    rw [← zpow_sub₀ (by norm_num : (2 : ℚ) ≠ 0)]
    norm_num
  have := round64_pos (2 ^ (-600 : Int)) (-600) 4503599627370496 hp he
    (by rw [hq]; norm_num) (by rw [hq]; norm_num)
    (by
      rw [← hq, div_mul_cancel₀ _ (by positivity)]
      exact zpow_lt_zpow_right₀ (by norm_num) (by norm_num))
  rw [this, ← hq, div_mul_cancel₀ _ (by positivity)]

/-- The system `2^-600 x0 = 0`, `2^-600 x1 = 0` evaluated in binary64 where each
unknown holds 0 or 1: no operation rounds. -/
theorem tinyEqs_eval (Y : List (Unit → Dbl)) (u0 u1 : ℚ)
    (h0 : unknown64 Y 0 () = .fin u0) (h1 : unknown64 Y 1 () = .fin u1)
    (b0 : u0 = 0 ∨ u0 = 1) (b1 : u1 = 0 ∨ u1 = 1) :
    evalEqs64 tinyEqs () Y () 0 = .fin (2 ^ (-600 : Int) * u0) ∧
    evalEqs64 tinyEqs () Y () 1 = .fin (2 ^ (-600 : Int) * u1) := by
  have key : ∀ u : ℚ, u = 0 ∨ u = 1 →
      (Dbl.fin (2 ^ (-600 : Int))).mul (.fin u) = .fin (2 ^ (-600 : Int) * u) := by
    intro u hu
    apply Dbl.mul_fin
    rcases hu with h | h
    · rw [h, mul_zero]
      exact round64_zero
    · rw [h, mul_one]
      exact round64_tiny
  constructor
  · simp only [evalEqs64, tinyEqs, List.get?, h0]
    exact key u0 b0
  · simp only [evalEqs64, tinyEqs, List.get?, h1]
    exact key u1 b1

/-- The relaxation update fails when the solver fails. -/
theorem relaxCell64_error {σ P : Type} [DecidableEq P] (equations : List (Eqn64 σ P))
    (env : σ) (lrhs lres X : List (P → Dbl)) (p : P) (D0 : Nat → Nat → Dbl) (e : SolveError)
    (h : cellSolve64 X.length (probeCell64 equations env X p D0).2.1
      (fun k => if k < lrhs.length ∧ k < lres.length then
          ((probeCell64 equations env X p D0).1 k).add
            ((valAt64 lres k p).sub (valAt64 lrhs k p))
        else (probeCell64 equations env X p D0).1 k) = .error e) :
    relaxCell64 equations env lrhs lres X p D0 = .error e := by
  unfold relaxCell64
  simp only
  rw [h]

/-- C1, in binary64. First, the equation `49 x0 - 1 = 0` on the one-cell grid,
with `res[] = rhs[] = 3`: the two evaluations of the probe are the exact values
`c = -1` and `c + a = 48` of this affine equation, the probe returns
`_D[0][0] = 49`, not zero, and the update writes the rounded quotient `1/49`,
which does not satisfy `E(x) + res - rhs = 0`. Second, the system
`2^-600 x0 = 0`, `2^-600 x1 = 0`: the probe returns the matrix of the
coefficients, whose determinant is not zero, but the determinant line 336
computes underflows to zero and the update fails. -/
theorem relaxCell64_not_exact :
    (evalEqs64 fortyNineEq () (setAll64 [fun _ => Dbl.fin 7] () (.fin 0)) () 0 = .fin (-1) ∧
      evalEqs64 fortyNineEq () (setNth64 (setAll64 [fun _ => Dbl.fin 7] () (.fin 0)) 0 ()
          (.fin 1)) () 0 = .fin (-1 + 49) ∧
      (probeCell64 fortyNineEq () [fun _ => Dbl.fin 7] () (fun _ _ => Dbl.nan)).2.1 0 0
        = .fin 49 ∧
      (relaxCell64 fortyNineEq () [fun _ => Dbl.fin 3] [fun _ => Dbl.fin 3]
          [fun _ => Dbl.fin 7] () (fun _ _ => Dbl.nan)).map (fun Y => valAt64 Y 0 ())
        = .ok (.fin (5882252574524729 / 288230376151711744)) ∧
      (-1 : ℚ) + 49 * (5882252574524729 / 288230376151711744) + (3 - 3) ≠ 0) ∧
    ((∀ k j, k < 2 → j < 2 →
        (probeCell64 tinyEqs () [fun _ => Dbl.fin 7, fun _ => Dbl.fin 7] ()
          (fun _ _ => Dbl.nan)).2.1 k j = .fin (tinyD k j)) ∧
      exactDet 2 tinyD ≠ 0 ∧
      relaxCell64 tinyEqs () [fun _ => Dbl.fin 0, fun _ => Dbl.fin 0]
          [fun _ => Dbl.fin 0, fun _ => Dbl.fin 0] [fun _ => Dbl.fin 7, fun _ => Dbl.fin 7] ()
          (fun _ _ => Dbl.nan) = .error .SingularSystem) := by
  constructor
  · obtain ⟨h1, h2, h3⟩ := probeCell64_spec fortyNineEq () [fun _ => Dbl.fin 7] ()
      (fun _ _ => Dbl.nan)
    have e0 : evalEqs64 fortyNineEq () (setAll64 [fun _ => Dbl.fin 7] () (.fin 0)) () 0
        = .fin (-1) := by
      rw [fortyNineEq_eval _ 0 (by simp [unknown64, setAll64]) (by decide)]
      norm_num
    have e1 : evalEqs64 fortyNineEq ()
        (setNth64 (setAll64 [fun _ => Dbl.fin 7] () (.fin 0)) 0 () (.fin 1)) () 0
        = .fin 48 := by
      rw [fortyNineEq_eval _ 1 (by simp [unknown64, setAll64, setNth64]) (by decide)]
      norm_num
    have hD : (probeCell64 fortyNineEq () [fun _ => Dbl.fin 7] () (fun _ _ => Dbl.nan)).2.1 0 0
        = .fin 49 := by
      rw [h2 0 0 (by decide) (by decide), e1, e0,
        Dbl.sub_fin _ _ (representable_small _ 49 (by norm_num) (by omega))]
      norm_num
    have hR : (if 0 < [fun (_ : Unit) => Dbl.fin 3].length ∧
          0 < [fun (_ : Unit) => Dbl.fin 3].length then
        ((probeCell64 fortyNineEq () [fun _ => Dbl.fin 7] () (fun _ _ => Dbl.nan)).1 0).add
          ((valAt64 [fun _ => Dbl.fin 3] 0 ()).sub (valAt64 [fun _ => Dbl.fin 3] 0 ()))
       else (probeCell64 fortyNineEq () [fun _ => Dbl.fin 7] () (fun _ _ => Dbl.nan)).1 0)
        = .fin (-1) := by
      rw [if_pos ⟨by decide, by decide⟩, h1, e0]
      simp only [valAt64_cons_zero]
      rw [Dbl.sub_fin _ _ (representable_small _ 0 (by norm_num) (by omega)),
        Dbl.add_fin _ _ (representable_small _ (-1) (by norm_num) (by omega))]
      norm_num
    refine ⟨e0, by rw [e1]; norm_num, hD, ?_, by norm_num⟩
    unfold relaxCell64
    simp only
    rw [show [fun (_ : Unit) => Dbl.fin 7].length = 1 from rfl,
      cellSolve64_49 _ _ hD hR, h3]
    simp only [Except.map]
    rw [valAt64_writeCell64 _ _ _ 0 (by decide) (by decide)]
    rfl
  · obtain ⟨h1, h2, h3⟩ := probeCell64_spec tinyEqs ()
      [fun _ => Dbl.fin 7, fun _ => Dbl.fin 7] () (fun _ _ => Dbl.nan)
    have z := tinyEqs_eval (setAll64 [fun _ => Dbl.fin 7, fun _ => Dbl.fin 7] () (.fin 0)) 0 0
      (by simp [unknown64, setAll64]) (by simp [unknown64, setAll64]) (Or.inl rfl) (Or.inl rfl)
    have u0 := tinyEqs_eval
      (setNth64 (setAll64 [fun _ => Dbl.fin 7, fun _ => Dbl.fin 7] () (.fin 0)) 0 () (.fin 1))
      1 0 (by simp [unknown64, setAll64, setNth64]) (by simp [unknown64, setAll64, setNth64])
      (Or.inr rfl) (Or.inl rfl)
    have u1 := tinyEqs_eval
      (setNth64 (setAll64 [fun _ => Dbl.fin 7, fun _ => Dbl.fin 7] () (.fin 0)) 1 () (.fin 1))
      0 1 (by simp [unknown64, setAll64, setNth64]) (by simp [unknown64, setAll64, setNth64])
      (Or.inl rfl) (Or.inr rfl)
    have s0 : (Dbl.fin (2 ^ (-600 : Int) * 0)).sub (.fin (2 ^ (-600 : Int) * 0))
        = .fin 0 := by
      rw [Dbl.sub_fin _ _ (by rw [sub_self]; exact round64_zero), sub_self]
    have s1 : (Dbl.fin (2 ^ (-600 : Int) * 1)).sub (.fin (2 ^ (-600 : Int) * 0))
        = .fin (2 ^ (-600 : Int)) := by
      have e : (2 : ℚ) ^ (-600 : Int) * 1 - 2 ^ (-600 : Int) * 0 = 2 ^ (-600 : Int) := by ring
      rw [Dbl.sub_fin _ _ (by rw [e]; exact round64_tiny), e]
    have hD : ∀ k j, k < 2 → j < 2 →
        (probeCell64 tinyEqs () [fun _ => Dbl.fin 7, fun _ => Dbl.fin 7] ()
          (fun _ _ => Dbl.nan)).2.1 k j = .fin (tinyD k j) := by
      intro k j hk hj
      rw [h2 k j hk hj]
      interval_cases k <;> interval_cases j
      · rw [u0.1, z.1, s1]
        simp [tinyD]
      · rw [u0.2, z.2, s0]
        simp [tinyD]
      · rw [u1.1, z.1, s0]
        simp [tinyD]
      · rw [u1.2, z.2, s1]
        simp [tinyD]
    exact ⟨hD, (cellSolve64_underflow _ (fun _ => Dbl.nan) (fun _ _ _ _ => rfl)).2,
      relaxCell64_error _ _ _ _ _ _ _ _ (cellSolve64_underflow _ _ hD).1⟩

/-- C1, amended: for one or two unknowns at a cell, in binary64, when the probe
evaluates each equation `j` to the exact values `c j` and `c j + a k j` of an
affine expression, `res[]` and `rhs[]` hold finite values `s j` and `t j`, the
coefficients `a k j`, the differences `s j - t j` and the sums
`c j + (s j - t j)` are binary64 numbers, and the determinant of the coefficients
(resp. `a 0 0`) is not zero. If no operation of the solver rounds, the update
returns and the values `x` it writes satisfy
`c j + sum_k a k j * x_k + (s j - t j) = 0` for every `j`, and they are the only
solution; the other cells are untouched. For one unknown and a quotient in the
range of the normal numbers, the update returns and the value written satisfies
the equation up to `2^-53 |c 0 + (s 0 - t 0)|`. -/
theorem relaxCell64_exact {σ P : Type} [DecidableEq P] (equations : List (Eqn64 σ P))
    (env : σ) (lrhs lres X : List (P → Dbl)) (p : P) (D0 : Nat → Nat → Dbl)
    (c s t : Nat → ℚ) (a : Nat → Nat → ℚ)
    (hN : X.length = 1 ∨ X.length = 2)
    (hl1 : lrhs.length = X.length) (hl2 : lres.length = X.length)
    (hc : ∀ j, j < X.length →
      evalEqs64 equations env (setAll64 X p (.fin 0)) p j = .fin (c j))
    (ha : ∀ k j, k < X.length → j < X.length →
      evalEqs64 equations env (setNth64 (setAll64 X p (.fin 0)) k p (.fin 1)) p j
        = .fin (c j + a k j))
    (hs : ∀ j, j < X.length → valAt64 lres j p = .fin (s j))
    (ht : ∀ j, j < X.length → valAt64 lrhs j p = .fin (t j))
    (hcoeff : ∀ k j, k < X.length → j < X.length → Representable (a k j))
    (hdiff : ∀ j, j < X.length → Representable (s j - t j))
    (hsum : ∀ j, j < X.length → Representable (c j + (s j - t j)))
    (hdet : exactDet X.length a ≠ 0) :
    (ExactSolve X.length a (fun j => c j + (s j - t j)) →
      ∃ (Y : List (P → Dbl)) (x : Nat → ℚ),
        relaxCell64 equations env lrhs lres X p D0 = .ok Y ∧
        (∀ k, k < X.length → valAt64 Y k p = .fin (x k)) ∧
        (∀ k q, q ≠ p → valAt64 Y k q = valAt64 X k q) ∧
        (∀ j, j < X.length →
          c j + ∑ k in Finset.range X.length, a k j * x k + (s j - t j) = 0) ∧
        (∀ y : Nat → ℚ,
          (∀ j, j < X.length →
            c j + ∑ k in Finset.range X.length, a k j * y k + (s j - t j) = 0) →
          ∀ k, k < X.length → y k = x k)) ∧
    (X.length = 1 →
      (2 : ℚ) ^ (-1022 : Int) ≤ |(c 0 + (s 0 - t 0)) / a 0 0| →
      |(c 0 + (s 0 - t 0)) / a 0 0| < 2 ^ (1023 : Int) →
      ∃ (Y : List (P → Dbl)) (x : ℚ),
        relaxCell64 equations env lrhs lres X p D0 = .ok Y ∧ valAt64 Y 0 p = .fin x ∧
        |c 0 + a 0 0 * x + (s 0 - t 0)| ≤ 2 ^ (-53 : Int) * |c 0 + (s 0 - t 0)|) := by
  constructor
  · intro hex
    exact relaxCell64_of_exact equations env lrhs lres X p D0 c s t a hN hl1 hl2 hc ha hs ht
      hdet ⟨hcoeff, hdiff, hsum, hex⟩
  · intro h1 hlo hhi
    have h0 : 0 < X.length := by omega
    have hd : a 0 0 ≠ 0 := by
      rw [h1] at hdet
      simpa [exactDet] using hdet
    exact relaxCell64_one_bound equations env lrhs lres X p D0 c s t a h1
      (by rw [hl1, h1]) (by rw [hl2, h1]) (hc 0 h0) (ha 0 0 h0 h0) (hs 0 h0) (ht 0 h0)
      (hcoeff 0 0 h0 h0) (hdiff 0 h0) (hsum 0 h0) hd hlo hhi

/-- C1, amended, at a concrete input: the system `2 x0 + x1 - 3 = 0`,
`x0 + 3 x1 - 5 = 0` on the one-cell grid, with the unknowns at 5 and 7,
`res[] = (1, 2)` and `rhs[] = (2, 4)`; no operation rounds, and the update writes
the solution of `2 x0 + x1 - 4 = 0`, `x0 + 3 x1 - 7 = 0`. -/
theorem relaxCell64_exact_witness :
    ∃ (Y : List (Unit → Dbl)) (x : Nat → ℚ),
      relaxCell64 coupledEqs64 () [fun _ => Dbl.fin 2, fun _ => Dbl.fin 4]
        [fun _ => Dbl.fin 1, fun _ => Dbl.fin 2] [fun _ => Dbl.fin 5, fun _ => Dbl.fin 7] ()
        (fun _ _ => Dbl.nan) = .ok Y ∧
      (∀ k, k < 2 → valAt64 Y k () = .fin (x k)) ∧
      (∀ j, j < 2 →
        coupledC j + ∑ k in Finset.range 2, integerD k j * x k
          + ((if j = 0 then (1 : ℚ) else 2) - (if j = 0 then (2 : ℚ) else 4)) = 0) := by
  have hz := coupledEqs64_eval (setAll64 [fun _ => Dbl.fin 5, fun _ => Dbl.fin 7] () (.fin 0))
    0 0 rfl rfl (by decide) (by decide)
  have h0 := coupledEqs64_eval
    (setNth64 (setAll64 [fun _ => Dbl.fin 5, fun _ => Dbl.fin 7] () (.fin 0)) 0 () (.fin 1))
    1 0 (by simp [unknown64, setAll64, setNth64]) (by simp [unknown64, setAll64, setNth64])
    (by decide) (by decide)
  have h1 := coupledEqs64_eval
    (setNth64 (setAll64 [fun _ => Dbl.fin 5, fun _ => Dbl.fin 7] () (.fin 0)) 1 () (.fin 1))
    0 1 (by simp [unknown64, setAll64, setNth64]) (by simp [unknown64, setAll64, setNth64])
    (by decide) (by decide)
  obtain ⟨Y, x, hY, hx, _, hsol, _⟩ :=
    (relaxCell64_exact coupledEqs64 () [fun _ => Dbl.fin 2, fun _ => Dbl.fin 4]
      [fun _ => Dbl.fin 1, fun _ => Dbl.fin 2] [fun _ => Dbl.fin 5, fun _ => Dbl.fin 7] ()
      (fun _ _ => Dbl.nan) coupledC (fun j => if j = 0 then 1 else 2)
      (fun j => if j = 0 then 2 else 4) integerD (Or.inr rfl) rfl rfl
      (by
        intro j hj
        have hj2 : j < 2 := hj
        interval_cases j
        · rw [hz.1]
          norm_num [coupledC]
        · rw [hz.2]
          norm_num [coupledC])
      (by
        intro k j hk hj
        have hj2 : j < 2 := hj
        have hk2 : k < 2 := hk
        interval_cases j <;> interval_cases k
        · rw [h0.1]
          norm_num [coupledC, integerD]
        · rw [h1.1]
          norm_num [coupledC, integerD]
        · rw [h0.2]
          norm_num [coupledC, integerD]
        · rw [h1.2]
          norm_num [coupledC, integerD])
      (by
        intro j hj
        have hj2 : j < 2 := hj
        interval_cases j <;> rfl)
      (by
        intro j hj
        have hj2 : j < 2 := hj
        interval_cases j <;> rfl)
      (fun k j _ _ => integerD_representable k j)
      (by
        intro j hj
        have hj2 : j < 2 := hj
        interval_cases j
        · exact representable_small _ (-1) (by norm_num) (by omega)
        · exact representable_small _ (-2) (by norm_num) (by omega))
      (by
        intro j hj
        have hj2 : j < 2 := hj
        interval_cases j
        · exact representable_small _ (-4) (by norm_num [coupledC]) (by omega)
        · exact representable_small _ (-7) (by norm_num [coupledC]) (by omega))
      (by norm_num [exactDet, integerD])).1
      (exactSolve_integer _ (by norm_num [coupledC]) (by norm_num [coupledC]))
  exact ⟨Y, x, hY, hx, hsol⟩

/-! ## The maximum residual, in binary64 -/

theorem Dbl.le_trans (a b c : Dbl) (h1 : a.le b = true) (h2 : b.le c = true) :
    a.le c = true := by
  cases a with
  | nan => simp [Dbl.le] at h1
  | fin x =>
    cases b with
    | nan => simp [Dbl.le] at h1
    | fin y =>
      cases c with
      | nan => simp [Dbl.le] at h2
      | fin z =>
        simp only [Dbl.le, decide_eq_true_eq] at h1 h2 ⊢
        exact h1.trans h2
      | inf u => simpa [Dbl.le] using h2
    | inf t =>
      cases c with
      | nan => simp [Dbl.le] at h2
      | fin z => cases t <;> simp [Dbl.le] at h1 h2
      | inf u => cases t <;> cases u <;> simp [Dbl.le] at h1 h2 ⊢
  | inf s =>
    cases b with
    | nan => simp [Dbl.le] at h1
    | fin y =>
      cases c with
      | nan => simp [Dbl.le] at h2
      | fin z => cases s <;> simp [Dbl.le] at h1 ⊢
      | inf u => cases s <;> cases u <;> simp [Dbl.le] at h1 h2 ⊢
    | inf t =>
      cases c with
      | nan => simp [Dbl.le] at h2
      | fin z => cases s <;> cases t <;> simp [Dbl.le] at h1 h2 ⊢
      | inf u => cases s <;> cases t <;> cases u <;> simp [Dbl.le] at h1 h2 ⊢

theorem Dbl.le_of_not_gt (a b : Dbl) (ha : a ≠ .nan) (hb : b ≠ .nan)
    (h : a.gt b = false) : a.le b = true := by
  cases a with
  | nan => exact absurd rfl ha
  | fin x =>
    cases b with
    | nan => exact absurd rfl hb
    | fin y =>
      simp only [Dbl.gt, Dbl.lt, Dbl.le, decide_eq_true_eq, decide_eq_false_iff_not,
        not_lt] at h ⊢
      exact h
    | inf t => cases t <;> simp [Dbl.gt, Dbl.lt, Dbl.le] at h ⊢
  | inf s =>
    cases b with
    | nan => exact absurd rfl hb
    | fin y => cases s <;> simp [Dbl.gt, Dbl.lt, Dbl.le] at h ⊢
    | inf t => cases s <;> cases t <;> simp [Dbl.gt, Dbl.lt, Dbl.le] at h ⊢

theorem Dbl.gt_iff_not_le (a b : Dbl) (ha : a ≠ .nan) (hb : b ≠ .nan) :
    a.gt b = true ↔ ¬ a.le b = true := by
  cases a with
  | nan => exact absurd rfl ha
  | fin x =>
    cases b with
    | nan => exact absurd rfl hb
    | fin y => simp [Dbl.gt, Dbl.lt, Dbl.le]
    | inf t => cases t <;> simp [Dbl.gt, Dbl.lt, Dbl.le]
  | inf s =>
    cases b with
    | nan => exact absurd rfl hb
    | fin y => cases s <;> simp [Dbl.gt, Dbl.lt, Dbl.le]
    | inf t => cases s <;> cases t <;> simp [Dbl.gt, Dbl.lt, Dbl.le]

theorem Dbl.le_of_gt (a b : Dbl) (h : a.gt b = true) : b.le a = true := by
  cases a with
  | nan => cases b <;> simp [Dbl.gt, Dbl.lt] at h
  | fin x =>
    cases b with
    | nan => simp [Dbl.gt, Dbl.lt] at h
    | fin y =>
      simp only [Dbl.gt, Dbl.lt, Dbl.le, decide_eq_true_eq] at h ⊢
      exact le_of_lt h
    | inf t => cases t <;> simp [Dbl.gt, Dbl.lt, Dbl.le] at h ⊢
  | inf s =>
    cases b with
    | nan => simp [Dbl.gt, Dbl.lt] at h
    | fin y => cases s <;> simp [Dbl.gt, Dbl.lt, Dbl.le] at h ⊢
    | inf t => cases s <;> cases t <;> simp [Dbl.gt, Dbl.lt, Dbl.le] at h ⊢

theorem Dbl.abs_le_self (r : Dbl) (h : r ≠ .nan) : r.abs.le r.abs = true := by
  cases r with
  | fin q => simp [Dbl.abs, Dbl.le]
  | inf s => simp [Dbl.abs, Dbl.le]
  | nan => exact absurd rfl h

theorem Dbl.abs_ne_nan (r : Dbl) (h : r ≠ .nan) : r.abs ≠ .nan := by
  cases r with
  | fin q => simp [Dbl.abs]
  | inf s => simp [Dbl.abs]
  | nan => exact absurd rfl h

theorem Dbl.zero_le_abs (r : Dbl) (h : r ≠ .nan) : (Dbl.fin 0).le r.abs = true := by
  cases r with
  | fin q => simp [Dbl.abs, Dbl.le]
  | inf s => simp [Dbl.abs, Dbl.le]
  | nan => exact absurd rfl h

theorem Dbl.le_self_of_zero_le (m : Dbl) (h : (Dbl.fin 0).le m = true) : m.le m = true := by
  cases m with
  | fin q => simp [Dbl.le]
  | inf s => cases s <;> simp_all [Dbl.le]
  | nan => simp [Dbl.le] at h

theorem Dbl.ne_nan_of_zero_le (m : Dbl) (h : (Dbl.fin 0).le m = true) : m ≠ .nan := by
  intro e
  rw [e] at h
  simp [Dbl.le] at h

/-- One update of the running maximum: it stays a non-negative number, does not
decrease, bounds the new residual unless that is a NaN, and is the former maximum
or the absolute value of the new residual. -/
theorem maxAbs64_spec (m r : Dbl) (hm : (Dbl.fin 0).le m = true) :
    (Dbl.fin 0).le (maxAbs64 m r) = true ∧
    m.le (maxAbs64 m r) = true ∧
    (r ≠ .nan → r.abs.le (maxAbs64 m r) = true) ∧
    (maxAbs64 m r = m ∨ (r ≠ .nan ∧ maxAbs64 m r = r.abs)) := by
  have hmn := Dbl.ne_nan_of_zero_le m hm
  unfold maxAbs64
  by_cases h : r.abs.gt m = true
  · have hr : r ≠ .nan := by
      intro e
      rw [e] at h
      cases m <;> simp [Dbl.abs, Dbl.gt, Dbl.lt] at h
    rw [if_pos h]
    exact ⟨Dbl.zero_le_abs r hr, Dbl.le_of_gt _ _ h, fun _ => Dbl.abs_le_self r hr,
      Or.inr ⟨hr, rfl⟩⟩
  · rw [if_neg h]
    refine ⟨hm, Dbl.le_self_of_zero_le m hm, ?_, Or.inl rfl⟩
    intro hr
    exact Dbl.le_of_not_gt _ _ (Dbl.abs_ne_nan r hr) hmn (by simpa using h)

/-- What the residual loop of `solve` leaves in binary64: the residual in the
cells visited, the former content elsewhere, and a maximum that bounds the
absolute value of every residual that is not a NaN. -/
theorem solveResidual64_spec {P : Type} [DecidableEq P] (func : (P → Dbl) → P → Dbl)
    (rhs : P → Dbl) (a : P → Dbl) (cells : List P) (res : P → Dbl) (m : Dbl)
    (hm : (Dbl.fin 0).le m = true) :
    (∀ p, p ∈ cells →
      (solveResidual64 func rhs a cells (res, m)).1 p = (rhs p).sub (func a p)) ∧
    (∀ p, p ∉ cells → (solveResidual64 func rhs a cells (res, m)).1 p = res p) ∧
    (Dbl.fin 0).le (solveResidual64 func rhs a cells (res, m)).2 = true ∧
    m.le (solveResidual64 func rhs a cells (res, m)).2 = true ∧
    (∀ p, p ∈ cells → (rhs p).sub (func a p) ≠ .nan →
      ((rhs p).sub (func a p)).abs.le (solveResidual64 func rhs a cells (res, m)).2 = true) ∧
    ((solveResidual64 func rhs a cells (res, m)).2 = m ∨
      ∃ p, p ∈ cells ∧ (rhs p).sub (func a p) ≠ .nan ∧
        (solveResidual64 func rhs a cells (res, m)).2 = ((rhs p).sub (func a p)).abs) := by
  induction cells generalizing res m with
  | nil =>
    exact ⟨fun p hp => absurd hp (List.not_mem_nil p), fun p _ => rfl, hm,
      Dbl.le_self_of_zero_le m hm, fun p hp => absurd hp (List.not_mem_nil p), Or.inl rfl⟩
  | cons q qs ih =>
    obtain ⟨g0, g1, g2, g3⟩ := maxAbs64_spec m ((rhs q).sub (func a q)) hm
    obtain ⟨h1, h2, h3, h4, h5, h6⟩ := ih (Function.update res q ((rhs q).sub (func a q)))
      (maxAbs64 m ((rhs q).sub (func a q))) g0
    simp only [solveResidual64]
    refine ⟨?_, ?_, h3, Dbl.le_trans _ _ _ g1 h4, ?_, ?_⟩
    · intro p hp
      by_cases hq : p ∈ qs
      · exact h1 p hq
      · have hpq : p = q := by
          rcases List.mem_cons.mp hp with h | h
          · exact h
          · exact absurd h hq
        rw [h2 p hq, hpq]
        simp
    · intro p hp
      have hne : p ≠ q := fun e => hp (e ▸ List.mem_cons_self q qs)
      rw [h2 p (fun e => hp (List.mem_cons_of_mem q e))]
      simp [Function.update, hne]
    · intro p hp hn
      rcases List.mem_cons.mp hp with h | h
      · rw [h] at hn ⊢
        exact Dbl.le_trans _ _ _ (g2 hn) h4
      · exact h5 p h hn
    · rcases h6 with h | ⟨p, hp, hn, h⟩
      · rcases g3 with g | ⟨gn, g⟩
        · exact Or.inl (h.trans g)
        · exact Or.inr ⟨q, List.mem_cons_self q qs, gn, h.trans g⟩
      · exact Or.inr ⟨p, List.mem_cons_of_mem q hp, hn, h⟩

theorem residualCell64_spec {P : Type} [DecidableEq P] (L : List (P → Dbl)) (i : Nat) (p : P)
    (R : Nat → Dbl) (m : Dbl) (hm : (Dbl.fin 0).le m = true) :
    (residualCell64 L i p R m).1.length = L.length ∧
    (∀ k q, valAt64 (residualCell64 L i p R m).1 k q
      = if k < L.length ∧ q = p then R (i + k) else valAt64 L k q) ∧
    (Dbl.fin 0).le (residualCell64 L i p R m).2 = true ∧
    m.le (residualCell64 L i p R m).2 = true ∧
    (∀ k, k < L.length → R (i + k) ≠ .nan →
      (R (i + k)).abs.le (residualCell64 L i p R m).2 = true) ∧
    ((residualCell64 L i p R m).2 = m ∨
      ∃ k, k < L.length ∧ R (i + k) ≠ .nan ∧
        (residualCell64 L i p R m).2 = (R (i + k)).abs) := by
  induction L generalizing i m with
  | nil =>
    refine ⟨rfl, fun k q => ?_, hm, Dbl.le_self_of_zero_le m hm,
      fun k hk => absurd hk (Nat.not_lt_zero k), Or.inl rfl⟩
    simp [residualCell64]
  | cons f L ih =>
    obtain ⟨g0, g1, g2, g3⟩ := maxAbs64_spec m (R i) hm
    obtain ⟨h0, h1, h2, h3, h4, h5⟩ := ih (i + 1) (maxAbs64 m (R i)) g0
    simp only [residualCell64, List.length_cons]
    refine ⟨by rw [h0], ?_, h2, Dbl.le_trans _ _ _ g1 h3, ?_, ?_⟩
    · intro k q
      cases k with
      | zero =>
        by_cases h : q = p
        · subst h
          simp [valAt64_cons_zero]
        · simp [valAt64_cons_zero, Function.update, h]
      | succ k =>
        simp only [valAt64_cons_succ, h1, Nat.succ_lt_succ_iff]
        have : i + 1 + k = i + (k + 1) := by omega
        rw [this]
    · intro k hk hn
      cases k with
      | zero => exact Dbl.le_trans _ _ _ (g2 hn) h3
      | succ k =>
        have e : i + 1 + k = i + (k + 1) := by omega
        have := h4 k (by omega) (by rw [e]; exact hn)
        rw [e] at this
        exact this
    · rcases h5 with h | ⟨k, hk, hn, h⟩
      · rcases g3 with g | ⟨gn, g⟩
        · exact Or.inl (h.trans g)
        · exact Or.inr ⟨0, by omega, gn, h.trans g⟩
      · have e : i + 1 + k = i + (k + 1) := by omega
        refine Or.inr ⟨k + 1, by omega, ?_, ?_⟩
        · rw [← e]
          exact hn
        · rw [← e]
          exact h

/-- What the residual loop of `msolve` leaves in binary64: the residual of
equation `k` in the field `k` of `_lres` in the cells visited, the former content
elsewhere, and a maximum that bounds the absolute value of every residual that is
not a NaN. -/
theorem msolveResidual64_spec {σ P : Type} [DecidableEq P] (equations : List (Eqn64 σ P))
    (env : σ) (X : List (P → Dbl)) (cells : List P) (L : List (P → Dbl)) (m : Dbl)
    (hm : (Dbl.fin 0).le m = true) :
    (msolveResidual64 equations env X cells (L, m)).1.length = L.length ∧
    (∀ p, p ∈ cells → ∀ k, k < L.length →
      valAt64 (msolveResidual64 equations env X cells (L, m)).1 k p
        = evalEqs64 equations env X p k) ∧
    (∀ p, p ∉ cells → ∀ k,
      valAt64 (msolveResidual64 equations env X cells (L, m)).1 k p = valAt64 L k p) ∧
    (Dbl.fin 0).le (msolveResidual64 equations env X cells (L, m)).2 = true ∧
    m.le (msolveResidual64 equations env X cells (L, m)).2 = true ∧
    (∀ p, p ∈ cells → ∀ k, k < L.length → evalEqs64 equations env X p k ≠ .nan →
      (evalEqs64 equations env X p k).abs.le
        (msolveResidual64 equations env X cells (L, m)).2 = true) ∧
    ((msolveResidual64 equations env X cells (L, m)).2 = m ∨
      ∃ p, p ∈ cells ∧ ∃ k, k < L.length ∧ evalEqs64 equations env X p k ≠ .nan ∧
        (msolveResidual64 equations env X cells (L, m)).2
          = (evalEqs64 equations env X p k).abs) := by
  induction cells generalizing L m with
  | nil =>
    exact ⟨rfl, fun p hp => absurd hp (List.not_mem_nil p), fun p _ k => rfl, hm,
      Dbl.le_self_of_zero_le m hm, fun p hp => absurd hp (List.not_mem_nil p), Or.inl rfl⟩
  | cons q qs ih =>
    obtain ⟨g0, g1, g2, g3, g4, g5⟩ := residualCell64_spec L 0 q (evalEqs64 equations env X q)
      m hm
    obtain ⟨h0, h1, h2, h3, h4, h5, h6⟩ :=
      ih (residualCell64 L 0 q (evalEqs64 equations env X q) m).1
        (residualCell64 L 0 q (evalEqs64 equations env X q) m).2 g2
    rw [g0] at h0 h1 h5 h6
    simp only [msolveResidual64]
    refine ⟨h0, ?_, ?_, h3, Dbl.le_trans _ _ _ g3 h4, ?_, ?_⟩
    · intro p hp k hk
      by_cases hq : p ∈ qs
      · exact h1 p hq k hk
      · have hpq : p = q := by
          rcases List.mem_cons.mp hp with h | h
          · exact h
          · exact absurd h hq
        rw [h2 p hq k, g1, if_pos ⟨hk, hpq⟩, hpq, Nat.zero_add]
    · intro p hp k
      have hne : p ≠ q := fun e => hp (e ▸ List.mem_cons_self q qs)
      rw [h2 p (fun e => hp (List.mem_cons_of_mem q e)) k, g1, if_neg (fun h => hne h.2)]
    · intro p hp k hk hn
      rcases List.mem_cons.mp hp with h | h
      · rw [h] at hn ⊢
        have := g4 k hk (by rw [Nat.zero_add]; exact hn)
        rw [Nat.zero_add] at this
        exact Dbl.le_trans _ _ _ this h4
      · exact h5 p h k hk hn
    · rcases h6 with h | ⟨p, hp, k, hk, hn, h⟩
      · rcases g5 with g | ⟨k, hk, gn, g⟩
        · exact Or.inl (h.trans g)
        · rw [Nat.zero_add] at gn g
          exact Or.inr ⟨q, List.mem_cons_self q qs, k, hk, gn, h.trans g⟩
      · exact Or.inr ⟨p, List.mem_cons_of_mem q hp, k, hk, hn, h⟩

/-- C19, with a residual that is a NaN: on the one-cell grid, the unknown holds
`+inf` (what line 129 stores at a zero diagonal), `func` is `0.*a[]` and `rhs` is
1. The residual stored is `1 - 0*inf`, a NaN; the test `fabs (_res[]) > maxres` is
false for it and `resa` is 0. So `resa <= tolerance` holds, and the loop test
`resa > tolerance` fails, for the tolerance `1/1000`, while the absolute value of
the stored residual is not at most the tolerance. -/
theorem resa_skips_nan :
    (solveResidual64 (fun a p => (Dbl.fin 0).mul (a p)) (fun _ => Dbl.fin 1)
        (fun _ => Dbl.inf false) unitGrid.leaves (fun _ => Dbl.fin 0, Dbl.fin 0)).1 ()
      = .nan ∧
    (solveResidual64 (fun a p => (Dbl.fin 0).mul (a p)) (fun _ => Dbl.fin 1)
        (fun _ => Dbl.inf false) unitGrid.leaves (fun _ => Dbl.fin 0, Dbl.fin 0)).2
      = .fin 0 ∧
    (solveResidual64 (fun a p => (Dbl.fin 0).mul (a p)) (fun _ => Dbl.fin 1)
        (fun _ => Dbl.inf false) unitGrid.leaves (fun _ => Dbl.fin 0, Dbl.fin 0)).2.le
      (.fin (1 / 1000)) = true ∧
    (solveResidual64 (fun a p => (Dbl.fin 0).mul (a p)) (fun _ => Dbl.fin 1)
        (fun _ => Dbl.inf false) unitGrid.leaves (fun _ => Dbl.fin 0, Dbl.fin 0)).2.gt
      (.fin (1 / 1000)) = false ∧
    ((solveResidual64 (fun a p => (Dbl.fin 0).mul (a p)) (fun _ => Dbl.fin 1)
        (fun _ => Dbl.inf false) unitGrid.leaves (fun _ => Dbl.fin 0, Dbl.fin 0)).1 ()).abs.le
      (.fin (1 / 1000)) = false := by
  have h1 : (Dbl.fin 0).mul (Dbl.inf false) = .nan := by
    simp [Dbl.mul]
  have h2 : (Dbl.fin 1).sub .nan = .nan := rfl
  have hres : (solveResidual64 (fun a p => (Dbl.fin 0).mul (a p)) (fun _ => Dbl.fin 1)
      (fun _ => Dbl.inf false) unitGrid.leaves (fun _ => Dbl.fin 0, Dbl.fin 0)).1 ()
      = .nan := by
    simp only [solveResidual64, unitGrid, h1, h2, Function.update_same]
  have hresa : (solveResidual64 (fun a p => (Dbl.fin 0).mul (a p)) (fun _ => Dbl.fin 1)
      (fun _ => Dbl.inf false) unitGrid.leaves (fun _ => Dbl.fin 0, Dbl.fin 0)).2
      = .fin 0 := by
    simp only [solveResidual64, unitGrid, h1, h2, maxAbs64, Dbl.abs, Dbl.gt, Dbl.lt]
    rfl
  refine ⟨hres, hresa, ?_, ?_, ?_⟩
  · rw [hresa]
    simp [Dbl.le]
  · rw [hresa]
    simp [Dbl.gt, Dbl.lt]
  · rw [hres]
    rfl

/-- C19, amended: in binary64, the residual loops of `solve` and `msolve` store in
each leaf cell the residual of each equation, and the `resa` they compute is a
non-negative number (never a NaN) that bounds the absolute value of every stored
residual that is not a NaN; it is 0 or the absolute value of one of these. Hence
`resa <= tolerance` holds if and only if `0 <= tolerance` and every stored
residual that is not a NaN is at most the tolerance in absolute value; when no
stored residual is a NaN and there is a leaf cell (and a residual field), the
condition is that every stored residual is at most the tolerance in absolute
value. The loop test `resa > tolerance` is the negation of `resa <= tolerance`
when the tolerance is not a NaN. -/
theorem resa64_is_max_abs_residual {σ P : Type} [DecidableEq P] (G : Grid P)
    (func : (P → Dbl) → P → Dbl) (rhs : P → Dbl) (a res0 : P → Dbl)
    (equations : List (Eqn64 σ P)) (env : σ) (X L : List (P → Dbl)) (tolerance : Dbl)
    (res : P → Dbl) (resa : Dbl) (lres : List (P → Dbl)) (mresa : Dbl)
    (hs : solveResidual64 func rhs a G.leaves (res0, .fin 0) = (res, resa))
    (hm : msolveResidual64 equations env X G.leaves (L, .fin 0) = (lres, mresa)) :
    ((∀ p, p ∈ G.leaves → res p = (rhs p).sub (func a p)) ∧
      resa ≠ .nan ∧ (Dbl.fin 0).le resa = true ∧
      (∀ p, p ∈ G.leaves → res p ≠ .nan → (res p).abs.le resa = true) ∧
      (resa = .fin 0 ∨ ∃ p, p ∈ G.leaves ∧ res p ≠ .nan ∧ resa = (res p).abs) ∧
      (resa.le tolerance = true ↔
        (Dbl.fin 0).le tolerance = true ∧
          ∀ p, p ∈ G.leaves → res p ≠ .nan → (res p).abs.le tolerance = true) ∧
      ((∀ p, p ∈ G.leaves → res p ≠ .nan) → G.leaves ≠ [] →
        (resa.le tolerance = true ↔
          ∀ p, p ∈ G.leaves → (res p).abs.le tolerance = true)) ∧
      (tolerance ≠ .nan → (resa.gt tolerance = true ↔ ¬ resa.le tolerance = true))) ∧
    ((∀ p, p ∈ G.leaves → ∀ k, k < L.length →
        valAt64 lres k p = evalEqs64 equations env X p k) ∧
      mresa ≠ .nan ∧ (Dbl.fin 0).le mresa = true ∧
      (∀ p, p ∈ G.leaves → ∀ k, k < L.length → valAt64 lres k p ≠ .nan →
        (valAt64 lres k p).abs.le mresa = true) ∧
      (mresa = .fin 0 ∨ ∃ p, p ∈ G.leaves ∧ ∃ k, k < L.length ∧
        valAt64 lres k p ≠ .nan ∧ mresa = (valAt64 lres k p).abs) ∧
      (mresa.le tolerance = true ↔
        (Dbl.fin 0).le tolerance = true ∧
          ∀ p, p ∈ G.leaves → ∀ k, k < L.length → valAt64 lres k p ≠ .nan →
            (valAt64 lres k p).abs.le tolerance = true) ∧
      ((∀ p, p ∈ G.leaves → ∀ k, k < L.length → valAt64 lres k p ≠ .nan) →
        G.leaves ≠ [] → L ≠ [] →
        (mresa.le tolerance = true ↔
          ∀ p, p ∈ G.leaves → ∀ k, k < L.length →
            (valAt64 lres k p).abs.le tolerance = true)) ∧
      (tolerance ≠ .nan → (mresa.gt tolerance = true ↔ ¬ mresa.le tolerance = true))) := by
  have h00 : (Dbl.fin 0).le (.fin 0) = true := by simp [Dbl.le]
  constructor
  · obtain ⟨h1, _, h3, _, h5, h6⟩ := solveResidual64_spec func rhs a G.leaves res0 (.fin 0) h00
    rw [hs] at h1 h3 h5 h6
    simp only at h1 h3 h5 h6
    have hn : resa ≠ .nan := Dbl.ne_nan_of_zero_le resa h3
    have hb : ∀ p, p ∈ G.leaves → res p ≠ .nan → (res p).abs.le resa = true := by
      intro p hp hne
      rw [h1 p hp] at hne ⊢
      exact h5 p hp hne
    have he : resa = .fin 0 ∨ ∃ p, p ∈ G.leaves ∧ res p ≠ .nan ∧ resa = (res p).abs := by
      rcases h6 with h | ⟨p, hp, hne, h⟩
      · exact Or.inl h
      · exact Or.inr ⟨p, hp, by rw [h1 p hp]; exact hne, by rw [h1 p hp]; exact h⟩
    have hiff : resa.le tolerance = true ↔
        (Dbl.fin 0).le tolerance = true ∧
          ∀ p, p ∈ G.leaves → res p ≠ .nan → (res p).abs.le tolerance = true := by
      constructor
      · intro h
        exact ⟨Dbl.le_trans _ _ _ h3 h, fun p hp hne => Dbl.le_trans _ _ _ (hb p hp hne) h⟩
      · rintro ⟨h0, h⟩
        rcases he with g | ⟨p, hp, hne, g⟩
        · rw [g]
          exact h0
        · rw [g]
          exact h p hp hne
    refine ⟨h1, hn, h3, hb, he, hiff, ?_, fun ht => Dbl.gt_iff_not_le resa tolerance hn ht⟩
    intro hall hne
    rw [hiff]
    constructor
    · rintro ⟨_, h⟩ p hp
      exact h p hp (hall p hp)
    · intro h
      obtain ⟨p, hp⟩ := List.exists_mem_of_ne_nil G.leaves hne
      exact ⟨Dbl.le_trans _ _ _ (Dbl.zero_le_abs (res p) (hall p hp)) (h p hp),
        fun q hq _ => h q hq⟩
  · obtain ⟨_, h1, _, h3, _, h5, h6⟩ :=
      msolveResidual64_spec equations env X G.leaves L (.fin 0) h00
    rw [hm] at h1 h3 h5 h6
    simp only at h1 h3 h5 h6
    have hn : mresa ≠ .nan := Dbl.ne_nan_of_zero_le mresa h3
    have hb : ∀ p, p ∈ G.leaves → ∀ k, k < L.length → valAt64 lres k p ≠ .nan →
        (valAt64 lres k p).abs.le mresa = true := by
      intro p hp k hk hne
      rw [h1 p hp k hk] at hne ⊢
      exact h5 p hp k hk hne
    have he : mresa = .fin 0 ∨ ∃ p, p ∈ G.leaves ∧ ∃ k, k < L.length ∧
        valAt64 lres k p ≠ .nan ∧ mresa = (valAt64 lres k p).abs := by
      rcases h6 with h | ⟨p, hp, k, hk, hne, h⟩
      · exact Or.inl h
      · exact Or.inr ⟨p, hp, k, hk, by rw [h1 p hp k hk]; exact hne,
          by rw [h1 p hp k hk]; exact h⟩
    have hiff : mresa.le tolerance = true ↔
        (Dbl.fin 0).le tolerance = true ∧
          ∀ p, p ∈ G.leaves → ∀ k, k < L.length → valAt64 lres k p ≠ .nan →
            (valAt64 lres k p).abs.le tolerance = true := by
      constructor
      · intro h
        exact ⟨Dbl.le_trans _ _ _ h3 h,
          fun p hp k hk hne => Dbl.le_trans _ _ _ (hb p hp k hk hne) h⟩
      · rintro ⟨h0, h⟩
        rcases he with g | ⟨p, hp, k, hk, hne, g⟩
        · rw [g]
          exact h0
        · rw [g]
          exact h p hp k hk hne
    refine ⟨h1, hn, h3, hb, he, hiff, ?_, fun ht => Dbl.gt_iff_not_le mresa tolerance hn ht⟩
    intro hall hne hl
    rw [hiff]
    constructor
    · rintro ⟨_, h⟩ p hp k hk
      exact h p hp k hk (hall p hp k hk)
    · intro h
      obtain ⟨p, hp⟩ := List.exists_mem_of_ne_nil G.leaves hne
      have hk : 0 < L.length := List.length_pos.mpr hl
      exact ⟨Dbl.le_trans _ _ _ (Dbl.zero_le_abs _ (hall p hp 0 hk)) (h p hp 0 hk),
        fun q hq k hk _ => h q hq k hk⟩

/-- C19, amended, at a concrete input: on the one-cell grid with the unknown at 0,
the residual of `2 a = 4` is 4, and `resa` is a non-negative number, for which
`resa <= 1/1000` is equivalent to the bound on the stored residual. -/
theorem resa64_is_max_abs_residual_witness :
    (Dbl.fin 0).le (solveResidual64 (fun a p => (Dbl.fin 2).mul (a p)) (fun _ => Dbl.fin 4)
        (fun _ => Dbl.fin 0) unitGrid.leaves (fun _ => Dbl.fin 0, Dbl.fin 0)).2 = true ∧
    ((solveResidual64 (fun a p => (Dbl.fin 2).mul (a p)) (fun _ => Dbl.fin 4)
          (fun _ => Dbl.fin 0) unitGrid.leaves (fun _ => Dbl.fin 0, Dbl.fin 0)).2.le
        (.fin (1 / 1000)) = true ↔
      (Dbl.fin 0).le (.fin (1 / 1000)) = true ∧
        ∀ p, p ∈ unitGrid.leaves →
          (solveResidual64 (fun a p => (Dbl.fin 2).mul (a p)) (fun _ => Dbl.fin 4)
            (fun _ => Dbl.fin 0) unitGrid.leaves (fun _ => Dbl.fin 0, Dbl.fin 0)).1 p ≠ .nan →
          ((solveResidual64 (fun a p => (Dbl.fin 2).mul (a p)) (fun _ => Dbl.fin 4)
            (fun _ => Dbl.fin 0) unitGrid.leaves (fun _ => Dbl.fin 0, Dbl.fin 0)).1 p).abs.le
            (.fin (1 / 1000)) = true) :=
  ⟨(resa64_is_max_abs_residual unitGrid (fun a p => (Dbl.fin 2).mul (a p)) (fun _ => Dbl.fin 4)
      (fun _ => Dbl.fin 0) (fun _ => Dbl.fin 0) fortyNineEq () [fun _ => Dbl.fin 0]
      [fun _ => Dbl.fin 0] (.fin (1 / 1000)) _ _ _ _ rfl rfl).1.2.2.1,
   (resa64_is_max_abs_residual unitGrid (fun a p => (Dbl.fin 2).mul (a p)) (fun _ => Dbl.fin 4)
      (fun _ => Dbl.fin 0) (fun _ => Dbl.fin 0) fortyNineEq () [fun _ => Dbl.fin 0]
      [fun _ => Dbl.fin 0] (.fin (1 / 1000)) _ _ _ _ rfl rfl).1.2.2.2.2.2.1⟩

/-! ## The right-hand side of `msolve` in the leaves coarser than `minlevel` -/

/-- On the tree grid, with `minlevel = 2`, the first V-cycle of `msolve` for the
equation `2 x0 - 4 = 0` succeeds and leaves `4 + v/2` in the leaf of level 1,
where `v` is the content of that cell in the newly allocated field `_lrhs`. -/
theorem msolveCycle_tree (v : ℚ) :
    ∃ c, msolveCycle (treeGrid v) (singleEquation doubleFunc (fun _ => 4)) 2
        (msolveInit (treeGrid v) (singleEquation doubleFunc (fun _ => 4)) noEllipsis
          [constScalar TreeCell 0] () 4 2) = .ok c ∧
      ((noEllipsis () c.1).2.map boundaryLeaves).map
        (fun s => (s.val TreeCell.leftLeft, s.val TreeCell.leftRight, s.val TreeCell.right))
        = [(2, 2, 4 + v / 2)] ∧
      (msolveFinish (treeGrid v) (singleEquation doubleFunc (fun _ => 4)) noEllipsis (1 / 1000)
        (msolveInit (treeGrid v) (singleEquation doubleFunc (fun _ => 4)) noEllipsis
          [constScalar TreeCell 0] () 4 2) c).s.resa = |4 + v| := by
  simp [msolveInit, msolveCycle, msolveLevels, msolveLevel, msolveRelax, msolveSweep, relaxCell,
    cellSolve, probeD, probeR, evalEqs, singleEquation, doubleFunc, setAll, setNth,
    writeCell, valAt, msolveFinish, msolveResidual,
    mseedZero, levelsFrom, treeGrid, noEllipsis, boundaryLeaves, boundaryLevel, constScalar,
    idBoundary, resetZero, rhsLevels, rhsLevel, assignIdx, maxIdx, maxAbs, msolveResidual0,
    copyCell, listClone, accumulate, accumCell, restoreBoundary, Scalar.set, Function.update,
    List.range_succ]
  refine ⟨⟨by norm_num, by ring⟩, ?_⟩
  have h1 : (2 : ℚ) * (4 / 2) - 4 = 0 := by norm_num
  have h2 : 2 * ((v + 4 + 4) / 2) - 4 = 4 + v := by ring
  rw [h1, h2]
  simp only [abs_zero, if_true, lt_irrefl, if_false]
  split_ifs with h
  · rfl
  · exact le_antisymm (abs_nonneg _) (not_lt.mp h)

/-- On the tree grid, with `minlevel = 2`, the first iteration of `solve` for
`2 a[] = 4` leaves 2 in every leaf and a zero residual. -/
theorem solveIter_tree (v : ℚ) :
    (solveIter (treeGrid v) doubleFunc (fun _ => 4) 2 (1 / 1000)
      (solveInit (treeGrid v) doubleFunc (fun _ => 4) (constScalar TreeCell 0) 4)).a.val
        TreeCell.right = 2 ∧
    (solveIter (treeGrid v) doubleFunc (fun _ => 4) 2 (1 / 1000)
      (solveInit (treeGrid v) doubleFunc (fun _ => 4) (constScalar TreeCell 0) 4)).s.resa = 0 := by
  constructor
  · simp [solveIter, solveInit, solveResidual, treeGrid, maxAbs, boundaryLeaves, addCorrection,
      solveLevels, levelsFrom, solveLevel, solveRelax, solveSweep, solveRelaxCell, seedZero,
      boundaryLevel, constScalar, idBoundary, doubleFunc, diagonalize, Scalar.set,
      Function.update]
    norm_num
  · simp [solveIter, solveInit, solveResidual, treeGrid, maxAbs, boundaryLeaves, addCorrection,
      solveLevels, levelsFrom, solveLevel, solveRelax, solveSweep, solveRelaxCell, seedZero,
      boundaryLevel, constScalar, idBoundary, doubleFunc, diagonalize, Scalar.set,
      Function.update]
    norm_num

/-- On the tree grid the field `_lrhs` of `msolve` called with `minlevel = 2` is
not written in the leaf of level 1: it keeps the content `v` of the allocation. -/
theorem msolveInit_tree_lrhs (v : ℚ) :
    valAt ((msolveInit (treeGrid v) (singleEquation doubleFunc (fun _ => 4)) noEllipsis
      [constScalar TreeCell 0] () 4 2).lrhs) 0 TreeCell.right = v := by
  simp [msolveInit, levelsFrom, treeGrid, noEllipsis, boundaryLeaves, constScalar,
    idBoundary, resetZero, rhsLevels, rhsLevel, assignIdx, maxIdx, msolveResidual0,
    copyCell, listClone, Scalar.set, Function.update, valAt, evalEqs, singleEquation,
    doubleFunc, List.range_succ]

/-- C10: on a tree grid with a leaf of level 1 and finest level 2, `solve` and
`msolve` called with `minlevel = 2`, `nrelax = 4`, the tolerance `1/1000`,
`NITERMAX = NITERMIN = 1`, for `2 a[] = 4` with `a = 0` on entry, differ. The
relaxation at level 2 visits the leaf of level 1 (`foreach_level_or_leaf`), where
`msolve` has not evaluated `_lrhs` (`foreach_level`): with `v` the content of the
allocation there, `msolve` leaves `4 + v/2` in that leaf, `solve` leaves the
solution 2 and a zero residual, the two agree in the leaves of level 2, and
the residual of `msolve` is `|4 + v|`. -/
theorem msolve_reads_unwritten_rhs (v : ℚ) :
    (TreeCell.right ∈ (treeGrid v).levelOrLeaf 2 ∧ TreeCell.right ∉ (treeGrid v).level 2 ∧
      valAt ((msolveInit (treeGrid v) (singleEquation doubleFunc (fun _ => 4)) noEllipsis
        [constScalar TreeCell 0] () 4 2).lrhs) 0 TreeCell.right = v) ∧
    ((solve (treeGrid v) 1 1 (constScalar TreeCell 0) doubleFunc (fun _ => 4) 4 2
        (1 / 1000)).a.val TreeCell.right = 2 ∧
      (solve (treeGrid v) 1 1 (constScalar TreeCell 0) doubleFunc (fun _ => 4) 4 2
        (1 / 1000)).stats.resa = 0) ∧
    (∃ r, msolve (treeGrid v) 1 1 [constScalar TreeCell 0]
          (singleEquation doubleFunc (fun _ => 4)) noEllipsis () 4 2 (1 / 1000) = .ok r ∧
        r.X.map (fun s => (s.val TreeCell.leftLeft, s.val TreeCell.leftRight,
          s.val TreeCell.right)) = [(2, 2, 4 + v / 2)] ∧
        r.stats.resa = |4 + v|) := by
  refine ⟨⟨by simp [treeGrid], by simp [treeGrid], msolveInit_tree_lrhs v⟩, ?_, ?_⟩
  · unfold solve
    simp only
    rw [solveLoop_once (treeGrid v) 1 doubleFunc (fun _ => 4) 2 (1 / 1000) _ rfl (by decide)]
    exact solveIter_tree v
  · obtain ⟨c, hc, hX, hr⟩ := msolveCycle_tree v
    unfold msolve
    rw [msolveLoop_once (treeGrid v) 1 (singleEquation doubleFunc (fun _ => 4)) noEllipsis 2
      (1 / 1000) _ c rfl (by decide) hc]
    refine ⟨_, rfl, hX, ?_⟩
    exact hr

end Basilisk
